import Mathlib

/-!
Verification of the PurgePack compression toolkit against its specification.

This file gives a shallow embedding, in Lean 4, of the pure computational
core of the PurgePack sources:

* the RLE codec family and its auto-selector (`src/rls_module/src/lib.rs`),
* the first-order delta transform (`src/delta_module/src/lib.rs`),
* the canonical Huffman codec with its bit-level framing
  (`src/huffman_module/src/lib.rs`),
* the host's command-line argument routing (`src/purgepack/src/main.rs`),
* the statistics builder (`src/shared_files/src/stats.rs`),

followed by theorems settling the frozen claims about those components.

Modelling conventions:

* Rust `u8` values are modelled as `Nat`; where the source performs wrapping
  8-bit arithmetic (`wrapping_add`/`wrapping_sub`) the model uses explicit
  `% 256`; where `u32` overflow matters (`as u32` casts, the canonical-code
  accumulator) the model uses explicit `% 2^32`.
* A Rust panic (out-of-bounds index, `unwrap()` on `None`, `unreachable!`,
  `BinaryHeap::pop().unwrap()` on an empty heap) is modelled by a dedicated
  error value: `Option.none`, or a dedicated error constructor where the
  surrounding Rust function otherwise returns a `Result`.
* `std::collections::BinaryHeap` guarantees only that `pop` returns a
  minimum-weight element (the `Ord` instance of `Node` compares weights
  only, so the order among equal weights is unspecified).  The model keeps
  the queue as a weight-sorted list; `heapPush` inserts after existing
  equal-weight entries and popping takes the two front (minimal) elements.
* Rust's stable `sort_by` is modelled by `List.insertionSort`; the orderings
  used are total, and where the sort key admits ties the source's behaviour
  does not depend on the tie order (the key below is injective on the lists
  being sorted, so the sorted list is uniquely determined anyway).
-/

/-! ### RLE module (`src/rls_module/src/lib.rs`) -/

/-- `MAX_RUN_LENGTH: u8 = u8::MAX` from the RLE module. -/
def MAX_RUN_LENGTH : Nat := 255

/-- `ESCAPE_BYTE: u8 = u8::MIN` from the RLE module. -/
def ESCAPE_BYTE : Nat := 0

/-- `cli_parse::Version` of the RLE module: the version selector. -/
inductive RleVersion where
  | one
  | two
  | auto
deriving DecidableEq, Repr

/-- Loop body of `compress_v1`: the running state is the current run byte
and its count; on a mismatch (or a full 255-run) the pair `(count, byte)`
is emitted and the run restarts.  After the loop the final pair is emitted. -/
def compressV1Go (current_byte : Nat) (count : Nat) : List Nat → List Nat
  | [] => [count, current_byte]
  | byte :: rest =>
    if byte = current_byte ∧ count < MAX_RUN_LENGTH then
      compressV1Go current_byte (count + 1) rest
    else
      count :: current_byte :: compressV1Go byte 1 rest

/-- `compress_v1`: pair-encoded RLE.  Empty input gives empty output;
otherwise the run loop starts from the first byte with count 1. -/
def compress_v1 (uncompressed_data : List Nat) : List Nat :=
  match uncompressed_data with
  | [] => []
  | b :: rest => compressV1Go b 1 rest

/-- Decoding loop of `decompress_v1`: `chunks_exact(2)` over the stream,
emitting `byte` repeated `count` times per `(count, byte)` pair.  (The
fallback arm corresponds to `chunks_exact` ignoring a trailing odd byte;
it is unreachable after the even-length guard.) -/
def decodePairs : List Nat → List Nat
  | count :: byte :: rest => List.replicate count byte ++ decodePairs rest
  | _ => []

/-- `decompress_v1`: empty input is accepted as empty, an odd-length stream
is rejected with the source's error string, otherwise the pairs are decoded. -/
def decompress_v1 (compressed_data : List Nat) : Except String (List Nat) :=
  if compressed_data.isEmpty then .ok []
  else if compressed_data.length % 2 ≠ 0 then .error "Invalid compressed data length"
  else .ok (decodePairs compressed_data)

/-- `push_to_compressed_data`: the run emitter of `compress_v2`.  Runs longer
than 3, and every run of the escape byte itself, are emitted as the triplet
`[ESCAPE_BYTE, count, byte]`; other runs are emitted literally. -/
def push_to_compressed_data (count : Nat) (current_byte : Nat) : List Nat :=
  if count > 3 ∨ current_byte = ESCAPE_BYTE then
    [ESCAPE_BYTE, count, current_byte]
  else
    List.replicate count current_byte

/-- Loop body of `compress_v2`; identical run tracking to `compressV1Go`
but emission goes through `push_to_compressed_data`. -/
def compressV2Go (current_byte : Nat) (count : Nat) : List Nat → List Nat
  | [] => push_to_compressed_data count current_byte
  | byte :: rest =>
    if byte = current_byte ∧ count < MAX_RUN_LENGTH then
      compressV2Go current_byte (count + 1) rest
    else
      push_to_compressed_data count current_byte ++ compressV2Go byte 1 rest

/-- `compress_v2`: hybrid RLE with escape triplets. -/
def compress_v2 (uncompressed_data : List Nat) : List Nat :=
  match uncompressed_data with
  | [] => []
  | b :: rest => compressV2Go b 1 rest

/-- Error outcomes of `decompress_v2`.  `corruptInput` is the source's
`Err(&'static str)` return; `indexOutOfBounds` models the panic the source
hits when it indexes `compressed_data[index + 2]` past the end of the
buffer (its bounds check is `index + 2 > len`, which only catches the case
of zero bytes after the escape, not one). -/
inductive RleError where
  | corruptInput (msg : String)
  | indexOutOfBounds
deriving DecidableEq, Repr

/-- Decoding loop of `decompress_v2` over the remaining stream.  At an
escape byte with no byte after it the source returns its error; with
exactly one byte after it the source's check `index + 2 > len` passes and
`compressed_data[index + 2]` panics (modelled `indexOutOfBounds`). -/
def decompressV2Go : List Nat → Except RleError (List Nat)
  | [] => .ok []
  | b :: rest =>
    if b = ESCAPE_BYTE then
      match rest with
      | [] => .error (.corruptInput "Invalid RLE triplet in compressed data.")
      | [_] => .error .indexOutOfBounds
      | count :: byte :: rest2 =>
        match decompressV2Go rest2 with
        | .ok d => .ok (List.replicate count byte ++ d)
        | .error e => .error e
    else
      match decompressV2Go rest with
      | .ok d => .ok (b :: d)
      | .error e => .error e

/-- `decompress_v2`: empty input short-circuits to empty output, otherwise
the scanning loop runs. -/
def decompress_v2 (compressed_data : List Nat) : Except RleError (List Nat) :=
  if compressed_data.isEmpty then .ok [] else decompressV2Go compressed_data

/-- Scoreboard fold of `auto_choice_from_chunks`: the accumulator is
`(version1_score, version2_score)`; empty chunks are skipped, the variant
with the strictly shorter in-memory compression of the chunk scores. -/
def autoScoresFold (acc : Nat × Nat) (chunks : List (List Nat)) : Nat × Nat :=
  chunks.foldl
    (fun s chunk =>
      if chunk.isEmpty then s
      else
        let compressed_data_v1 := compress_v1 chunk
        let compressed_data_v2 := compress_v2 chunk
        if compressed_data_v2.length < compressed_data_v1.length then (s.1, s.2 + 1)
        else if compressed_data_v1.length < compressed_data_v2.length then (s.1 + 1, s.2)
        else s)
    acc

/-- `auto_choice_from_chunks`: returns v2 iff v2's score is strictly
greater than v1's, and v1 otherwise (ties favour v1). -/
def auto_choice_from_chunks (chunks : List (List Nat)) : RleVersion :=
  let s := autoScoresFold (0, 0) chunks
  if s.2 > s.1 then .two else .one

/-- Well-formedness of an RLE v2 stream, mirroring the decoder's grammar:
the stream is a sequence of escape triplets `[0, count, byte]` and nonzero
literal bytes.  On such a stream `decompress_v2` never errs or reads out
of bounds. -/
def isV2WellFormed : List Nat → Bool
  | [] => true
  | b :: rest =>
    if b = ESCAPE_BYTE then
      match rest with
      | _ :: _ :: rest2 => isV2WellFormed rest2
      | _ => false
    else
      isV2WellFormed rest

/-- Claim-level count of samples won by v1: non-empty samples whose v1
compression is strictly shorter than their v2 compression. -/
def v1WinCount (chunks : List (List Nat)) : Nat :=
  chunks.countP (fun c => !c.isEmpty && decide ((compress_v1 c).length < (compress_v2 c).length))

/-- Claim-level count of samples won by v2: non-empty samples whose v2
compression is strictly shorter than their v1 compression. -/
def v2WinCount (chunks : List (List Nat)) : Nat :=
  chunks.countP (fun c => !c.isEmpty && decide ((compress_v2 c).length < (compress_v1 c).length))

/-! ### Delta module (`src/delta_module/src/lib.rs`) -/

/-- `APPLICATION_MAGIC: [u8; 4] = *b"PPCB"`. -/
def APPLICATION_MAGIC : List Nat := [0x50, 0x50, 0x43, 0x42]

/-- `MODULE_ID: u8 = 0x01` (delta transform). -/
def MODULE_ID : Nat := 0x01

/-- The 5-byte container header the delta encoder writes (`write_header`):
magic then algorithm id. -/
def deltaHeaderBytes : List Nat := APPLICATION_MAGIC ++ [ MODULE_ID ]

/-- The `Transform` direction enum of the delta module. -/
inductive Transform where
  | encode
  | decode
deriving DecidableEq, Repr

/-- `u8::wrapping_sub` on byte values. -/
def wrapping_sub (a b : Nat) : Nat := (a + 256 - b % 256) % 256

/-- `u8::wrapping_add` on byte values. -/
def wrapping_add (a b : Nat) : Nat := (a + b) % 256

/-- `transform_data_chunk`: byte-by-byte delta encode or decode of a chunk,
threading the previous value; returns the transformed bytes and the final
previous value (the seed for the next chunk). -/
def transform_data_chunk : List Nat → Nat → Transform → List Nat × Nat
  | [], previous_value, _ => ([], previous_value)
  | current_byte :: rest, previous_value, t =>
    let delta_change :=
      match t with
      | .encode => wrapping_sub current_byte previous_value
      | .decode => wrapping_add current_byte previous_value
    let next_prev :=
      match t with
      | .encode => current_byte
      | .decode => delta_change
    let r := transform_data_chunk rest next_prev t
    (delta_change :: r.1, r.2)

/-- Encoding path of `start_proccessing_file`: the header is written first,
unconditionally; then the seed byte is copied if the input is non-empty
(`set_delta_seed` returning `None` on empty input ends the run with the
header already in the output), and the remaining bytes are delta-encoded
against it. -/
def start_proccessing_file_encode (input : List Nat) : List Nat :=
  deltaHeaderBytes ++
    (match input with
     | [] => []
     | seed :: rest => seed :: (transform_data_chunk rest seed .encode).1)

/-- Decoding path of `start_proccessing_file`: `read_and_validate_header`
consumes exactly 5 bytes and checks magic and module id; then the seed byte
is copied and the rest is delta-decoded against it.  The error strings are
the source's. -/
def start_proccessing_file_decode (input : List Nat) : Except String (List Nat) :=
  if input.length < 5 then
    .error "Failed to read PurgePack header. File may be too short or corrupted."
  else if input.take 4 ≠ APPLICATION_MAGIC then
    .error "Invalid PurgePack magic number."
  else if input.getD 4 0 ≠ MODULE_ID then
    .error "Unsupported module ID."
  else
    match input.drop 5 with
    | [] => .ok []
    | seed :: rest => .ok (seed :: (transform_data_chunk rest seed .decode).1)

/-! ### Host argument routing (`src/purgepack/src/main.rs`, `main`)

Command-line tokens are modelled as lists of characters (`Arg`), so that
the string operations the source uses (`contains('+')`,
`strip_prefix('+')`) are the corresponding list operations. -/

/-- A command-line token. -/
abbrev Arg := List Char

/-- `IndexMap::insert(k, Vec::new())`: if the key is present its value is
replaced by the fresh empty vector and its position kept, otherwise the
entry is appended. -/
def indexMapInsert (m : List (Arg × List Arg)) (k : Arg) :
    List (Arg × List Arg) :=
  if m.any (fun p => p.1 = k) then
    m.map (fun p => if p.1 = k then (k, []) else p)
  else
    m ++ [(k, [])]

/-- `seperated_args.get_mut(&k).unwrap().push(v)`: append `v` to the entry
with key `k` (called only after `contains_key` succeeded). -/
def indexMapAppend (m : List (Arg × List Arg)) (k : Arg) (v : Arg) :
    List (Arg × List Arg) :=
  m.map (fun p => if p.1 = k then (p.1, p.2 ++ [v]) else p)

/-- The argument-splitting loop of `main`.  State: the optional global
group, the ordered module-group map, and `last_main_arg`.  A token is a
global argument iff no module group has started and it does not contain
`'+'` anywhere; a token containing `'+'` is treated as a group introducer
and `strip_prefix('+').unwrap()` panics (modelled `none`) unless the `'+'`
is the first character; any other token joins the current group if one
exists. -/
def splitArgsGo :
    List Arg → Option (List Arg) → List (Arg × List Arg) → Arg →
      Option (Option (List Arg) × List (Arg × List Arg))
  | [], global_args, seperated_args, _ => some (global_args, seperated_args)
  | arg :: rest, global_args, seperated_args, last_main_arg =>
    if seperated_args.isEmpty ∧ ¬ arg.contains '+' then
      splitArgsGo rest (some (global_args.getD [] ++ [arg])) seperated_args last_main_arg
    else if arg.contains '+' then
      match arg with
      | '+' :: name =>
        splitArgsGo rest global_args (indexMapInsert seperated_args name) name
      | _ =>
        none
    else
      if seperated_args.any (fun p => p.1 = last_main_arg) then
        splitArgsGo rest global_args (indexMapAppend seperated_args last_main_arg arg) last_main_arg
      else
        splitArgsGo rest global_args seperated_args last_main_arg

/-- `main`'s split of the arguments after the program name into the global
group and the module groups; `none` models a panic of the loop. -/
def splitArgs (args : List Arg) :
    Option (Option (List Arg) × List (Arg × List Arg)) :=
  splitArgsGo args none [] []

/-- Whether a token starts a module group: it begins with `'+'`. -/
def isPlusToken : Arg → Bool
  | c :: _ => c == '+'
  | [] => false

/-- Claim-level description of the global group: the tokens before the
first token that starts a module group. -/
def specGlobal (args : List Arg) : List Arg :=
  args.takeWhile (fun a => ¬ a.contains '+')

/-- Claim-level grouping of the post-global tokens: each `+name` token
opens a group collecting the following ordinary tokens. -/
def specGroupsGo : List Arg → Option (Arg × List Arg) → List (Arg × List Arg)
  | [], cur =>
    (match cur with
     | some g => [g]
     | none => [])
  | a :: rest, cur =>
    if isPlusToken a then
      match cur with
      | some g => g :: specGroupsGo rest (some (a.drop 1, []))
      | none => specGroupsGo rest (some (a.drop 1, []))
    else
      match cur with
      | some g => specGroupsGo rest (some (g.1, g.2 ++ [a]))
      | none => specGroupsGo rest none

/-- Claim-level description of the module groups of a command line. -/
def specModuleGroups (args : List Arg) : List (Arg × List Arg) :=
  specGroupsGo (args.dropWhile (fun a => ¬ a.contains '+')) none

/-! ### Statistics (`src/shared_files/src/stats.rs`)

`f64` arithmetic is modelled as exact rational arithmetic; `Duration` is
modelled as its exact length in seconds (a nonnegative rational), so the
source's `duration.as_secs_f64() == 0.0` guard is exactly `duration = 0`.
`f64::INFINITY` (the speed of a zero-duration run) is modelled by `none`
in the `Option ℚ`-valued speed field. -/

/-- A named sub-section timing (`SectionStats`). -/
structure SectionStats where
  name : String
  duration : ℚ
deriving DecidableEq, Repr

/-- The error type of the statistics builder. -/
inductive BuilderError where
  | MissingField (name : String)
deriving DecidableEq, Repr

/-- The completed statistics record (`CompressionStats`). -/
structure CompressionStats where
  algorithm_name : String
  algorithm_id : Nat
  version_used : Nat
  original_len : Nat
  processed_len : Nat
  duration : ℚ
  is_compression : Bool
  sections : List SectionStats
  compression_ratio_factor : ℚ
  speed_mib_s : Option ℚ
  raw_byte_difference : Int
  percentage_change : ℚ
deriving DecidableEq, Repr

/-- The builder (`CompressionStatsBuilder`): every mandatory field is an
`Option`, `sections` defaults to empty. -/
structure CompressionStatsBuilder where
  algorithm_name : Option String := none
  algorithm_id : Option Nat := none
  version_used : Option Nat := none
  original_len : Option Nat := none
  processed_len : Option Nat := none
  duration : Option ℚ := none
  is_compression : Option Bool := none
  sections : List SectionStats := []
deriving DecidableEq, Repr

/-- `CompressionStats::calculate_stats`: derives ratio, speed, byte
difference and percentage change, with the source's division-by-zero
guards. -/
def calculate_stats (algorithm_name : String) (algorithm_id : Nat)
    (version_used : Nat) (original_len : Nat) (processed_len : Nat)
    (duration : ℚ) (is_compression : Bool) (sections : List SectionStats) :
    CompressionStats :=
  let uncompressed_len := if is_compression then original_len else processed_len
  let compressed_len := if is_compression then processed_len else original_len
  let compression_ratio_factor : ℚ :=
    if compressed_len = 0 then 0 else (uncompressed_len : ℚ) / (compressed_len : ℚ)
  let speed_mib_s : Option ℚ :=
    if duration = 0 then none
    else some (((uncompressed_len : ℚ) / (1024 * 1024)) / duration)
  let raw_byte_difference : Int := (uncompressed_len : Int) - (compressed_len : Int)
  let difference_bytes : Nat := raw_byte_difference.natAbs
  let percentage_change : ℚ :=
    if (uncompressed_len : ℚ) = 0 then 0
    else ((difference_bytes : ℚ) / (uncompressed_len : ℚ)) * 100
  { algorithm_name := algorithm_name
    algorithm_id := algorithm_id
    version_used := version_used
    original_len := original_len
    processed_len := processed_len
    duration := duration
    is_compression := is_compression
    sections := sections
    compression_ratio_factor := compression_ratio_factor
    speed_mib_s := speed_mib_s
    raw_byte_difference := raw_byte_difference
    percentage_change := percentage_change }

/-- `CompressionStatsBuilder::build`: checks the mandatory fields in source
order with `ok_or_else(MissingField(..))`, then calls `calculate_stats`. -/
def CompressionStatsBuilder.build (b : CompressionStatsBuilder) :
    Except BuilderError CompressionStats :=
  match b.algorithm_name with
  | none => .error (.MissingField "algorithm_name")
  | some name =>
    match b.algorithm_id with
    | none => .error (.MissingField "algorithm_id")
    | some id =>
      match b.version_used with
      | none => .error (.MissingField "version_used")
      | some version =>
        match b.original_len with
        | none => .error (.MissingField "original_len")
        | some original =>
          match b.processed_len with
          | none => .error (.MissingField "processed_len")
          | some processed =>
            match b.duration with
            | none => .error (.MissingField "duration")
            | some duration =>
              match b.is_compression with
              | none => .error (.MissingField "is_compression")
              | some is_comp =>
                .ok (calculate_stats name id version original processed duration
                      is_comp b.sections)

/-- Claim-level first-missing-mandatory-field check, in the claim's order:
algorithm name, algorithm id, version, original length, processed length,
duration, direction. -/
def firstMissingField (b : CompressionStatsBuilder) : Option String :=
  if b.algorithm_name = none then some "algorithm_name"
  else if b.algorithm_id = none then some "algorithm_id"
  else if b.version_used = none then some "version_used"
  else if b.original_len = none then some "original_len"
  else if b.processed_len = none then some "processed_len"
  else if b.duration = none then some "duration"
  else if b.is_compression = none then some "is_compression"
  else none

/-- Claim-level builder semantics: `MissingField` of the first unset
mandatory field, otherwise the record whose derived fields satisfy the
claim's formulas (with the swap of original/processed lengths for the
decompression direction, as in the spec's §4.9 definitions). -/
def buildSpec (b : CompressionStatsBuilder) : Except BuilderError CompressionStats :=
  match firstMissingField b with
  | some name => .error (.MissingField name)
  | none =>
    let is_comp := b.is_compression.getD false
    let original := b.original_len.getD 0
    let processed := b.processed_len.getD 0
    let uncompressed_len := if is_comp then original else processed
    let compressed_len := if is_comp then processed else original
    let dur := b.duration.getD 0
    .ok
      { algorithm_name := b.algorithm_name.getD ""
        algorithm_id := b.algorithm_id.getD 0
        version_used := b.version_used.getD 0
        original_len := original
        processed_len := processed
        duration := dur
        is_compression := is_comp
        sections := b.sections
        compression_ratio_factor :=
          if compressed_len = 0 then 0
          else (uncompressed_len : ℚ) / (compressed_len : ℚ)
        speed_mib_s :=
          if dur = 0 then none
          else some (((uncompressed_len : ℚ) / 2 ^ 20) / dur)
        raw_byte_difference := (uncompressed_len : Int) - (compressed_len : Int)
        percentage_change :=
          if uncompressed_len = 0 then 0
          else ((((uncompressed_len : Int) - (compressed_len : Int)).natAbs : ℚ)
                  / (uncompressed_len : ℚ)) * 100 }

/-! ### Huffman module (`src/huffman_module/src/lib.rs`) -/

/-- `BitWriter`: an in-memory MSB-first bit sink (buffer, current byte
accumulator, bit position 0..7). -/
structure BitWriter where
  buffer : List Nat
  current_byte : Nat
  bit_pos : Nat
deriving DecidableEq, Repr

/-- `BitWriter::new`. -/
def BitWriter.new : BitWriter := ⟨[], 0, 0⟩

/-- `BitWriter::write_bit`: a nonzero bit sets bit `7 - bit_pos` of the
accumulator; on reaching position 8 the accumulator is appended and reset. -/
def BitWriter.write_bit (w : BitWriter) (bit : Nat) : BitWriter :=
  let cb := if bit ≠ 0 then w.current_byte ||| (1 <<< (7 - w.bit_pos)) else w.current_byte
  if w.bit_pos + 1 = 8 then ⟨w.buffer ++ [cb], 0, 0⟩
  else ⟨w.buffer, cb, w.bit_pos + 1⟩

/-- `BitWriter::write_bits`: repeated `write_bit`. -/
def BitWriter.write_bits (w : BitWriter) (bits : List Nat) : BitWriter :=
  bits.foldl BitWriter.write_bit w

/-- `BitWriter::flush`: appends the partial byte iff `bit_pos > 0`. -/
def BitWriter.flush (w : BitWriter) : BitWriter :=
  if w.bit_pos > 0 then ⟨w.buffer ++ [w.current_byte], 0, 0⟩ else w

/-- `BitReader`: an in-memory MSB-first bit source. -/
structure BitReader where
  buffer : List Nat
  byte_pos : Nat
  bit_pos : Nat
deriving DecidableEq, Repr

/-- `BitReader::read_bit`: `None` at end of buffer, otherwise bit
`7 - bit_pos` of the current byte, advancing the position. -/
def BitReader.read_bit (r : BitReader) : Option (Nat × BitReader) :=
  if r.byte_pos ≥ r.buffer.length then none
  else
    let bit := (r.buffer.getD r.byte_pos 0 >>> (7 - r.bit_pos)) &&& 1
    if r.bit_pos + 1 = 8 then some (bit, ⟨r.buffer, r.byte_pos + 1, 0⟩)
    else some (bit, ⟨r.buffer, r.byte_pos, r.bit_pos + 1⟩)

/-- A `for _ in 0..n { v.push(reader.read_bit().unwrap()) }` loop, as used
throughout `read_data_canonical`; a failing `read_bit` is the source's
`unwrap()` panic, modelled `none`. -/
def BitReader.readBits : BitReader → Nat → Option (List Nat × BitReader)
  | r, 0 => some ([], r)
  | r, n + 1 =>
    match r.read_bit with
    | none => none
    | some (b, r1) =>
      match r1.readBits n with
      | none => none
      | some (bs, r2) => some (b :: bs, r2)

/-- Byte value packed from one chunk of up to 8 bits: the source's
`bytes[i / 8] |= 1 << (7 - (i % 8))` restricted to the bits landing in one
output byte (`j = i % 8` is the position inside the chunk). -/
def chunkByte (chunk : List Nat) : Nat :=
  chunk.enum.foldl (fun acc jb => if jb.2 ≠ 0 then acc ||| (1 <<< (7 - jb.1)) else acc) 0

/-- `bits_to_bytes`: packs a bit list MSB-first into bytes, the final
partial chunk padded with zero bits.  The source allocates
`(len + 7) / 8` zero bytes and ORs bit `i` into byte `i / 8` at position
`7 - i % 8`; as the indices arrive in increasing order this is exactly
consecutive 8-bit chunks packed by `chunkByte`. -/
def bits_to_bytes : List Nat → List Nat
  | [] => []
  | b0 :: b1 :: b2 :: b3 :: b4 :: b5 :: b6 :: b7 :: rest =>
    chunkByte [b0, b1, b2, b3, b4, b5, b6, b7] :: bits_to_bytes rest
  | l => [chunkByte l]

/-- `u32::from_be_bytes` / `u8::from_be_bytes` on the little byte lists
produced by `bits_to_bytes` (the `try_into().unwrap()` on the expected
byte count cannot fail on the 32- and 8-bit reads that use this). -/
def from_be_bytes (bytes : List Nat) : Nat :=
  bytes.foldl (fun acc b => acc * 256 + b) 0

/-- `DecodeNode`: a node of the decoding trie (optional children and an
optional byte payload). -/
inductive DecodeNode where
  | mk (left : Option DecodeNode) (right : Option DecodeNode) (byte : Option Nat)

/-- Left child of a decode node. -/
def DecodeNode.left : DecodeNode → Option DecodeNode
  | ⟨l, _, _⟩ => l

/-- Right child of a decode node. -/
def DecodeNode.right : DecodeNode → Option DecodeNode
  | ⟨_, r, _⟩ => r

/-- Byte payload of a decode node. -/
def DecodeNode.byte : DecodeNode → Option Nat
  | ⟨_, _, b⟩ => b

/-- `DecodeNode::new`. -/
def DecodeNode.new : DecodeNode := ⟨none, none, none⟩

/-- `DecodeNode::insert`: walk the code (0 = left, 1 = right), creating
missing nodes (`get_or_insert_with(DecodeNode::new)`), and store the byte
at the terminal node. -/
def DecodeNode.insert (t : DecodeNode) : List Nat → Nat → DecodeNode
  | [], byte =>
    match t with
    | ⟨l, r, _⟩ => ⟨l, r, some byte⟩
  | bit :: code, byte =>
    match t with
    | ⟨l, r, b⟩ =>
      if bit = 0 then ⟨some ((l.getD DecodeNode.new).insert code byte), r, b⟩
      else ⟨l, some ((r.getD DecodeNode.new).insert code byte), b⟩

/-- `build_decoding_tree`: insert every assigned code (byte values in
increasing order, as `codes.iter().enumerate()`). -/
def build_decoding_tree (codes : List (Option (List Nat))) : DecodeNode :=
  codes.enum.foldl
    (fun root p =>
      match p.2 with
      | some code => root.insert code p.1
      | none => root)
    DecodeNode.new

/-- Loop of `decode_canonical`: walk one bit at a time from the current
node; a missing child is the source's `unwrap()` panic (modelled `none`);
on reaching a node carrying a byte, emit it and reset to the root. -/
def decodeCanonicalGo (root : DecodeNode) : List Nat → DecodeNode → Option (List Nat)
  | [], _ => some []
  | bit :: bits, node =>
    match (if bit = 0 then node.left else node.right) with
    | none => none
    | some child =>
      match child.byte with
      | some b =>
        match decodeCanonicalGo root bits root with
        | some res => some (b :: res)
        | none => none
      | none => decodeCanonicalGo root bits child

/-- `decode_canonical`: decode a bit sequence through the trie. -/
def decode_canonical (bits : List Nat) (root : DecodeNode) : Option (List Nat) :=
  decodeCanonicalGo root bits root

/-- `Node`: a node of the Huffman construction tree.  The source uses
optional children and an optional byte with the invariant that heap
entries are either leaves (byte set, no children) or merged nodes (both
children set); the model bakes that shape in. -/
inductive Node where
  | leaf (num : Nat) (byte : Nat)
  | node (num : Nat) (left : Node) (right : Node)
deriving DecidableEq, Repr

/-- Weight of a tree node (`Node::num`, the `Ord` key). -/
def Node.num : Node → Nat
  | .leaf n _ => n
  | .node n _ _ => n

/-- Multiset of leaf bytes of a tree, left to right. -/
def Node.bytes : Node → List Nat
  | .leaf _ b => [b]
  | .node _ l r => l.bytes ++ r.bytes

/-- Leaves of a tree with their root paths (0 = left, 1 = right), extending
a current path prefix; mirrors the recursion of `generate_byte_codes`. -/
def Node.leafPaths : Node → List Nat → List (Nat × List Nat)
  | .leaf _ b, current => [(b, current)]
  | .node _ l r, current => l.leafPaths (current ++ [0]) ++ r.leafPaths (current ++ [1])

/-- `calculate_byte_frequencies`: occurrence count of each byte value
(the source's `[u32; 256]` table read at index `b`; counts stay below
`2^32` for every input considered in the theorems below, so the `u32` is
modelled as `Nat`). -/
def calculate_byte_frequencies (buffer : List Nat) : Nat → Nat :=
  fun b => buffer.count b

/-- Insertion into the priority queue modelling `BinaryHeap<Reverse<Box<Node>>>`:
the queue is kept sorted by ascending weight, new entries going after
existing equal weights.  (`Node`'s `Ord` compares weights only, so the
heap's order among equal weights is unspecified; the roundtrip theorems do
not depend on the tie order.) -/
def heapPush (q : List Node) (n : Node) : List Node :=
  match q with
  | [] => [n]
  | m :: rest => if n.num < m.num then n :: m :: rest else m :: heapPush rest n

/-- The merge loop of `generate_huffman_tree`: while more than one node
remains, pop the two lightest, merge them (first popped becomes the left
child) and push the merged node back.  `fuel` is the termination measure
(the caller passes the queue length; each step removes one node);
`pop().unwrap()` on an empty heap is modelled `none`. -/
def buildLoopFuel : Nat → List Node → Option Node
  | _, [] => none
  | _, [t] => some t
  | 0, _ => none
  | fuel + 1, t1 :: t2 :: rest =>
    buildLoopFuel fuel (heapPush rest (.node (t1.num + t2.num) t1 t2))

/-- `generate_huffman_tree`: push a leaf per byte with nonzero frequency
(in increasing byte order) and run the merge loop. -/
def generate_huffman_tree (frequencies : Nat → Nat) : Option Node :=
  let heap :=
    (List.range 256).foldl
      (fun q byte => if frequencies byte > 0 then heapPush q (.leaf (frequencies byte) byte) else q)
      []
  buildLoopFuel heap.length heap

/-- The recursive `traverse` of `generate_byte_codes`: a leaf stores the
current path as its code; an inner node recurses left with bit 0 appended,
then right with bit 1 appended. -/
def traverse (node : Node) (current : List Nat) (codes : List (List Nat)) : List (List Nat) :=
  match node with
  | .leaf _ b => codes.set b current
  | .node _ l r => traverse r (current ++ [1]) (traverse l (current ++ [0]) codes)

/-- `generate_byte_codes`: 256 code slots (empty = unused), filled by
traversing the tree from the root with the empty path. -/
def generate_byte_codes (root : Node) : List (List Nat) :=
  traverse root [] (List.replicate 256 [])

/-- The `code_lengths` computation of `canonical_huffman`: the `(byte,
length)` pairs of the non-empty codes, in increasing byte order. -/
def code_lengths_of (byte_codes : List (List Nat)) : List (Nat × Nat) :=
  byte_codes.enum.filterMap
    (fun p => if p.2.isEmpty then none else some (p.1, p.2.length))

/-- The big-endian bit rendering used throughout the Huffman framing:
`for i in (0..w).rev() { emit((n >> i) & 1) }`. -/
def natBitsBE (w : Nat) (n : Nat) : List Nat :=
  (List.range w).reverse.map (fun i => (n >>> i) &&& 1)

/-- The sort ordering of `generate_canonical_codes`: by length, then by
byte value within equal lengths. -/
def canonicalLe (a b : Nat × Nat) : Prop :=
  a.2 < b.2 ∨ (a.2 = b.2 ∧ a.1 ≤ b.1)

instance : DecidableRel canonicalLe := fun a b => by
  unfold canonicalLe
  infer_instance

/-- `generate_canonical_codes`: sort the pairs by (length, byte), then
assign codes sequentially — shift the 32-bit accumulator left by the
length increase, emit its low `length` bits MSB-first, increment.  The
accumulator is a `u32`; the explicit `% 2^32` models its wrap-around. -/
def generate_canonical_codes (byte_length_pairs : List (Nat × Nat)) :
    List (Option (List Nat)) :=
  let sorted := List.insertionSort canonicalLe byte_length_pairs
  (sorted.foldl
    (fun (st : List (Option (List Nat)) × Nat × Nat) p =>
      let current_code := (st.2.1 <<< (p.2 - st.2.2)) % 2 ^ 32
      let canonical_code := natBitsBE p.2 current_code
      (st.1.set p.1 (some canonical_code), (current_code + 1) % 2 ^ 32, p.2))
    (List.replicate 256 none, 0, 0)).1

/-- `compress_canonical`: concatenate each input byte's canonical code;
a byte with no code is the source's explicit `panic!` (modelled `none`). -/
def compress_canonical : List Nat → List (Option (List Nat)) → Option (List Nat)
  | [], _ => some []
  | b :: rest, byte_codes =>
    match byte_codes.getD b none with
    | some code =>
      match compress_canonical rest byte_codes with
      | some bits => some (code ++ bits)
      | none => none
    | none => none

/-- Bits of one serialized `(byte, length)` table entry: 8 bits of the
byte, then 8 bits of the length (`length as u8`; the cast's truncation is
the `% 256`). -/
def pairBits (p : Nat × Nat) : List Nat :=
  natBitsBE 8 p.1 ++ natBitsBE 8 (p.2 % 256)

/-- `write_data_canonical`: 32 bits of table length (`as u32`), 32 bits of
data-bit length (`as u32`), 16 bits per table pair, then the compressed
bits, all through one `BitWriter`, flushed at the end. -/
def write_data_canonical (byte_lengths : List (Nat × Nat))
    (compressed_bits : List Nat) : List Nat :=
  let w := BitWriter.new
  let w := w.write_bits (natBitsBE 32 (byte_lengths.length % 2 ^ 32))
  let w := w.write_bits (natBitsBE 32 (compressed_bits.length % 2 ^ 32))
  let w := w.write_bits (byte_lengths.flatMap pairBits)
  let w := w.write_bits compressed_bits
  w.flush.buffer

/-- The table-reading loop of `read_data_canonical`: `table_len` rounds of
8 bits of byte value and 8 bits of code length. -/
def readPairsLoop : BitReader → Nat → Option (List (Nat × Nat) × BitReader)
  | r, 0 => some ([], r)
  | r, n + 1 =>
    match r.readBits 8 with
    | none => none
    | some (byte_bits, r1) =>
      match r1.readBits 8 with
      | none => none
      | some (len_bits, r2) =>
        match readPairsLoop r2 n with
        | none => none
        | some (ps, r3) =>
          some ((from_be_bytes (bits_to_bytes byte_bits),
                 from_be_bytes (bits_to_bytes len_bits)) :: ps, r3)

/-- `read_data_canonical`: parse the framed stream (32-bit table length,
32-bit data-bit length, the table, exactly `data_len` code bits),
regenerate the canonical codes, build the decoding trie and decode.  Any
failing `read_bit().unwrap()` is a panic, modelled `none`. -/
def read_data_canonical (file : List Nat) : Option (List Nat) :=
  let r : BitReader := ⟨file, 0, 0⟩
  match r.readBits 32 with
  | none => none
  | some (table_len_bits, r1) =>
    let table_len := from_be_bytes (bits_to_bytes table_len_bits)
    match r1.readBits 32 with
    | none => none
    | some (data_len_bits, r2) =>
      let data_len := from_be_bytes (bits_to_bytes data_len_bits)
      match readPairsLoop r2 table_len with
      | none => none
      | some (byte_lengths, r3) =>
        let codes := generate_canonical_codes byte_lengths
        match r3.readBits data_len with
        | none => none
        | some (compressed_bits, _) =>
          decode_canonical compressed_bits (build_decoding_tree codes)

/-- The `(byte, length)` table computed by the compression path of
`canonical_huffman` for a buffer: frequency table, tree, per-byte codes,
then the non-empty `(byte, length)` pairs.  `none` models the panic of
`generate_huffman_tree` on an empty input (empty heap). -/
def canonicalHuffmanCodeLengths (buffer : List Nat) : Option (List (Nat × Nat)) :=
  match generate_huffman_tree (calculate_byte_frequencies buffer) with
  | none => none
  | some root => some (code_lengths_of (generate_byte_codes root))

/-- The compressed bit stream the `canonical_huffman` pipeline produces
for a buffer (before framing); `none` models a panic of the tree build or
of `compress_canonical`. -/
def canonicalHuffmanBits (buffer : List Nat) : Option (List Nat) :=
  match canonicalHuffmanCodeLengths buffer with
  | none => none
  | some cl => compress_canonical buffer (generate_canonical_codes cl)

/-- The full compression path of `canonical_huffman`: the framed output
file bytes, or `none` if the pipeline panics. -/
def canonical_huffman_compress (buffer : List Nat) : Option (List Nat) :=
  match canonicalHuffmanCodeLengths buffer with
  | none => none
  | some cl =>
    match compress_canonical buffer (generate_canonical_codes cl) with
    | none => none
    | some cbits => some (write_data_canonical cl cbits)

/-! ### Specification-side helper functions for the proofs -/

/-- Numeric value of an MSB-first 0/1 bit list. -/
def bitsToNat (bits : List Nat) : Nat :=
  bits.foldl (fun a b => 2 * a + b) 0

/-- The 8 bits of a byte value, MSB first. -/
def byteBitsBE (v : Nat) : List Nat := natBitsBE 8 v

/-- All bits of a byte buffer, MSB first within each byte. -/
def bytesToBits (bytes : List Nat) : List Nat := bytes.flatMap byteBitsBE

/-- Walk a decoding trie along a path (0 = left, 1 = right). -/
def followPath : DecodeNode → List Nat → Option DecodeNode
  | t, [] => some t
  | t, bit :: rest =>
    match (if bit = 0 then t.left else t.right) with
    | none => none
    | some c => followPath c rest

/-- Byte stored at the end of a path in a decoding trie, if the path
exists and carries one. -/
def byteAtPath (t : DecodeNode) (p : List Nat) : Option Nat :=
  (followPath t p).bind DecodeNode.byte

/-- The sequential canonical-code assignment over an already sorted pair
list, recording each pair's assigned code bits; state is (accumulator,
previous length) exactly as in `generate_canonical_codes`. -/
def canonAssign (cur prev : Nat) : List (Nat × Nat) → List (Nat × List Nat)
  | [] => []
  | p :: rest =>
    let current_code := (cur <<< (p.2 - prev)) % 2 ^ 32
    (p.1, natBitsBE p.2 current_code) :: canonAssign ((current_code + 1) % 2 ^ 32) p.2 rest

/-- The same assignment without the `u32` wrap, used to reason about the
in-range case. -/
def canonAssignNoWrap (cur prev : Nat) : List (Nat × Nat) → List (Nat × List Nat)
  | [] => []
  | p :: rest =>
    let current_code := cur <<< (p.2 - prev)
    (p.1, natBitsBE p.2 current_code) :: canonAssignNoWrap (current_code + 1) p.2 rest

/-- Index-threaded form of `chunkByte`, used to reason about the fold
over `List.enum` (`chunkByteAux j acc chunk` is the fold over `chunk`
whose bits land at in-byte positions `j, j+1, ...`). -/
def chunkByteAux (j acc : Nat) : List Nat → Nat
  | [] => acc
  | b :: rest =>
    chunkByteAux (j + 1) (if b ≠ 0 then acc ||| (1 <<< (7 - j)) else acc) rest

/-- A bit reader positioned `i` bits into a buffer. -/
def bitReaderAt (buf : List Nat) (i : Nat) : BitReader :=
  ⟨buf, i / 8, i % 8⟩

/-- All bits `write_data_canonical` pushes through its `BitWriter`, in
order: 32 bits of table length, 32 bits of data-bit length, 16 bits per
pair, then the compressed bits. -/
def frameBits (byte_lengths : List (Nat × Nat)) (compressed_bits : List Nat) : List Nat :=
  natBitsBE 32 (byte_lengths.length % 2 ^ 32) ++
    natBitsBE 32 (compressed_bits.length % 2 ^ 32) ++
    byte_lengths.flatMap pairBits ++ compressed_bits

/-- The table-recovery stage of `read_data_canonical`: the `(byte, length)`
pairs the decoder reads back from a framed stream (the prefix of
`read_data_canonical` up to and including the table loop). -/
def read_table_pairs (file : List Nat) : Option (List (Nat × Nat)) :=
  let r : BitReader := ⟨file, 0, 0⟩
  match r.readBits 32 with
  | none => none
  | some (table_len_bits, r1) =>
    let table_len := from_be_bytes (bits_to_bytes table_len_bits)
    match r1.readBits 32 with
    | none => none
    | some (_, r2) =>
      match readPairsLoop r2 table_len with
      | none => none
      | some (byte_lengths, _) => some byte_lengths

/-- One code is a proper or improper leading piece of another. -/
def isCodePre (a b : List Nat) : Prop := ∃ t, a ++ t = b

/-- Kraft weight of a code-length list, scaled by `2^L`: the sum of
`2^(L - l)` over the lengths. -/
def kraftScaled (L : Nat) (lens : List Nat) : Nat :=
  (lens.map (fun l => 2 ^ (L - l))).sum

/-- The input of the counterexample to the universal Huffman round-trip
claim: `2^32 - 1` zero bytes followed by one `1` byte.  Its two canonical
codes have length 1, so the compressed stream holds exactly `2^32` code
bits and the 32-bit data-length field wraps to 0. -/
def huffC2Bad : List Nat := List.replicate (2 ^ 32 - 1) 0 ++ [1]

/-- The `(byte, code)` pairs `build_decoding_tree` inserts, in slot order:
one entry per assigned (`some`) slot of the code table. -/
def trieAssignments (codes : List (Option (List Nat))) : List (Nat × List Nat) :=
  codes.enum.filterMap
    (fun p => match p.2 with | some c => some (p.1, c) | none => none)

/-! ### Proofs: RLE v1 round-trip -/

/-- Decoding the pairs emitted by the v1 run loop recovers the pending run
followed by the unprocessed input. -/
theorem decodePairs_compressV1Go (rest : List Nat) :
    ∀ c k, decodePairs (compressV1Go c k rest) = List.replicate k c ++ rest := by
  induction rest with
  | nil =>
    intro c k
    simp [compressV1Go, decodePairs]
  | cons b rest ih =>
    intro c k
    by_cases h : b = c ∧ k < MAX_RUN_LENGTH
    · rw [compressV1Go, if_pos h, ih c (k + 1), h.1,
        List.replicate_succ' (n := k)]
      simp
    · rw [compressV1Go, if_neg h]
      show decodePairs (k :: c :: compressV1Go b 1 rest) = _
      rw [decodePairs, ih b 1]
      simp

/-- The v1 run loop always emits an even number of bytes. -/
theorem compressV1Go_length_even (rest : List Nat) :
    ∀ c k, (compressV1Go c k rest).length % 2 = 0 := by
  induction rest with
  | nil => intro c k; simp [compressV1Go]
  | cons b rest ih =>
    intro c k
    by_cases h : b = c ∧ k < MAX_RUN_LENGTH
    · rw [compressV1Go, if_pos h]; exact ih c (k + 1)
    · rw [compressV1Go, if_neg h]
      show (k :: c :: compressV1Go b 1 rest).length % 2 = 0
      have := ih b 1
      simp only [List.length_cons]
      omega

/-- The v1 run loop never emits an empty stream. -/
theorem compressV1Go_ne_nil (rest : List Nat) :
    ∀ c k, compressV1Go c k rest ≠ [] := by
  induction rest with
  | nil => intro c k; simp [compressV1Go]
  | cons b rest ih =>
    intro c k
    by_cases h : b = c ∧ k < MAX_RUN_LENGTH
    · rw [compressV1Go, if_pos h]; exact ih c (k + 1)
    · rw [compressV1Go, if_neg h]; simp

/-- RLE v1 round-trip on every byte sequence. -/
theorem decompress_v1_compress_v1 (X : List Nat) :
    decompress_v1 (compress_v1 X) = .ok X := by
  cases X with
  | nil => rfl
  | cons b rest =>
    rw [compress_v1, decompress_v1,
      if_neg (by simpa [List.isEmpty_iff] using compressV1Go_ne_nil rest b 1),
      if_neg (by simp [compressV1Go_length_even rest b 1]),
      decodePairs_compressV1Go]
    simp

/-! ### Proofs: RLE v2 round-trip and the escape invariant -/

/-- Unfolding equation of the v2 decoding loop at an escape triplet. -/
theorem decompressV2Go_cons_escape (x y : Nat) (rest : List Nat) :
    decompressV2Go (ESCAPE_BYTE :: x :: y :: rest) =
      match decompressV2Go rest with
      | .ok d => .ok (List.replicate x y ++ d)
      | .error e => .error e := rfl

/-- Unfolding equation of the v2 decoding loop at a literal byte. -/
theorem decompressV2Go_cons_lit (b : Nat) (hb : b ≠ ESCAPE_BYTE) (rest : List Nat) :
    decompressV2Go (b :: rest) =
      match decompressV2Go rest with
      | .ok d => .ok (b :: d)
      | .error e => .error e := by
  conv_lhs => rw [decompressV2Go.eq_def]
  simp [hb]

/-- A literal run of a nonzero byte decodes transparently in front of any
stream the v2 decoder accepts. -/
theorem decompressV2Go_replicate (c : Nat) (hc : c ≠ ESCAPE_BYTE) :
    ∀ (k : Nat) (s d : List Nat), decompressV2Go s = .ok d →
      decompressV2Go (List.replicate k c ++ s) = .ok (List.replicate k c ++ d) := by
  intro k
  induction k with
  | zero => intro s d h; simpa using h
  | succ k ih =>
    intro s d h
    rw [List.replicate_succ, List.cons_append, decompressV2Go_cons_lit c hc, ih s d h]
    rfl

/-- A run emitted by `push_to_compressed_data` decodes to the run in front
of any stream the v2 decoder accepts. -/
theorem decompressV2Go_push (k c : Nat) (s d : List Nat)
    (h : decompressV2Go s = .ok d) :
    decompressV2Go (push_to_compressed_data k c ++ s) =
      .ok (List.replicate k c ++ d) := by
  by_cases hp : k > 3 ∨ c = ESCAPE_BYTE
  · rw [push_to_compressed_data, if_pos hp]
    show decompressV2Go (ESCAPE_BYTE :: k :: c :: s) = _
    rw [decompressV2Go_cons_escape, h]
  · rw [push_to_compressed_data, if_neg hp]
    push_neg at hp
    exact decompressV2Go_replicate c hp.2 k s d h

/-- The v2 run loop's output decodes to the pending run followed by the
unprocessed input. -/
theorem decompressV2Go_compressV2Go (rest : List Nat) :
    ∀ c k, decompressV2Go (compressV2Go c k rest) = .ok (List.replicate k c ++ rest) := by
  induction rest with
  | nil =>
    intro c k
    rw [compressV2Go, ← List.append_nil (push_to_compressed_data k c),
      decompressV2Go_push k c [] [] rfl]
  | cons b rest ih =>
    intro c k
    by_cases h : b = c ∧ k < MAX_RUN_LENGTH
    · rw [compressV2Go, if_pos h, ih c (k + 1), h.1, List.replicate_succ' (n := k)]
      simp
    · rw [compressV2Go, if_neg h, decompressV2Go_push k c _ _ (ih b 1)]
      simp

/-- `push_to_compressed_data` never emits an empty run for a nonzero
count. -/
theorem push_to_compressed_data_ne_nil (k c : Nat) (hk : 1 ≤ k) :
    push_to_compressed_data k c ≠ [] := by
  rw [push_to_compressed_data]
  split
  · simp
  · intro h
    have := congrArg List.length h
    simp at this
    omega

/-- The v2 run loop never emits an empty stream. -/
theorem compressV2Go_ne_nil (rest : List Nat) :
    ∀ c k, 1 ≤ k → compressV2Go c k rest ≠ [] := by
  induction rest with
  | nil =>
    intro c k hk
    rw [compressV2Go]
    exact push_to_compressed_data_ne_nil k c hk
  | cons b rest ih =>
    intro c k hk
    by_cases h : b = c ∧ k < MAX_RUN_LENGTH
    · rw [compressV2Go, if_pos h]; exact ih c (k + 1) (by omega)
    · rw [compressV2Go, if_neg h]
      intro hcontra
      exact push_to_compressed_data_ne_nil k c hk (List.append_eq_nil.mp hcontra).1

/-- RLE v2 round-trip on every byte sequence. -/
theorem decompress_v2_compress_v2 (X : List Nat) :
    decompress_v2 (compress_v2 X) = .ok X := by
  cases X with
  | nil => rfl
  | cons b rest =>
    rw [compress_v2, decompress_v2,
      if_neg (by simpa [List.isEmpty_iff] using compressV2Go_ne_nil rest b 1 le_rfl),
      decompressV2Go_compressV2Go]
    simp

/-- Unfolding equation of the v2 well-formedness check at an escape
triplet. -/
theorem isV2WellFormed_cons_escape (x y : Nat) (rest : List Nat) :
    isV2WellFormed (ESCAPE_BYTE :: x :: y :: rest) = isV2WellFormed rest := rfl

/-- Unfolding equation of the v2 well-formedness check at a literal byte. -/
theorem isV2WellFormed_cons_lit (b : Nat) (hb : b ≠ ESCAPE_BYTE) (rest : List Nat) :
    isV2WellFormed (b :: rest) = isV2WellFormed rest := by
  conv_lhs => rw [isV2WellFormed.eq_def]
  simp [hb]

/-- A literal run of a nonzero byte preserves v2 stream well-formedness. -/
theorem isV2WellFormed_replicate (c : Nat) (hc : c ≠ ESCAPE_BYTE) :
    ∀ (k : Nat) (s : List Nat), isV2WellFormed s = true →
      isV2WellFormed (List.replicate k c ++ s) = true := by
  intro k
  induction k with
  | zero => intro s h; simpa using h
  | succ k ih =>
    intro s h
    rw [List.replicate_succ, List.cons_append, isV2WellFormed_cons_lit c hc]
    exact ih s h

/-- Any run emitted by `push_to_compressed_data` preserves v2 stream
well-formedness. -/
theorem isV2WellFormed_push (k c : Nat) (s : List Nat)
    (h : isV2WellFormed s = true) :
    isV2WellFormed (push_to_compressed_data k c ++ s) = true := by
  by_cases hp : k > 3 ∨ c = ESCAPE_BYTE
  · rw [push_to_compressed_data, if_pos hp]
    show isV2WellFormed (ESCAPE_BYTE :: k :: c :: s) = true
    rw [isV2WellFormed_cons_escape]
    exact h
  · rw [push_to_compressed_data, if_neg hp]
    push_neg at hp
    exact isV2WellFormed_replicate c hp.2 k s h

/-- The v2 run loop's whole output is well-formed. -/
theorem isV2WellFormed_compressV2Go (rest : List Nat) :
    ∀ c k, isV2WellFormed (compressV2Go c k rest) = true := by
  induction rest with
  | nil =>
    intro c k
    rw [compressV2Go, ← List.append_nil (push_to_compressed_data k c)]
    exact isV2WellFormed_push k c [] rfl
  | cons b rest ih =>
    intro c k
    by_cases h : b = c ∧ k < MAX_RUN_LENGTH
    · rw [compressV2Go, if_pos h]; exact ih c (k + 1)
    · rw [compressV2Go, if_neg h]
      exact isV2WellFormed_push k c _ (ih b 1)

/-! ### Proofs: RLE auto-selection -/

/-- One step of the scoreboard fold, written out. -/
theorem autoScoresFold_cons (a b : Nat) (c : List Nat) (rest : List (List Nat)) :
    autoScoresFold (a, b) (c :: rest) =
      autoScoresFold
        (if c.isEmpty then (a, b)
         else if (compress_v2 c).length < (compress_v1 c).length then (a, b + 1)
         else if (compress_v1 c).length < (compress_v2 c).length then (a + 1, b)
         else (a, b)) rest := rfl

/-- The scoreboard fold counts exactly the strict per-sample wins of each
variant (ties and empty samples score for neither). -/
theorem autoScoresFold_spec (chunks : List (List Nat)) :
    ∀ a b, autoScoresFold (a, b) chunks = (a + v1WinCount chunks, b + v2WinCount chunks) := by
  induction chunks with
  | nil => intro a b; simp [autoScoresFold, v1WinCount, v2WinCount]
  | cons c rest ih =>
    intro a b
    rw [autoScoresFold_cons]
    by_cases he : c.isEmpty
    · rw [if_pos he, ih]
      simp [v1WinCount, v2WinCount, List.countP_cons, he]
    · rw [if_neg he]
      rcases lt_trichotomy (compress_v2 c).length (compress_v1 c).length with hlt | heq | hgt
      · have h1 : ¬ (compress_v1 c).length < (compress_v2 c).length := by omega
        rw [if_pos hlt, ih]
        simp [v1WinCount, v2WinCount, List.countP_cons, he, hlt, h1, Prod.ext_iff]
        omega
      · have h1 : ¬ (compress_v1 c).length < (compress_v2 c).length := by omega
        have h2 : ¬ (compress_v2 c).length < (compress_v1 c).length := by omega
        rw [if_neg h2, if_neg h1, ih]
        simp [v1WinCount, v2WinCount, List.countP_cons, he, h1, h2, Prod.ext_iff]
      · have h2 : ¬ (compress_v2 c).length < (compress_v1 c).length := by omega
        rw [if_neg h2, if_pos hgt, ih]
        simp [v1WinCount, v2WinCount, List.countP_cons, he, hgt, h2, Prod.ext_iff]
        omega

/-! ### Proofs: delta transform -/

/-- Wrapped addition inverts wrapped subtraction on byte values. -/
theorem wrapping_add_wrapping_sub (b prev : Nat) (hb : b < 256) (hp : prev < 256) :
    wrapping_add (wrapping_sub b prev) prev = b := by
  unfold wrapping_add wrapping_sub
  omega

/-- The chunk-level delta decode inverts the chunk-level delta encode and
the threaded previous values agree. -/
theorem transform_data_chunk_roundtrip (data : List Nat) :
    ∀ prev, (∀ x ∈ data, x < 256) → prev < 256 →
      (transform_data_chunk (transform_data_chunk data prev .encode).1 prev .decode).1 = data := by
  induction data with
  | nil => intro prev _ _; rfl
  | cons b rest ih =>
    intro prev h hp
    have hb : b < 256 := h b (by simp)
    rw [transform_data_chunk]
    simp only []
    rw [transform_data_chunk]
    simp only [wrapping_add_wrapping_sub b prev hb hp]
    rw [ih b (fun x hx => h x (by simp [hx])) hb]

/-- File-level delta round-trip: decoding the encoder's output (header,
seed byte, deltas) recovers the input exactly. -/
theorem delta_file_roundtrip (X : List Nat) (h : ∀ x ∈ X, x < 256) :
    start_proccessing_file_decode (start_proccessing_file_encode X) = .ok X := by
  cases X with
  | nil => rfl
  | cons s rest =>
    have hs : s < 256 := h s (by simp)
    rw [start_proccessing_file_encode, start_proccessing_file_decode]
    rw [if_neg (by simp [deltaHeaderBytes, APPLICATION_MAGIC])]
    rw [if_neg (by simp [deltaHeaderBytes, APPLICATION_MAGIC])]
    rw [if_neg (by simp [deltaHeaderBytes, APPLICATION_MAGIC, MODULE_ID])]
    have hdrop : (deltaHeaderBytes ++ s :: (transform_data_chunk rest s .encode).1).drop 5
        = s :: (transform_data_chunk rest s .encode).1 := by
      simp [deltaHeaderBytes, APPLICATION_MAGIC]
    rw [hdrop]
    show Except.ok (s :: (transform_data_chunk (transform_data_chunk rest s .encode).1 s .decode).1)
        = Except.ok (s :: rest)
    rw [transform_data_chunk_roundtrip rest s (fun x hx => h x (by simp [hx])) hs]

/-! ### Claim theorems: C1, C5, C6, C10 -/

/-- C1: for the Delta, RLE v1 and RLE v2 codecs, decoding the encoder's
output recovers every byte sequence exactly (the delta round-trip runs the
full file path: header write and validation, seed byte, chunk transform). -/
theorem C1_codec_roundtrips (X : List Nat) (h : ∀ x ∈ X, x < 256) :
    decompress_v1 (compress_v1 X) = .ok X ∧
    decompress_v2 (compress_v2 X) = .ok X ∧
    start_proccessing_file_decode (start_proccessing_file_encode X) = .ok X :=
  ⟨decompress_v1_compress_v1 X, decompress_v2_compress_v2 X, delta_file_roundtrip X h⟩

/-- Witness for C1 at the spec's delta scenario S1 (`[10, 15, 12, 16]`),
which also exercises a wrapped delta byte (253). -/
theorem C1_codec_roundtrips_witness :
    (∀ x ∈ [10, 15, 12, 16], x < 256) ∧
    (decompress_v1 (compress_v1 [10, 15, 12, 16]) = .ok [10, 15, 12, 16] ∧
     decompress_v2 (compress_v2 [10, 15, 12, 16]) = .ok [10, 15, 12, 16] ∧
     start_proccessing_file_decode (start_proccessing_file_encode [10, 15, 12, 16])
       = .ok [10, 15, 12, 16]) :=
  ⟨by decide, C1_codec_roundtrips [10, 15, 12, 16] (by decide)⟩

/-- C5 (failing-input evaluation): on the truncated streams the claim is
about, the decoders panic instead of returning `CorruptInput`.  RLE v2
with the escape byte followed by exactly one byte passes the off-by-one
bounds check `index + 2 > len` and indexes out of bounds (only an escape
with *zero* bytes after it yields the error return); Huffman decompression
of a stream shorter than the promised table or data length hits
`read_bit().unwrap()` on `None` and panics. -/
theorem C5_truncated_streams_panic :
    decompress_v2 [ESCAPE_BYTE, 5] = .error .indexOutOfBounds ∧
    decompress_v2 [ESCAPE_BYTE] =
      .error (.corruptInput "Invalid RLE triplet in compressed data.") ∧
    read_data_canonical [0, 0, 0, 1, 0, 0, 0, 0, 65] = none ∧
    read_data_canonical [] = none :=
  ⟨rfl, rfl, rfl, rfl⟩

/-- C6: the auto-selector scores each non-empty sample by the strictly
shorter of the two in-memory compressions (ties and empty samples score
for neither), and returns v2 exactly when v2's total strictly exceeds
v1's, returning v1 otherwise. -/
theorem C6_auto_selector (chunks : List (List Nat)) :
    auto_choice_from_chunks chunks =
      (if v2WinCount chunks > v1WinCount chunks then .two else .one) := by
  rw [auto_choice_from_chunks]
  rw [show autoScoresFold (0, 0) chunks = (v1WinCount chunks, v2WinCount chunks) by
    simpa using autoScoresFold_spec chunks 0 0]

/-- C10: every stream emitted by the v2 compressor is well-formed — the
byte `0x00` occurs only as the first byte of a complete escape triplet
`[0x00, count, byte]`, and every literal byte emitted is nonzero (runs of
the escape byte are emitted as triplets regardless of length). -/
theorem C10_v2_output_escape_invariant (X : List Nat) :
    isV2WellFormed (compress_v2 X) = true := by
  cases X with
  | nil => rfl
  | cons b rest =>
    rw [compress_v2]
    exact isV2WellFormed_compressV2Go rest b 1

/-! ### Claim theorems: C3 (header policy) and C4 (single-symbol Huffman) -/

set_option maxRecDepth 100000 in
/-- C3 (amended): only the Delta encoder emits the 5-byte container
header, and it emits it before checking for input, so the empty input
produces exactly the 5 header bytes (not an empty output).  The RLE
encoders emit the bare payload with no header (empty input gives empty
output); the Huffman encoder emits its framed payload with no header
(shown at the spec's S5 input, whose output starts with the 32-bit table
length `3`), and panics on empty input (`pop()` on the empty heap). -/
theorem C3_header_policy :
    (∀ X : List Nat, (start_proccessing_file_encode X).take 5 = deltaHeaderBytes) ∧
    start_proccessing_file_encode [] = deltaHeaderBytes ∧
    compress_v1 [] = [] ∧ compress_v2 [] = [] ∧
    compress_v1 [65, 65, 65, 66, 66, 67] = [3, 65, 2, 66, 1, 67] ∧
    canonical_huffman_compress [] = none ∧
    (canonical_huffman_compress [65, 65, 66, 66, 67]).map (List.take 4) = some [0, 0, 0, 3] := by
  refine ⟨fun X => ?_, by decide, by decide, by decide, by decide, by rfl, by rfl⟩
  cases X with
  | nil => rfl
  | cons s rest => rfl

set_option maxRecDepth 100000 in
/-- C3 (counterexample): the claim's empty-input clause fails for Delta
(the empty input yields the bare header, a non-empty output), and its
header clause fails for RLE (a non-empty input yields a stream that does
not begin with the magic). -/
theorem C3_header_counterexample :
    start_proccessing_file_encode [] ≠ [] ∧
    (compress_v1 [65]).take 4 ≠ APPLICATION_MAGIC ∧
    (compress_v2 [65]).take 4 ≠ APPLICATION_MAGIC ∧
    (canonical_huffman_compress [65, 65, 66, 66, 67]).map (List.take 4) ≠
      some APPLICATION_MAGIC := by
  refine ⟨by decide, by decide, by decide, ?_⟩
  intro h
  rw [show (canonical_huffman_compress [65, 65, 66, 66, 67]).map (List.take 4)
      = some [0, 0, 0, 3] from rfl] at h
  simp [APPLICATION_MAGIC] at h

set_option maxRecDepth 100000 in
/-- C4 (failing-input evaluation): on a non-empty input with a single
distinct byte value the Huffman tree is one leaf, `generate_byte_codes`
assigns it the empty code, `code_lengths` filters it out, and
`compress_canonical` panics with "Byte value 65 has no canonical code";
the encoder produces no stream at all, contradicting the claim. -/
theorem C4_single_symbol_panics :
    canonical_huffman_compress [65] = none ∧
    canonical_huffman_compress [7, 7] = none := ⟨rfl, rfl⟩

/-! ### Proofs: host argument routing (C8) -/

/-- A token starts a module group exactly when its first character is
`'+'`. -/
theorem isPlusToken_iff (a : Arg) : isPlusToken a = true ↔ ∃ t, a = '+' :: t := by
  cases a with
  | nil => simp [isPlusToken]
  | cons c t =>
    simp only [isPlusToken, beq_iff_eq]
    constructor
    · intro h; exact ⟨t, by rw [h]⟩
    · rintro ⟨t', ht⟩; cases ht; rfl

/-- A token that contains no `'+'` does not start a module group. -/
theorem isPlusToken_eq_false_of_not_contains (a : Arg) (h : a.contains '+' = false) :
    isPlusToken a = false := by
  cases a with
  | nil => rfl
  | cons c t =>
    simp only [List.contains_cons, Bool.or_eq_false_iff, beq_eq_false_iff_ne] at h
    simp [isPlusToken, h.1.symm]

/-- A `'+'`-headed token contains `'+'`. -/
theorem contains_plus_cons (t : List Char) : (('+' :: t) : Arg).contains '+' = true := by
  simp [List.contains_cons]

/-- Inserting a key not present in the map appends a fresh empty entry. -/
theorem indexMapInsert_fresh (m : List (Arg × List Arg)) (k : Arg)
    (h : ∀ p ∈ m, p.1 ≠ k) : indexMapInsert m k = m ++ [(k, [])] := by
  rw [indexMapInsert, if_neg]
  simp only [List.any_eq_true, decide_eq_true_eq, not_exists]
  intro p hp
  exact h p hp.1 hp.2

/-- Appending an argument to the key held by the map's final entry, when
no earlier entry has that key, extends just the final entry. -/
theorem indexMapAppend_last (ms : List (Arg × List Arg)) (last : Arg) (vs : List Arg)
    (arg : Arg) (h : ∀ p ∈ ms, p.1 ≠ last) :
    indexMapAppend (ms ++ [(last, vs)]) last arg = ms ++ [(last, vs ++ [arg])] := by
  rw [indexMapAppend, List.map_append]
  congr 1
  · induction ms with
    | nil => rfl
    | cons p ps ih =>
      simp only [List.map_cons, if_neg (h p (by simp))]
      rw [ih (fun q hq => h q (by simp [hq]))]
  · simp

/-- Group-collection phase of the splitting loop: with a nonempty group
map whose final entry is the current group, pairwise-fresh names and no
interior-`'+'` tokens ahead, the loop extends the map exactly as the
claim-level grouping describes. -/
theorem splitArgsGo_groups (rest : List Arg) :
    ∀ (g : Option (List Arg)) (ms : List (Arg × List Arg)) (last : Arg) (vs : List Arg),
      (∀ a ∈ rest, isPlusToken a = true ∨ a.contains '+' = false) →
      ((ms.map Prod.fst ++ [last]) ++
        (rest.filter (fun a => a.contains '+')).map (fun a => a.drop 1)).Nodup →
      splitArgsGo rest g (ms ++ [(last, vs)]) last =
        some (g, ms ++ specGroupsGo rest (some (last, vs))) := by
  induction rest with
  | nil =>
    intro g ms last vs _ _
    simp [splitArgsGo, specGroupsGo]
  | cons a rest ih =>
    intro g ms last vs h1 h2
    rcases h1 a (by simp) with hplus | hnc
    · obtain ⟨name, rfl⟩ := (isPlusToken_iff a).mp hplus
      rw [splitArgsGo, if_neg (by simp), if_pos (by simp [contains_plus_cons])]
      have hfiltereq :
          ((('+' :: name) :: rest).filter (fun a => a.contains '+')).map (fun a => a.drop 1)
            = name :: (rest.filter (fun a => a.contains '+')).map (fun a => a.drop 1) := by
        rw [List.filter_cons_of_pos (by simp [contains_plus_cons])]
        simp
      rw [hfiltereq] at h2
      have hfresh : ∀ p ∈ ms ++ [(last, vs)], p.1 ≠ name := by
        intro p hp hk
        have hmem : p.1 ∈ ms.map Prod.fst ++ [last] := by
          rcases List.mem_append.mp hp with hin | hin
          · exact List.mem_append.mpr (Or.inl (List.mem_map_of_mem _ hin))
          · simp at hin
            simp [hin]
        have hdisj := (List.nodup_append.mp h2).2.2
        exact hdisj hmem (by simp [hk])
      rw [indexMapInsert_fresh _ _ hfresh]
      rw [show ms ++ [(last, vs)] ++ [(name, [])] = (ms ++ [(last, vs)]) ++ [(name, [])] by
        simp]
      rw [ih g (ms ++ [(last, vs)]) name [] (fun x hx => h1 x (by simp [hx])) ?nodup]
      case nodup =>
        have heq : (ms ++ [(last, vs)]).map Prod.fst ++ [name]
            = (ms.map Prod.fst ++ [last]) ++ [name] := by simp
        rw [heq, List.append_assoc]
        simpa using h2
      rw [specGroupsGo]
      simp only [isPlusToken, beq_self_eq_true, if_pos]
      simp [List.append_assoc]
    · have hmem : '+' ∉ a := by simpa using hnc
      have hnotplus : ∀ (name : List Char), a = '+' :: name → False := by
        intro name hname
        rw [hname] at hmem
        simp at hmem
      rw [splitArgsGo, if_neg (by simp), if_neg (by simp [hmem]), if_pos (by simp)]
      · have hfiltereq :
            ((a :: rest).filter (fun x => x.contains '+')).map (fun x => x.drop 1)
              = (rest.filter (fun x => x.contains '+')).map (fun x => x.drop 1) := by
          rw [List.filter_cons_of_neg (by simp [hmem])]
        rw [hfiltereq] at h2
        have hown : ∀ p ∈ ms, p.1 ≠ last := by
          intro p hp
          have hK : (ms.map Prod.fst ++ [last]).Nodup := (List.nodup_append.mp h2).1
          have hd := (List.nodup_append.mp hK).2.2
          intro hk
          exact hd (List.mem_map_of_mem _ hp) (by simp [hk])
        rw [indexMapAppend_last ms last vs a hown]
        rw [ih g ms last (vs ++ [a]) (fun x hx => h1 x (by simp [hx])) h2]
        rw [specGroupsGo]
        have hplusf := isPlusToken_eq_false_of_not_contains a hnc
        simp [hplusf]
      all_goals exact hnotplus

/-- Global phase of the splitting loop: before any module group starts,
tokens without `'+'` accumulate into the global group; the first
`'+'`-token hands over to the group phase. -/
theorem splitArgsGo_global (args : List Arg) :
    ∀ (g : Option (List Arg)) (last : Arg),
      (∀ a ∈ args, isPlusToken a = true ∨ a.contains '+' = false) →
      ((args.filter (fun a => a.contains '+')).map (fun a => a.drop 1)).Nodup →
      splitArgsGo args g [] last =
        some ((if (specGlobal args).isEmpty then g else some (g.getD [] ++ specGlobal args)),
              specModuleGroups args) := by
  induction args with
  | nil =>
    intro g last _ _
    simp [splitArgsGo, specGlobal, specModuleGroups, specGroupsGo]
  | cons a rest ih =>
    intro g last h1 h2
    by_cases hc : a.contains '+' = true
    · rcases h1 a (by simp) with hplus | hnc
      swap
      · rw [hnc] at hc; exact absurd hc (by simp)
      obtain ⟨name, rfl⟩ := (isPlusToken_iff a).mp hplus
      rw [splitArgsGo, if_neg (by simp [contains_plus_cons]),
        if_pos (by simp [contains_plus_cons])]
      have hfiltereq :
          ((('+' :: name) :: rest).filter (fun x => x.contains '+')).map (fun x => x.drop 1)
            = name :: (rest.filter (fun x => x.contains '+')).map (fun x => x.drop 1) := by
        rw [List.filter_cons_of_pos (by simp [contains_plus_cons])]
        simp
      rw [hfiltereq] at h2
      rw [show indexMapInsert [] name = [] ++ [(name, [])] from rfl]
      rw [splitArgsGo_groups rest g [] name [] (fun x hx => h1 x (by simp [hx]))
        (by simpa using h2)]
      have hglob : specGlobal (('+' :: name) :: rest) = [] := by
        rw [specGlobal, List.takeWhile_cons_of_neg (by simp [contains_plus_cons])]
      have hgroups : specModuleGroups (('+' :: name) :: rest)
          = specGroupsGo rest (some (name, [])) := by
        rw [specModuleGroups, List.dropWhile_cons_of_neg (by simp [contains_plus_cons])]
        rw [specGroupsGo]
        simp [isPlusToken]
      rw [hglob, hgroups]
      simp
    · have hncf : a.contains '+' = false := by
        cases h : a.contains '+'
        · rfl
        · exact absurd h hc
      have hmem : '+' ∉ a := by simpa using hncf
      have hnotplus : ∀ (name : List Char), a = '+' :: name → False := by
        intro name hname
        rw [hname] at hmem
        simp at hmem
      rw [splitArgsGo, if_pos (by simp [hmem])]
      · have hfiltereq :
            ((a :: rest).filter (fun x => x.contains '+')).map (fun x => x.drop 1)
              = (rest.filter (fun x => x.contains '+')).map (fun x => x.drop 1) := by
          rw [List.filter_cons_of_neg (by simp [hmem])]
        rw [hfiltereq] at h2
        rw [ih (some (g.getD [] ++ [a])) last (fun x hx => h1 x (by simp [hx])) h2]
        have hglob : specGlobal (a :: rest) = a :: specGlobal rest := by
          rw [specGlobal, specGlobal, List.takeWhile_cons_of_pos (by simp [hmem])]
        have hgroups : specModuleGroups (a :: rest) = specModuleGroups rest := by
          rw [specModuleGroups, specModuleGroups,
            List.dropWhile_cons_of_pos (by simp [hmem])]
        rw [hglob, hgroups]
        by_cases he : (specGlobal rest).isEmpty
        · have h0 : specGlobal rest = [] := by simpa [List.isEmpty_iff] using he
          simp [he, h0]
        · have h0 : specGlobal rest ≠ [] := by simpa [List.isEmpty_iff] using he
          simp [he, h0]
      all_goals exact hnotplus

/-- C8 (amended): provided every token after the program name either
starts with `'+'` or contains no `'+'` at all, and no module name repeats,
the host splits the arguments into the global group (the tokens before the
first `'+'`-token, `none` when there are none) and the module groups, each
introduced by a `+name` token and holding the tokens up to the next
`'+'`-token.  (A token with an interior `'+'` makes the loop panic — see
the counterexample — and a repeated `+name` discards the earlier group's
arguments, which is why both are excluded here.) -/
theorem C8_argument_routing (args : List Arg)
    (h1 : ∀ a ∈ args, isPlusToken a = true ∨ a.contains '+' = false)
    (h2 : ((args.filter (fun a => a.contains '+')).map (fun a => a.drop 1)).Nodup) :
    splitArgs args =
      some ((if (specGlobal args).isEmpty then none else some (specGlobal args)),
            specModuleGroups args) := by
  rw [splitArgs, splitArgsGo_global args none [] h1 h2]
  by_cases he : (specGlobal args).isEmpty
  · rw [if_pos he, if_pos he]
  · rw [if_neg he, if_neg he]
    simp

/-- Witness for C8 on the command line `g1 +m x y +n z`. -/
theorem C8_argument_routing_witness :
    ((∀ a ∈ [['g', '1'], ['+', 'm'], ['x'], ['y'], ['+', 'n'], ['z']],
        isPlusToken a = true ∨ a.contains '+' = false) ∧
      ((([['g', '1'], ['+', 'm'], ['x'], ['y'], ['+', 'n'], ['z']] : List Arg).filter
          (fun a => a.contains '+')).map (fun a => a.drop 1)).Nodup) ∧
    splitArgs [['g', '1'], ['+', 'm'], ['x'], ['y'], ['+', 'n'], ['z']] =
      some ((if (specGlobal [['g', '1'], ['+', 'm'], ['x'], ['y'], ['+', 'n'], ['z']]).isEmpty
              then none
              else some (specGlobal [['g', '1'], ['+', 'm'], ['x'], ['y'], ['+', 'n'], ['z']])),
            specModuleGroups [['g', '1'], ['+', 'm'], ['x'], ['y'], ['+', 'n'], ['z']]) :=
  ⟨⟨by decide, by decide⟩,
    C8_argument_routing [['g', '1'], ['+', 'm'], ['x'], ['y'], ['+', 'n'], ['z']]
      (by decide) (by decide)⟩

/-- C8 (counterexample): a token containing `'+'` beyond its first
character is not routed as an ordinary argument — it makes the host's
splitting loop panic (`strip_prefix('+').unwrap()` on a token that merely
contains `'+'`). -/
theorem C8_interior_plus_counterexample :
    splitArgs [['a', '+', 'b']] = none := rfl

/-! ### Claim theorem: C9 (statistics builder) -/

/-- C9: `build()` returns `MissingField` naming the first unset mandatory
field, in the order algorithm name, algorithm id, version, original
length, processed length, duration, direction; with all fields set it
returns the record whose derived fields satisfy the claim's formulas
(ratio with the zero-denominator guard, speed in MiB/s with infinity —
modelled `none` — at zero duration, signed byte difference, and absolute
percent change with the zero-length guard), stated as an equality with the
claim-level `buildSpec`. -/
theorem C9_stats_builder (b : CompressionStatsBuilder) : b.build = buildSpec b := by
  rcases b with ⟨n, i, v, o, p, d, c, secs⟩
  rcases n with _ | n
  · rfl
  rcases i with _ | i
  · rfl
  rcases v with _ | v
  · rfl
  rcases o with _ | o
  · rfl
  rcases p with _ | p
  · rfl
  rcases d with _ | d
  · rfl
  rcases c with _ | c
  · rfl
  show Except.ok (calculate_stats n i v o p d c secs) = buildSpec _
  simp only [buildSpec, firstMissingField, calculate_stats, Option.getD_some]
  rcases c with _ | _ <;> simp <;> norm_num

/-! ### Proofs: bit-level toolkit -/

/-- Length of a big-endian bit rendering. -/
theorem natBitsBE_length (w n : Nat) : (natBitsBE w n).length = w := by
  simp [natBitsBE]

/-- Rendered bits are 0 or 1. -/
theorem natBitsBE_le_one (w n : Nat) : ∀ b ∈ natBitsBE w n, b ≤ 1 := by
  intro b hb
  simp only [natBitsBE, List.mem_map] at hb
  obtain ⟨i, _, rfl⟩ := hb
  rw [Nat.and_one_is_mod]
  omega

/-- Peeling the most significant bit off a rendering. -/
theorem natBitsBE_succ (w n : Nat) :
    natBitsBE (w + 1) n = ((n >>> w) &&& 1) :: natBitsBE w n := by
  simp [natBitsBE, List.range_succ]

/-- `bitsToNat` with a running accumulator. -/
theorem bitsToNat_foldl (l : List Nat) :
    ∀ acc, l.foldl (fun a b => 2 * a + b) acc = acc * 2 ^ l.length + bitsToNat l := by
  induction l with
  | nil => intro acc; simp [bitsToNat]
  | cons b r ih =>
    intro acc
    show List.foldl _ (2 * acc + b) r = acc * 2 ^ (r.length + 1) + bitsToNat (b :: r)
    rw [ih (2 * acc + b)]
    have hb : bitsToNat (b :: r) = b * 2 ^ r.length + bitsToNat r := by
      show List.foldl _ (2 * 0 + b) r = _
      rw [ih (2 * 0 + b)]
      ring_nf
    rw [hb]
    ring

/-- Numeric value of a bit-list split at a cons. -/
theorem bitsToNat_cons (b : Nat) (r : List Nat) :
    bitsToNat (b :: r) = b * 2 ^ r.length + bitsToNat r := by
  show List.foldl _ (2 * 0 + b) r = _
  rw [bitsToNat_foldl r (2 * 0 + b)]
  ring_nf

/-- Numeric value of a concatenation of bit lists. -/
theorem bitsToNat_append (a b : List Nat) :
    bitsToNat (a ++ b) = bitsToNat a * 2 ^ b.length + bitsToNat b := by
  show (a ++ b).foldl _ 0 = _
  rw [List.foldl_append, bitsToNat_foldl b]
  rfl

/-- A 0/1 bit list denotes a value below `2^length`. -/
theorem bitsToNat_lt (l : List Nat) (h : ∀ b ∈ l, b ≤ 1) : bitsToNat l < 2 ^ l.length := by
  induction l with
  | nil => simp [bitsToNat]
  | cons b r ih =>
    rw [bitsToNat_cons]
    have hb : b ≤ 1 := h b (by simp)
    have hr := ih (fun x hx => h x (by simp [hx]))
    have : 2 ^ (b :: r).length = 2 ^ r.length + 2 ^ r.length := by
      simp [List.length_cons, pow_succ]
      ring
    rw [this]
    have : b * 2 ^ r.length ≤ 2 ^ r.length := by
      calc b * 2 ^ r.length ≤ 1 * 2 ^ r.length := by
            exact Nat.mul_le_mul_right _ hb
        _ = 2 ^ r.length := one_mul _
    omega

/-- The rendering of `w` bits reads back as the value modulo `2^w`. -/
theorem bitsToNat_natBitsBE (w n : Nat) : bitsToNat (natBitsBE w n) = n % 2 ^ w := by
  induction w with
  | zero => simp [natBitsBE, bitsToNat]; omega
  | succ w ih =>
    rw [natBitsBE_succ, bitsToNat_cons, natBitsBE_length, ih]
    rw [Nat.shiftRight_eq_div_pow, Nat.and_one_is_mod]
    rw [pow_succ, Nat.mod_mul]
    ring

/-- Splitting a rendering into its high and low parts. -/
theorem natBitsBE_split (a c n : Nat) :
    natBitsBE (a + c) n = natBitsBE a (n >>> c) ++ natBitsBE c n := by
  induction a with
  | zero => simp [natBitsBE]
  | succ a ih =>
    have h1 : a + 1 + c = (a + c) + 1 := by omega
    rw [h1, natBitsBE_succ, ih, natBitsBE_succ, List.cons_append]
    rw [← Nat.shiftRight_add, Nat.add_comm c a]

/-- High summands beyond the rendered width are invisible. -/
theorem natBitsBE_add_high (w : Nat) : ∀ (b m : Nat), natBitsBE w (b * 2 ^ w + m) = natBitsBE w m := by
  induction w with
  | zero => intro b m; simp [natBitsBE]
  | succ w ih =>
    intro b m
    rw [natBitsBE_succ, natBitsBE_succ]
    have hdiv : (b * 2 ^ (w + 1) + m) >>> w = 2 * b + m >>> w := by
      rw [Nat.shiftRight_eq_div_pow, Nat.shiftRight_eq_div_pow]
      rw [pow_succ]
      rw [show b * (2 ^ w * 2) + m = 2 ^ w * (2 * b) + m by ring]
      rw [Nat.mul_add_div (Nat.pos_pow_of_pos w (by omega))]
    have hhead : ((b * 2 ^ (w + 1) + m) >>> w) &&& 1 = (m >>> w) &&& 1 := by
      rw [hdiv, Nat.and_one_is_mod, Nat.and_one_is_mod]
      omega
    rw [hhead]
    congr 1
    rw [show b * 2 ^ (w + 1) + m = (2 * b) * 2 ^ w + m by ring]
    exact ih (2 * b) m

/-- A 0/1 list is recovered from its value by rendering at its length. -/
theorem natBitsBE_bitsToNat (l : List Nat) (h : ∀ b ∈ l, b ≤ 1) :
    natBitsBE l.length (bitsToNat l) = l := by
  induction l with
  | nil => simp [natBitsBE]
  | cons b r ih =>
    have hb : b ≤ 1 := h b (by simp)
    have hr := ih (fun x hx => h x (by simp [hx]))
    rw [List.length_cons, natBitsBE_succ, bitsToNat_cons]
    have hlt := bitsToNat_lt r (fun x hx => h x (by simp [hx]))
    have hdiv : (b * 2 ^ r.length + bitsToNat r) >>> r.length = b := by
      rw [Nat.shiftRight_eq_div_pow]
      rw [show b * 2 ^ r.length + bitsToNat r = 2 ^ r.length * b + bitsToNat r by ring]
      rw [Nat.mul_add_div (Nat.pos_pow_of_pos _ (by omega)), Nat.div_eq_of_lt hlt]
      omega
    rw [hdiv, Nat.and_one_is_mod, Nat.mod_eq_of_lt (by omega)]
    rw [natBitsBE_add_high r.length b (bitsToNat r), hr]

set_option maxRecDepth 10000 in
set_option maxHeartbeats 1000000 in
/-- Setting a zeroed bit of a byte by OR is addition (all bytes involved
stay below 256, so this is checked by enumeration). -/
theorem lor_two_pow_fin :
    ∀ (a : Fin 256) (k : Fin 8), (a : Nat) % 2 ^ ((k : Nat) + 1) = 0 →
      (a : Nat) ||| 2 ^ (k : Nat) = (a : Nat) + 2 ^ (k : Nat) := by decide

/-- Setting a zeroed bit of a byte by OR is addition. -/
theorem lor_two_pow_of_mod (a k : Nat) (ha : a < 256) (hk : k < 8)
    (h : a % 2 ^ (k + 1) = 0) : a ||| 2 ^ k = a + 2 ^ k :=
  lor_two_pow_fin ⟨a, ha⟩ ⟨k, hk⟩ h

/-- The zero value renders as all-zero bits. -/
theorem natBitsBE_zero (w : Nat) : natBitsBE w 0 = List.replicate w 0 := by
  induction w with
  | zero => rfl
  | succ w ih =>
    rw [natBitsBE_succ, ih, List.replicate_succ]
    simp

/-- The enum-indexed fold of `chunkByte` is the index-threaded recursion. -/
theorem chunkByteAux_enumFrom (chunk : List Nat) :
    ∀ j acc,
      (List.enumFrom j chunk).foldl
        (fun acc jb => if jb.2 ≠ 0 then acc ||| (1 <<< (7 - jb.1)) else acc) acc
        = chunkByteAux j acc chunk := by
  induction chunk with
  | nil => intro j acc; rfl
  | cons b r ih =>
    intro j acc
    rw [List.enumFrom_cons, List.foldl_cons, chunkByteAux, ih]

/-- `chunkByte` through the index-threaded recursion. -/
theorem chunkByte_eq_aux (chunk : List Nat) : chunkByte chunk = chunkByteAux 0 0 chunk := by
  rw [chunkByte, List.enum]
  exact chunkByteAux_enumFrom chunk 0 0

/-- Closed form of the index-threaded byte accumulator: it adds the
chunk's value, left-aligned below the bits already accumulated. -/
theorem chunkByteAux_val (chunk : List Nat) :
    ∀ (j acc : Nat), j + chunk.length ≤ 8 → (∀ b ∈ chunk, b ≤ 1) →
      acc % 2 ^ (8 - j) = 0 → acc < 256 →
      chunkByteAux j acc chunk = acc + bitsToNat chunk * 2 ^ (8 - j - chunk.length) := by
  induction chunk with
  | nil => intro j acc _ _ _ _; simp [chunkByteAux, bitsToNat]
  | cons b r ih =>
    intro j acc hlen h01 hmod hacc
    have hlen' : j + 1 + r.length ≤ 8 := by simp [List.length_cons] at hlen; omega
    have hj : j ≤ 7 := by omega
    have hb : b ≤ 1 := h01 b (by simp)
    have hdvd : (2:Nat) ^ (8 - (j+1)) ∣ 2 ^ (8 - j) := pow_dvd_pow 2 (by omega)
    have hmod' : acc % 2 ^ (8 - (j + 1)) = 0 := by
      rw [← Nat.mod_mod_of_dvd acc hdvd, hmod, Nat.zero_mod]
    rw [chunkByteAux]
    rcases Nat.le_one_iff_eq_zero_or_eq_one.mp hb with rfl | rfl
    · rw [if_neg (by simp)]
      rw [ih (j+1) acc hlen' (fun x hx => h01 x (by simp [hx])) hmod' hacc]
      rw [bitsToNat_cons]
      simp only [List.length_cons, zero_mul, zero_add]
      have he : 8 - (j + 1) - r.length = 8 - j - (r.length + 1) := by omega
      rw [he]
    · rw [if_pos (by simp)]
      have h7 : (1 : Nat) <<< (7 - j) = 2 ^ (7 - j) := by
        rw [Nat.shiftLeft_eq]; ring
      have hklt : 7 - j < 8 := by omega
      have hke : 7 - j + 1 = 8 - j := by omega
      have hlor : acc ||| 2 ^ (7 - j) = acc + 2 ^ (7 - j) := by
        apply lor_two_pow_of_mod acc (7 - j) hacc hklt
        rw [hke]; exact hmod
      have hsplit : (2:Nat) ^ (8 - j) = 2 * 2 ^ (7 - j) := by
        rw [show 8 - j = (7 - j) + 1 from by omega, pow_succ]; ring
      have hdvd_acc : (2:Nat) ^ (8 - j) ∣ acc := Nat.dvd_of_mod_eq_zero hmod
      have hdvd_256 : (2:Nat) ^ (8 - j) ∣ 256 := by
        rw [show (256:Nat) = 2 ^ 8 from rfl]
        exact pow_dvd_pow 2 (by omega)
      have hacc' : acc + 2 ^ (7 - j) < 256 := by
        have hsub : (2:Nat) ^ (8 - j) ∣ (256 - acc) := Nat.dvd_sub' hdvd_256 hdvd_acc
        have hpos : 0 < 256 - acc := by omega
        have := Nat.le_of_dvd hpos hsub
        omega
      have hmodsum : (acc + 2 ^ (7 - j)) % 2 ^ (8 - (j + 1)) = 0 := by
        rw [show 8 - (j + 1) = 7 - j from by omega]
        rw [Nat.add_mod, Nat.mod_self]
        have : acc % 2 ^ (7 - j) = 0 := by
          rw [show (7:Nat) - j = 8 - (j+1) from by omega]
          exact hmod'
        simp [this]
      rw [h7, hlor]
      rw [ih (j+1) (acc + 2 ^ (7 - j)) hlen' (fun x hx => h01 x (by simp [hx]))
        hmodsum hacc']
      rw [bitsToNat_cons]
      have hrlen : r.length ≤ 7 - j := by omega
      have hexp : (2:Nat) ^ r.length * 2 ^ (7 - j - r.length) = 2 ^ (7 - j) := by
        rw [← pow_add]
        congr 1
        omega
      simp only [List.length_cons, one_mul]
      have h2 : 8 - (j + 1) - r.length = 7 - j - r.length := by omega
      have h3 : 8 - j - (r.length + 1) = 7 - j - r.length := by omega
      rw [h2, h3, add_mul, hexp]
      omega

/-- A packed chunk of at most 8 bits denotes its value, left-aligned. -/
theorem chunkByte_val (chunk : List Nat) (h8 : chunk.length ≤ 8)
    (h01 : ∀ b ∈ chunk, b ≤ 1) :
    chunkByte chunk = bitsToNat chunk * 2 ^ (8 - chunk.length) := by
  rw [chunkByte_eq_aux]
  rw [chunkByteAux_val chunk 0 0 (by omega) h01 (by simp) (by omega)]
  simp

/-- Unpacking a packed chunk of at most 8 bits recovers the chunk followed
by zero padding. -/
theorem byteBitsBE_chunkByte (chunk : List Nat) (h8 : chunk.length ≤ 8)
    (h01 : ∀ b ∈ chunk, b ≤ 1) :
    byteBitsBE (chunkByte chunk) = chunk ++ List.replicate (8 - chunk.length) 0 := by
  rw [byteBitsBE, chunkByte_val chunk h8 h01]
  have hsplit := natBitsBE_split chunk.length (8 - chunk.length)
    (bitsToNat chunk * 2 ^ (8 - chunk.length))
  rw [show chunk.length + (8 - chunk.length) = 8 from by omega] at hsplit
  rw [hsplit]
  have hshift : (bitsToNat chunk * 2 ^ (8 - chunk.length)) >>> (8 - chunk.length)
      = bitsToNat chunk := by
    rw [Nat.shiftRight_eq_div_pow]
    exact Nat.mul_div_cancel _ (Nat.pos_pow_of_pos _ (by omega))
  rw [hshift, natBitsBE_bitsToNat chunk h01]
  congr 1
  have := natBitsBE_add_high (8 - chunk.length) (bitsToNat chunk) 0
  rw [add_zero] at this
  rw [this, natBitsBE_zero]

/-- Bits of a byte list, cons form. -/
theorem bytesToBits_cons (v : Nat) (rest : List Nat) :
    bytesToBits (v :: rest) = byteBitsBE v ++ bytesToBits rest := by
  simp [bytesToBits]

/-- A byte list carries eight bits per byte. -/
theorem bytesToBits_length (buf : List Nat) : (bytesToBits buf).length = 8 * buf.length := by
  induction buf with
  | nil => rfl
  | cons v rest ih =>
    rw [bytesToBits_cons, List.length_append, ih, byteBitsBE, natBitsBE_length]
    simp
    omega


/-- A list of at least 8 elements splits off an explicit 8-chunk. -/
theorem exists_chunk8 (B : List Nat) (h : 8 ≤ B.length) :
    ∃ b0 b1 b2 b3 b4 b5 b6 b7 rest,
      B = b0 :: b1 :: b2 :: b3 :: b4 :: b5 :: b6 :: b7 :: rest := by
  rcases B with _ | ⟨b0, B⟩; · simp at h
  rcases B with _ | ⟨b1, B⟩; · simp at h
  rcases B with _ | ⟨b2, B⟩; · simp at h
  rcases B with _ | ⟨b3, B⟩; · simp at h
  rcases B with _ | ⟨b4, B⟩; · simp at h
  rcases B with _ | ⟨b5, B⟩; · simp at h
  rcases B with _ | ⟨b6, B⟩; · simp at h
  rcases B with _ | ⟨b7, B⟩; · simp at h
  exact ⟨b0, b1, b2, b3, b4, b5, b6, b7, B, rfl⟩

/-- Unpacking a packed short (1..7 bit) tail chunk. -/
theorem bytesToBits_b2b_small (B : List Nat) (h01 : ∀ b ∈ B, b ≤ 1)
    (h1 : B ≠ []) (h7 : B.length ≤ 7) (hsm : bits_to_bytes B = [chunkByte B]) :
    bytesToBits (bits_to_bytes B) = B ++ List.replicate ((8 - B.length % 8) % 8) 0 := by
  rw [hsm, bytesToBits_cons]
  rw [byteBitsBE_chunkByte B (by omega) h01]
  have hpos : 0 < B.length := List.length_pos.mpr h1
  have : (8 - B.length % 8) % 8 = 8 - B.length := by omega
  rw [this]
  simp [bytesToBits]

/-- Unpacking the packed bytes of a 0/1 bit stream recovers the stream
followed by the zero padding of the final partial byte. -/
theorem bytesToBits_bits_to_bytes (B0 : List Nat) (h01 : ∀ b ∈ B0, b ≤ 1) :
    bytesToBits (bits_to_bytes B0) = B0 ++ List.replicate ((8 - B0.length % 8) % 8) 0 := by
  generalize hn : B0.length = n
  induction n using Nat.strong_induction_on generalizing B0 with
  | _ n ih =>
    subst hn
    by_cases h8 : 8 ≤ B0.length
    · obtain ⟨b0, b1, b2, b3, b4, b5, b6, b7, rest, rfl⟩ := exists_chunk8 B0 h8
      have hrest01 : ∀ b ∈ rest, b ≤ 1 := fun x hx => h01 x (by simp [hx])
      have hchunk01 : ∀ b ∈ [b0, b1, b2, b3, b4, b5, b6, b7], b ≤ 1 := by
        intro x hx
        apply h01 x
        simp at hx ⊢
        tauto
      rw [show bits_to_bytes (b0 :: b1 :: b2 :: b3 :: b4 :: b5 :: b6 :: b7 :: rest)
          = chunkByte [b0, b1, b2, b3, b4, b5, b6, b7] :: bits_to_bytes rest from rfl]
      rw [bytesToBits_cons, byteBitsBE_chunkByte _ (by simp) hchunk01]
      rw [ih rest.length (by simp [List.length_cons]; omega) rest hrest01 rfl]
      have hm : (8 - (b0 :: b1 :: b2 :: b3 :: b4 :: b5 :: b6 :: b7 :: rest).length % 8) % 8
          = (8 - rest.length % 8) % 8 := by
        simp [List.length_cons]
        omega
      rw [hm]
      simp
    · have h7 : B0.length ≤ 7 := by omega
      rcases B0 with _ | ⟨b0, B⟩
      · simp [bits_to_bytes, bytesToBits]
      rcases B with _ | ⟨b1, B⟩
      · exact bytesToBits_b2b_small _ h01 (by simp) (by simp) rfl
      rcases B with _ | ⟨b2, B⟩
      · exact bytesToBits_b2b_small _ h01 (by simp) (by simp) rfl
      rcases B with _ | ⟨b3, B⟩
      · exact bytesToBits_b2b_small _ h01 (by simp) (by simp) rfl
      rcases B with _ | ⟨b4, B⟩
      · exact bytesToBits_b2b_small _ h01 (by simp) (by simp) rfl
      rcases B with _ | ⟨b5, B⟩
      · exact bytesToBits_b2b_small _ h01 (by simp) (by simp) rfl
      rcases B with _ | ⟨b6, B⟩
      · exact bytesToBits_b2b_small _ h01 (by simp) (by simp) rfl
      rcases B with _ | ⟨b7, B⟩
      · exact bytesToBits_b2b_small _ h01 (by simp) (by simp) rfl
      exfalso
      simp [List.length_cons] at h7

/-- `from_be_bytes` with a running accumulator. -/
theorem from_be_bytes_foldl (l : List Nat) :
    ∀ acc, l.foldl (fun a b => a * 256 + b) acc = acc * 256 ^ l.length + from_be_bytes l := by
  induction l with
  | nil => intro acc; simp [from_be_bytes]
  | cons b r ih =>
    intro acc
    show List.foldl _ (acc * 256 + b) r = acc * 256 ^ (r.length + 1) + from_be_bytes (b :: r)
    rw [ih (acc * 256 + b)]
    have hb : from_be_bytes (b :: r) = b * 256 ^ r.length + from_be_bytes r := by
      show List.foldl _ (0 * 256 + b) r = _
      rw [ih (0 * 256 + b)]
      ring_nf
    rw [hb]
    ring

/-- Big-endian byte recomposition, cons form. -/
theorem from_be_bytes_cons (b : Nat) (r : List Nat) :
    from_be_bytes (b :: r) = b * 256 ^ r.length + from_be_bytes r := by
  show List.foldl _ (0 * 256 + b) r = _
  rw [from_be_bytes_foldl r (0 * 256 + b)]
  ring_nf

/-- Length of the packed byte stream of a byte-aligned bit stream. -/
theorem bits_to_bytes_length_of_mul8 (B : List Nat) (h01 : ∀ b ∈ B, b ≤ 1)
    (h8 : B.length % 8 = 0) : (bits_to_bytes B).length = B.length / 8 := by
  have := congrArg List.length (bytesToBits_bits_to_bytes B h01)
  rw [bytesToBits_length] at this
  simp [h8] at this
  omega

/-- Reassembling the packed bytes of a byte-aligned 0/1 bit stream yields
the stream's value (this is how the decoder recovers the 32- and 8-bit
framing fields). -/
theorem from_be_bytes_bits_to_bytes (B0 : List Nat) (h01 : ∀ b ∈ B0, b ≤ 1)
    (h8 : B0.length % 8 = 0) : from_be_bytes (bits_to_bytes B0) = bitsToNat B0 := by
  generalize hn : B0.length = n
  induction n using Nat.strong_induction_on generalizing B0 with
  | _ n ih =>
    subst hn
    by_cases hge : 8 ≤ B0.length
    · obtain ⟨b0, b1, b2, b3, b4, b5, b6, b7, rest, rfl⟩ := exists_chunk8 B0 hge
      have hrest01 : ∀ b ∈ rest, b ≤ 1 := fun x hx => h01 x (by simp [hx])
      have hchunk01 : ∀ b ∈ [b0, b1, b2, b3, b4, b5, b6, b7], b ≤ 1 := by
        intro x hx
        apply h01 x
        simp at hx ⊢
        tauto
      have hlen8 : rest.length % 8 = 0 := by
        simp [List.length_cons] at h8
        omega
      rw [show bits_to_bytes (b0 :: b1 :: b2 :: b3 :: b4 :: b5 :: b6 :: b7 :: rest)
          = chunkByte [b0, b1, b2, b3, b4, b5, b6, b7] :: bits_to_bytes rest from rfl]
      rw [from_be_bytes_cons]
      rw [ih rest.length (by simp [List.length_cons]; omega) rest hrest01 hlen8 rfl]
      rw [bits_to_bytes_length_of_mul8 rest hrest01 hlen8]
      rw [chunkByte_val _ (by simp) hchunk01]
      rw [show (b0 :: b1 :: b2 :: b3 :: b4 :: b5 :: b6 :: b7 :: rest)
          = [b0, b1, b2, b3, b4, b5, b6, b7] ++ rest from rfl]
      rw [bitsToNat_append]
      have h256 : (256 : Nat) ^ (rest.length / 8) = 2 ^ rest.length := by
        rw [show (256 : Nat) = 2 ^ 8 from rfl, ← pow_mul]
        congr 1
        omega
      rw [h256]
      simp
    · have : B0.length = 0 := by omega
      have : B0 = [] := List.length_eq_zero.mp this
      subst this
      rfl

/-- Writing a full 8-bit chunk through an aligned writer appends exactly
the packed chunk byte and realigns the writer. -/
theorem write_bits_chunk8 (buf : List Nat) (b0 b1 b2 b3 b4 b5 b6 b7 : Nat) :
    BitWriter.write_bits ⟨buf, 0, 0⟩ [b0, b1, b2, b3, b4, b5, b6, b7]
      = ⟨buf ++ [chunkByte [b0, b1, b2, b3, b4, b5, b6, b7]], 0, 0⟩ := rfl

/-- `write_bits` splits over list append. -/
theorem write_bits_append (w : BitWriter) (a b : List Nat) :
    BitWriter.write_bits w (a ++ b) = BitWriter.write_bits (BitWriter.write_bits w a) b := by
  simp [BitWriter.write_bits]

/-- Writing a bit stream through a fresh aligned writer and flushing
yields exactly the packed bytes of the stream appended to the buffer. -/
theorem write_bits_flush (B0 : List Nat) :
    ∀ buf : List Nat,
      ((BitWriter.write_bits ⟨buf, 0, 0⟩ B0).flush).buffer = buf ++ bits_to_bytes B0 := by
  generalize hn : B0.length = n
  induction n using Nat.strong_induction_on generalizing B0 with
  | _ n ih =>
    subst hn
    intro buf
    by_cases h8 : 8 ≤ B0.length
    · obtain ⟨b0, b1, b2, b3, b4, b5, b6, b7, rest, rfl⟩ := exists_chunk8 B0 h8
      rw [show (b0 :: b1 :: b2 :: b3 :: b4 :: b5 :: b6 :: b7 :: rest)
          = [b0, b1, b2, b3, b4, b5, b6, b7] ++ rest from rfl]
      rw [write_bits_append, write_bits_chunk8]
      rw [ih rest.length (by simp [List.length_cons]; omega) rest rfl (buf ++ [chunkByte [b0, b1, b2, b3, b4, b5, b6, b7]])]
      rw [show bits_to_bytes ([b0, b1, b2, b3, b4, b5, b6, b7] ++ rest)
          = chunkByte [b0, b1, b2, b3, b4, b5, b6, b7] :: bits_to_bytes rest from rfl]
      simp
    · have h7 : B0.length ≤ 7 := by omega
      rcases B0 with _ | ⟨b0, B⟩
      · simp [BitWriter.write_bits, BitWriter.flush, bits_to_bytes]
      rcases B with _ | ⟨b1, B⟩
      · rfl
      rcases B with _ | ⟨b2, B⟩
      · rfl
      rcases B with _ | ⟨b3, B⟩
      · rfl
      rcases B with _ | ⟨b4, B⟩
      · rfl
      rcases B with _ | ⟨b5, B⟩
      · rfl
      rcases B with _ | ⟨b6, B⟩
      · rfl
      rcases B with _ | ⟨b7, B⟩
      · rfl
      exfalso
      simp [List.length_cons] at h7

/-- `write_data_canonical` is exactly the byte-packing of the framed bit
stream: 32-bit table length, 32-bit data length, the table pairs, then the
compressed bits. -/
theorem write_data_canonical_eq (byte_lengths : List (Nat × Nat))
    (compressed_bits : List Nat) :
    write_data_canonical byte_lengths compressed_bits
      = bits_to_bytes (frameBits byte_lengths compressed_bits) := by
  show ((((BitWriter.new.write_bits (natBitsBE 32 (byte_lengths.length % 2 ^ 32))).write_bits
      (natBitsBE 32 (compressed_bits.length % 2 ^ 32))).write_bits
      (byte_lengths.flatMap pairBits)).write_bits compressed_bits).flush.buffer = _
  rw [show BitWriter.new = (⟨[], 0, 0⟩ : BitWriter) from rfl]
  rw [← write_bits_append, ← write_bits_append, ← write_bits_append]
  rw [write_bits_flush _ []]
  simp [frameBits]

/-- Bit `j` of a `w`-bit big-endian rendering. -/
theorem natBitsBE_getD (w n j : Nat) (hj : j < w) :
    (natBitsBE w n).getD j 0 = (n >>> (w - 1 - j)) &&& 1 := by
  have hlen : j < (natBitsBE w n).length := by rw [natBitsBE_length]; exact hj
  rw [List.getD_eq_getElem _ _ hlen]
  simp [natBitsBE]

/-- Bit `i` of the unpacked stream of a byte buffer is bit `7 - i % 8` of
byte `i / 8`, exactly the value `BitReader::read_bit` extracts. -/
theorem bytesToBits_getD (buf : List Nat) : ∀ i, i < 8 * buf.length →
    (bytesToBits buf).getD i 0 = ((buf.getD (i / 8) 0) >>> (7 - i % 8)) &&& 1 := by
  induction buf with
  | nil => intro i h; simp at h
  | cons v rest ih =>
    intro i h
    rw [bytesToBits_cons]
    by_cases h8 : i < 8
    · rw [List.getD_append _ _ _ _ (by rw [byteBitsBE, natBitsBE_length]; exact h8)]
      rw [byteBitsBE, natBitsBE_getD 8 v i h8]
      have h1 : i / 8 = 0 := by omega
      have h2 : i % 8 = i := by omega
      have h3 : (8 : Nat) - 1 - i = 7 - i := by omega
      rw [h1, h2, h3]
      rfl
    · rw [List.getD_append_right _ _ _ _ (by rw [byteBitsBE, natBitsBE_length]; omega)]
      rw [byteBitsBE, natBitsBE_length]
      rw [ih (i - 8) (by simp [List.length_cons] at h; omega)]
      have h1 : (i - 8) / 8 = i / 8 - 1 := by omega
      have h2 : (i - 8) % 8 = i % 8 := by omega
      rw [h1, h2]
      have h3 : (v :: rest).getD (i / 8) 0 = rest.getD (i / 8 - 1) 0 := by
        have he : i / 8 = (i / 8 - 1) + 1 := by omega
        rw [he]
        rfl
      rw [h3]

/-- `read_bit` at bit offset `i` of a buffer returns bit `i` of the
unpacked stream and advances to offset `i + 1`. -/
theorem read_bit_at (buf : List Nat) (i : Nat) (h : i < 8 * buf.length) :
    (bitReaderAt buf i).read_bit
      = some ((bytesToBits buf).getD i 0, bitReaderAt buf (i + 1)) := by
  simp only [BitReader.read_bit, bitReaderAt]
  rw [if_neg (by simp only [not_le]; omega)]
  rw [bytesToBits_getD buf i h]
  by_cases h8 : i % 8 + 1 = 8
  · rw [if_pos h8]
    have e1 : (i + 1) / 8 = i / 8 + 1 := by omega
    have e2 : (i + 1) % 8 = 0 := by omega
    rw [e1, e2]
  · rw [if_neg h8]
    have e1 : (i + 1) / 8 = i / 8 := by omega
    have e2 : (i + 1) % 8 = i % 8 + 1 := by omega
    rw [e1, e2]

/-- `readBits n` at bit offset `i` returns the next `n` bits of the
unpacked stream and advances to offset `i + n`. -/
theorem readBits_at (n : Nat) : ∀ (buf : List Nat) (i : Nat), i + n ≤ 8 * buf.length →
    (bitReaderAt buf i).readBits n
      = some (((bytesToBits buf).drop i).take n, bitReaderAt buf (i + n)) := by
  induction n with
  | zero =>
    intro buf i h
    simp [BitReader.readBits]
  | succ n ih =>
    intro buf i h
    have hlt : i < (bytesToBits buf).length := by rw [bytesToBits_length]; omega
    have hdrop : (bytesToBits buf).drop i
        = (bytesToBits buf).getD i 0 :: (bytesToBits buf).drop (i + 1) := by
      rw [List.getD_eq_getElem _ _ hlt]
      exact List.drop_eq_getElem_cons hlt
    rw [BitReader.readBits, read_bit_at buf i (by omega)]
    dsimp only
    rw [ih buf (i + 1) (by omega)]
    dsimp only
    rw [hdrop]
    have he : i + (n + 1) = (i + 1) + n := by omega
    rw [he, List.take_succ_cons]

/-- Taking exactly the length of the left part of an append. -/
theorem take_len_of_append (a b : List Nat) (n : Nat) (h : a.length = n) :
    (a ++ b).take n = a := by
  rw [← h]
  exact List.take_left a b

/-- Dropping exactly the length of the left part of an append. -/
theorem drop_len_of_append (a b : List Nat) (n : Nat) (h : a.length = n) :
    (a ++ b).drop n = b := by
  rw [← h]
  exact List.drop_left a b

/-- Each table pair contributes exactly 16 bits. -/
theorem flatMap_pairBits_length (l : List (Nat × Nat)) :
    (l.flatMap pairBits).length = 16 * l.length := by
  induction l with
  | nil => rfl
  | cons p ps ih =>
    simp only [List.flatMap_cons, List.length_append, ih, pairBits, natBitsBE_length,
      List.length_cons]
    omega

/-- Table-pair bits are 0 or 1. -/
theorem flatMap_pairBits_le_one (l : List (Nat × Nat)) :
    ∀ b ∈ l.flatMap pairBits, b ≤ 1 := by
  intro b hb
  simp only [List.mem_flatMap] at hb
  obtain ⟨p, _, hp⟩ := hb
  simp only [pairBits, List.mem_append] at hp
  rcases hp with hp | hp
  · exact natBitsBE_le_one _ _ b hp
  · exact natBitsBE_le_one _ _ b hp

/-- Every bit of the framed stream is 0 or 1. -/
theorem frameBits_le_one (byte_lengths : List (Nat × Nat)) (cbits : List Nat)
    (hc : ∀ b ∈ cbits, b ≤ 1) : ∀ b ∈ frameBits byte_lengths cbits, b ≤ 1 := by
  intro b hb
  simp only [frameBits, List.append_assoc, List.mem_append] at hb
  rcases hb with hb | hb | hb | hb
  · exact natBitsBE_le_one _ _ b hb
  · exact natBitsBE_le_one _ _ b hb
  · exact flatMap_pairBits_le_one _ b hb
  · exact hc b hb

/-- The table loop of `read_data_canonical`: when the unpacked stream from
bit offset `i` starts with the 16-bit renderings of a pair list whose
entries fit in a byte, the loop returns exactly those pairs and stops
16 bits per pair later. -/
theorem readPairsLoop_at (pairs : List (Nat × Nat)) :
    ∀ (buf : List Nat) (i : Nat) (tail : List Nat),
      i + 16 * pairs.length ≤ 8 * buf.length →
      (bytesToBits buf).drop i = pairs.flatMap pairBits ++ tail →
      (∀ p ∈ pairs, p.1 < 256 ∧ p.2 < 256) →
      readPairsLoop (bitReaderAt buf i) pairs.length
        = some (pairs, bitReaderAt buf (i + 16 * pairs.length)) := by
  induction pairs with
  | nil =>
    intro buf i tail hb hd hp
    simp [readPairsLoop]
  | cons p ps ih =>
    intro buf i tail hb hd hp
    have hps : ∀ q ∈ ps, q.1 < 256 ∧ q.2 < 256 := fun q hq => hp q (by simp [hq])
    have hp1 : p.1 < 256 := (hp p (by simp)).1
    have hp2 : p.2 < 256 := (hp p (by simp)).2
    have hlen : (p :: ps).length = ps.length + 1 := rfl
    have hd' : (bytesToBits buf).drop i
        = natBitsBE 8 p.1 ++ (natBitsBE 8 (p.2 % 256) ++ (ps.flatMap pairBits ++ tail)) := by
      rw [hd]
      simp [pairBits, List.append_assoc]
    have hd8 : (bytesToBits buf).drop (i + 8)
        = natBitsBE 8 (p.2 % 256) ++ (ps.flatMap pairBits ++ tail) := by
      have h1 : ((bytesToBits buf).drop i).drop 8 = (bytesToBits buf).drop (i + 8) :=
        List.drop_drop 8 i _
      rw [← h1, hd']
      exact drop_len_of_append _ _ 8 (natBitsBE_length _ _)
    have hd16 : (bytesToBits buf).drop (i + 16) = ps.flatMap pairBits ++ tail := by
      have h1 : ((bytesToBits buf).drop (i + 8)).drop 8 = (bytesToBits buf).drop (i + 8 + 8) :=
        List.drop_drop 8 (i + 8) _
      have h2 : i + 8 + 8 = i + 16 := by omega
      rw [h2] at h1
      rw [← h1, hd8]
      exact drop_len_of_append _ _ 8 (natBitsBE_length _ _)
    rw [hlen, readPairsLoop]
    rw [readBits_at 8 buf i (by simp [List.length_cons] at hb; omega)]
    dsimp only
    rw [readBits_at 8 buf (i + 8) (by simp [List.length_cons] at hb; omega)]
    dsimp only
    have hih := ih buf (i + 16) tail (by simp [List.length_cons] at hb ⊢; omega) hd16 hps
    rw [hih]
    dsimp only
    have ht1 : ((bytesToBits buf).drop i).take 8 = natBitsBE 8 p.1 := by
      rw [hd']
      exact take_len_of_append _ _ 8 (natBitsBE_length _ _)
    have ht2 : ((bytesToBits buf).drop (i + 8)).take 8 = natBitsBE 8 (p.2 % 256) := by
      rw [hd8]
      exact take_len_of_append _ _ 8 (natBitsBE_length _ _)
    rw [ht1, ht2]
    rw [from_be_bytes_bits_to_bytes _ (natBitsBE_le_one _ _) (by rw [natBitsBE_length])]
    rw [from_be_bytes_bits_to_bytes _ (natBitsBE_le_one _ _) (by rw [natBitsBE_length])]
    rw [bitsToNat_natBitsBE, bitsToNat_natBitsBE]
    have e1 : p.1 % 2 ^ 8 = p.1 := by omega
    have e2 : p.2 % 256 % 2 ^ 8 = p.2 := by omega
    have e3 : i + 8 + 8 = i + 16 := by omega
    have e4 : i + 16 + 16 * ps.length = i + 16 * (ps.length + 1) := by omega
    rw [e1, e2, e3, e4]

/-- Total bit length of the framed stream. -/
theorem frameBits_length (byte_lengths : List (Nat × Nat)) (cbits : List Nat) :
    (frameBits byte_lengths cbits).length
      = 64 + 16 * byte_lengths.length + cbits.length := by
  simp only [frameBits, List.length_append, natBitsBE_length, flatMap_pairBits_length]

/-- Parsing the framed file written by `write_data_canonical` recovers the
encoder's table exactly and hands the first `data_len` compressed bits to
`decode_canonical` under the trie regenerated from that table, where
`data_len` is the 32-bit (hence possibly wrapped) stored bit count. -/
theorem read_data_canonical_write_general (byte_lengths : List (Nat × Nat)) (cbits : List Nat)
    (hp : ∀ p ∈ byte_lengths, p.1 < 256 ∧ p.2 < 256)
    (hlp : byte_lengths.length < 2 ^ 32)
    (hc01 : ∀ b ∈ cbits, b ≤ 1) :
    read_data_canonical (write_data_canonical byte_lengths cbits)
      = decode_canonical (cbits.take (cbits.length % 2 ^ 32))
          (build_decoding_tree (generate_canonical_codes byte_lengths)) := by
  rw [write_data_canonical_eq]
  have hF01 : ∀ b ∈ frameBits byte_lengths cbits, b ≤ 1 :=
    frameBits_le_one byte_lengths cbits hc01
  have hG : bytesToBits (bits_to_bytes (frameBits byte_lengths cbits))
      = natBitsBE 32 (byte_lengths.length % 2 ^ 32)
        ++ (natBitsBE 32 (cbits.length % 2 ^ 32)
          ++ (byte_lengths.flatMap pairBits
            ++ (cbits
              ++ List.replicate ((8 - (frameBits byte_lengths cbits).length % 8) % 8) 0))) := by
    rw [bytesToBits_bits_to_bytes _ hF01]
    simp [frameBits, List.append_assoc]
  have h8len : (frameBits byte_lengths cbits).length
      ≤ 8 * (bits_to_bytes (frameBits byte_lengths cbits)).length := by
    have hbl := congrArg List.length (bytesToBits_bits_to_bytes _ hF01)
    rw [bytesToBits_length] at hbl
    simp at hbl
    omega
  have hFlen := frameBits_length byte_lengths cbits
  have hd0 : (bytesToBits (bits_to_bytes (frameBits byte_lengths cbits))).drop 0
      = natBitsBE 32 (byte_lengths.length % 2 ^ 32)
        ++ (natBitsBE 32 (cbits.length % 2 ^ 32)
          ++ (byte_lengths.flatMap pairBits
            ++ (cbits
              ++ List.replicate ((8 - (frameBits byte_lengths cbits).length % 8) % 8) 0))) := by
    rw [List.drop_zero]
    exact hG
  have hd32 : (bytesToBits (bits_to_bytes (frameBits byte_lengths cbits))).drop 32
      = natBitsBE 32 (cbits.length % 2 ^ 32)
        ++ (byte_lengths.flatMap pairBits
          ++ (cbits
            ++ List.replicate ((8 - (frameBits byte_lengths cbits).length % 8) % 8) 0)) := by
    rw [hG]
    exact drop_len_of_append _ _ 32 (natBitsBE_length _ _)
  have hd64 : (bytesToBits (bits_to_bytes (frameBits byte_lengths cbits))).drop 64
      = byte_lengths.flatMap pairBits
        ++ (cbits
          ++ List.replicate ((8 - (frameBits byte_lengths cbits).length % 8) % 8) 0) := by
    have h1 : ((bytesToBits (bits_to_bytes (frameBits byte_lengths cbits))).drop 32).drop 32
        = (bytesToBits (bits_to_bytes (frameBits byte_lengths cbits))).drop 64 := by
      rw [List.drop_drop]
    rw [← h1, hd32]
    exact drop_len_of_append _ _ 32 (natBitsBE_length _ _)
  have hd4 : (bytesToBits (bits_to_bytes (frameBits byte_lengths cbits))).drop
        (64 + 16 * byte_lengths.length)
      = cbits ++ List.replicate ((8 - (frameBits byte_lengths cbits).length % 8) % 8) 0 := by
    have h1 : ((bytesToBits (bits_to_bytes (frameBits byte_lengths cbits))).drop 64).drop
          (16 * byte_lengths.length)
        = (bytesToBits (bits_to_bytes (frameBits byte_lengths cbits))).drop
            (64 + 16 * byte_lengths.length) := by
      rw [List.drop_drop]
    rw [← h1, hd64]
    exact drop_len_of_append _ _ _ (flatMap_pairBits_length _)
  have hA : from_be_bytes (bits_to_bytes (natBitsBE 32 (byte_lengths.length % 2 ^ 32)))
      = byte_lengths.length := by
    rw [from_be_bytes_bits_to_bytes _ (natBitsBE_le_one _ _) (by rw [natBitsBE_length])]
    rw [bitsToNat_natBitsBE]
    omega
  have hB : from_be_bytes (bits_to_bytes (natBitsBE 32 (cbits.length % 2 ^ 32)))
      = cbits.length % 2 ^ 32 := by
    rw [from_be_bytes_bits_to_bytes _ (natBitsBE_le_one _ _) (by rw [natBitsBE_length])]
    rw [bitsToNat_natBitsBE]
    omega
  simp only [read_data_canonical]
  rw [show (⟨bits_to_bytes (frameBits byte_lengths cbits), 0, 0⟩ : BitReader)
      = bitReaderAt (bits_to_bytes (frameBits byte_lengths cbits)) 0 from rfl]
  rw [readBits_at 32 _ 0 (by omega)]
  dsimp only
  rw [hd0, take_len_of_append _ _ 32 (natBitsBE_length _ _), hA]
  rw [show (0 : Nat) + 32 = 32 from rfl]
  rw [readBits_at 32 _ 32 (by omega)]
  dsimp only
  rw [hd32, take_len_of_append _ _ 32 (natBitsBE_length _ _), hB]
  rw [show (32 : Nat) + 32 = 64 from rfl]
  rw [readPairsLoop_at byte_lengths _ 64 _ (by omega) hd64 hp]
  dsimp only
  rw [readBits_at (cbits.length % 2 ^ 32) _ (64 + 16 * byte_lengths.length) (by omega)]
  dsimp only
  rw [hd4, List.take_append_of_le_length (by omega)]

/-- Parsing the framed file written by `write_data_canonical` recovers the
encoder's table and compressed bits exactly, and hands the bits to
`decode_canonical` under the trie regenerated from that table. -/
theorem read_data_canonical_write (byte_lengths : List (Nat × Nat)) (cbits : List Nat)
    (hp : ∀ p ∈ byte_lengths, p.1 < 256 ∧ p.2 < 256)
    (hlp : byte_lengths.length < 2 ^ 32)
    (hlc : cbits.length < 2 ^ 32)
    (hc01 : ∀ b ∈ cbits, b ≤ 1) :
    read_data_canonical (write_data_canonical byte_lengths cbits)
      = decode_canonical cbits (build_decoding_tree (generate_canonical_codes byte_lengths)) := by
  rw [read_data_canonical_write_general byte_lengths cbits hp hlp hc01]
  rw [Nat.mod_eq_of_lt hlc, List.take_length]

/-- The decoder's table-recovery stage applied to the encoder's framed
output returns exactly the encoder's `(byte, length)` table. -/
theorem read_table_pairs_write (byte_lengths : List (Nat × Nat)) (cbits : List Nat)
    (hp : ∀ p ∈ byte_lengths, p.1 < 256 ∧ p.2 < 256)
    (hlp : byte_lengths.length < 2 ^ 32)
    (hlc : cbits.length < 2 ^ 32)
    (hc01 : ∀ b ∈ cbits, b ≤ 1) :
    read_table_pairs (write_data_canonical byte_lengths cbits) = some byte_lengths := by
  rw [write_data_canonical_eq]
  have hF01 : ∀ b ∈ frameBits byte_lengths cbits, b ≤ 1 :=
    frameBits_le_one byte_lengths cbits hc01
  have hG : bytesToBits (bits_to_bytes (frameBits byte_lengths cbits))
      = natBitsBE 32 (byte_lengths.length % 2 ^ 32)
        ++ (natBitsBE 32 (cbits.length % 2 ^ 32)
          ++ (byte_lengths.flatMap pairBits
            ++ (cbits
              ++ List.replicate ((8 - (frameBits byte_lengths cbits).length % 8) % 8) 0))) := by
    rw [bytesToBits_bits_to_bytes _ hF01]
    simp [frameBits, List.append_assoc]
  have h8len : (frameBits byte_lengths cbits).length
      ≤ 8 * (bits_to_bytes (frameBits byte_lengths cbits)).length := by
    have hbl := congrArg List.length (bytesToBits_bits_to_bytes _ hF01)
    rw [bytesToBits_length] at hbl
    simp at hbl
    omega
  have hFlen := frameBits_length byte_lengths cbits
  have hd0 : (bytesToBits (bits_to_bytes (frameBits byte_lengths cbits))).drop 0
      = natBitsBE 32 (byte_lengths.length % 2 ^ 32)
        ++ (natBitsBE 32 (cbits.length % 2 ^ 32)
          ++ (byte_lengths.flatMap pairBits
            ++ (cbits
              ++ List.replicate ((8 - (frameBits byte_lengths cbits).length % 8) % 8) 0))) := by
    rw [List.drop_zero]
    exact hG
  have hd32 : (bytesToBits (bits_to_bytes (frameBits byte_lengths cbits))).drop 32
      = natBitsBE 32 (cbits.length % 2 ^ 32)
        ++ (byte_lengths.flatMap pairBits
          ++ (cbits
            ++ List.replicate ((8 - (frameBits byte_lengths cbits).length % 8) % 8) 0)) := by
    rw [hG]
    exact drop_len_of_append _ _ 32 (natBitsBE_length _ _)
  have hd64 : (bytesToBits (bits_to_bytes (frameBits byte_lengths cbits))).drop 64
      = byte_lengths.flatMap pairBits
        ++ (cbits
          ++ List.replicate ((8 - (frameBits byte_lengths cbits).length % 8) % 8) 0) := by
    have h1 : ((bytesToBits (bits_to_bytes (frameBits byte_lengths cbits))).drop 32).drop 32
        = (bytesToBits (bits_to_bytes (frameBits byte_lengths cbits))).drop 64 := by
      rw [List.drop_drop]
    rw [← h1, hd32]
    exact drop_len_of_append _ _ 32 (natBitsBE_length _ _)
  have hA : from_be_bytes (bits_to_bytes (natBitsBE 32 (byte_lengths.length % 2 ^ 32)))
      = byte_lengths.length := by
    rw [from_be_bytes_bits_to_bytes _ (natBitsBE_le_one _ _) (by rw [natBitsBE_length])]
    rw [bitsToNat_natBitsBE]
    omega
  simp only [read_table_pairs]
  rw [show (⟨bits_to_bytes (frameBits byte_lengths cbits), 0, 0⟩ : BitReader)
      = bitReaderAt (bits_to_bytes (frameBits byte_lengths cbits)) 0 from rfl]
  rw [readBits_at 32 _ 0 (by omega)]
  dsimp only
  rw [hd0, take_len_of_append _ _ 32 (natBitsBE_length _ _), hA]
  rw [show (0 : Nat) + 32 = 32 from rfl]
  rw [readBits_at 32 _ 32 (by omega)]
  dsimp only
  rw [show (32 : Nat) + 32 = 64 from rfl]
  rw [readPairsLoop_at byte_lengths _ 64 _ (by omega) hd64 hp]

/-- `canonicalLe` is total. -/
instance : IsTotal (Nat × Nat) canonicalLe :=
  ⟨fun a b => by unfold canonicalLe; omega⟩

/-- `canonicalLe` is transitive. -/
instance : IsTrans (Nat × Nat) canonicalLe :=
  ⟨fun a b c hab hbc => by unfold canonicalLe at *; omega⟩

/-- One step of the canonical assignment under the running Kraft bound:
the shift is plain multiplication, the assigned code value fits in its
length, and the Kraft bound carries to the incremented accumulator. -/
theorem canonStepBounds (cur prev l S : Nat) (hpl : prev ≤ l) (hl32 : l ≤ 32)
    (hkraft : cur * 2 ^ (32 - prev) + (2 ^ (32 - l) + S) ≤ 2 ^ 32) :
    cur <<< (l - prev) = cur * 2 ^ (l - prev) ∧
    cur * 2 ^ (l - prev) < 2 ^ l ∧
    (cur * 2 ^ (l - prev) + 1) * 2 ^ (32 - l) + S ≤ 2 ^ 32 := by
  have hsl : cur <<< (l - prev) = cur * 2 ^ (l - prev) := Nat.shiftLeft_eq cur (l - prev)
  have hsplit : (2 : Nat) ^ (32 - prev) = 2 ^ (l - prev) * 2 ^ (32 - l) := by
    rw [← pow_add]
    congr 1
    omega
  have hkey : (cur * 2 ^ (l - prev) + 1) * 2 ^ (32 - l) + S ≤ 2 ^ 32 := by
    have hc : cur * 2 ^ (32 - prev) = cur * 2 ^ (l - prev) * 2 ^ (32 - l) := by
      rw [hsplit, mul_assoc]
    calc (cur * 2 ^ (l - prev) + 1) * 2 ^ (32 - l) + S
        = cur * 2 ^ (l - prev) * 2 ^ (32 - l) + (2 ^ (32 - l) + S) := by ring
      _ = cur * 2 ^ (32 - prev) + (2 ^ (32 - l) + S) := by rw [hc]
      _ ≤ 2 ^ 32 := hkraft
  have hfit : cur * 2 ^ (l - prev) < 2 ^ l := by
    by_contra hcon
    push_neg at hcon
    have hmul : (2 ^ l + 1) * 2 ^ (32 - l) ≤ (cur * 2 ^ (l - prev) + 1) * 2 ^ (32 - l) :=
      Nat.mul_le_mul_right _ (by omega)
    have hexp : (2 ^ l + 1) * 2 ^ (32 - l) = 2 ^ 32 + 2 ^ (32 - l) := by
      rw [add_mul, one_mul, ← pow_add]
      have he : l + (32 - l) = 32 := by omega
      rw [he]
    have hpos : 0 < 2 ^ (32 - l) := Nat.pos_pow_of_pos _ (by omega)
    omega
  exact ⟨hsl, hfit, hkey⟩

/-- Two canonical codes with the strict value gap produced by the
sequential assignment are not prefixes of one another. -/
theorem natBitsBE_not_pre (l1 l2 v1 v2 : Nat) (h12 : l1 ≤ l2)
    (hf1 : v1 < 2 ^ l1) (hf2 : v2 < 2 ^ l2)
    (hgap : (v1 + 1) * 2 ^ (l2 - l1) ≤ v2) :
    ¬ isCodePre (natBitsBE l1 v1) (natBitsBE l2 v2) ∧
    ¬ isCodePre (natBitsBE l2 v2) (natBitsBE l1 v1) := by
  constructor
  · rintro ⟨t, ht⟩
    have hsplit : natBitsBE l2 v2
        = natBitsBE l1 (v2 >>> (l2 - l1)) ++ natBitsBE (l2 - l1) v2 := by
      have he : l2 = l1 + (l2 - l1) := by omega
      conv_lhs => rw [he, natBitsBE_split]
    rw [hsplit] at ht
    have happ := List.append_inj ht (by rw [natBitsBE_length, natBitsBE_length])
    have hv := congrArg bitsToNat happ.1
    rw [bitsToNat_natBitsBE, bitsToNat_natBitsBE, Nat.mod_eq_of_lt hf1] at hv
    rw [Nat.shiftRight_eq_div_pow] at hv
    have hdivlt : v2 / 2 ^ (l2 - l1) < 2 ^ l1 := by
      apply Nat.div_lt_of_lt_mul
      rw [← pow_add]
      have he : l2 - l1 + l1 = l2 := by omega
      rw [he]
      exact hf2
    rw [Nat.mod_eq_of_lt hdivlt] at hv
    have hge : v1 + 1 ≤ v2 / 2 ^ (l2 - l1) :=
      (Nat.le_div_iff_mul_le (Nat.pos_pow_of_pos _ (by omega))).mpr hgap
    omega
  · rintro ⟨t, ht⟩
    have hlen := congrArg List.length ht
    rw [List.length_append, natBitsBE_length, natBitsBE_length] at hlen
    have hl : l1 = l2 := by omega
    have ht0 : t = [] := List.length_eq_zero.mp (by omega)
    subst hl
    subst ht0
    rw [List.append_nil] at ht
    have hv := congrArg bitsToNat ht
    rw [bitsToNat_natBitsBE, bitsToNat_natBitsBE, Nat.mod_eq_of_lt hf1,
      Nat.mod_eq_of_lt hf2] at hv
    have : (v1 + 1) * 2 ^ (l1 - l1) = v1 + 1 := by
      rw [Nat.sub_self]
      ring
    omega

/-- `generate_canonical_codes` is the slot-writing fold of the sequential
canonical assignment over the sorted pair list. -/
theorem generate_canonical_codes_eq_fold (lst : List (Nat × Nat)) :
    ∀ (slots : List (Option (List Nat))) (cur prev : Nat),
      (lst.foldl
        (fun (st : List (Option (List Nat)) × Nat × Nat) p =>
          let current_code := (st.2.1 <<< (p.2 - st.2.2)) % 2 ^ 32
          let canonical_code := natBitsBE p.2 current_code
          (st.1.set p.1 (some canonical_code), (current_code + 1) % 2 ^ 32, p.2))
        (slots, cur, prev)).1
      = (canonAssign cur prev lst).foldl (fun cs q => cs.set q.1 (some q.2)) slots := by
  induction lst with
  | nil => intro slots cur prev; rfl
  | cons p rest ih =>
    intro slots cur prev
    rw [List.foldl_cons]
    rw [ih]
    rfl

/-- `generate_canonical_codes`, restated through `canonAssign`. -/
theorem generate_canonical_codes_eq (byte_length_pairs : List (Nat × Nat)) :
    generate_canonical_codes byte_length_pairs
      = (canonAssign 0 0 (List.insertionSort canonicalLe byte_length_pairs)).foldl
          (fun cs q => cs.set q.1 (some q.2)) (List.replicate 256 none) :=
  generate_canonical_codes_eq_fold _ _ 0 0

/-- Under the running Kraft bound the `u32` accumulator never wraps, so
the wrapped and unwrapped assignments agree. -/
theorem canonAssign_eq_noWrap (lst : List (Nat × Nat)) :
    ∀ (cur prev : Nat),
      lst.Pairwise (fun a b => a.2 ≤ b.2) →
      (∀ p ∈ lst, prev ≤ p.2) →
      (∀ p ∈ lst, p.2 ≤ 32) →
      cur * 2 ^ (32 - prev) + kraftScaled 32 (lst.map Prod.snd) ≤ 2 ^ 32 →
      canonAssign cur prev lst = canonAssignNoWrap cur prev lst := by
  induction lst with
  | nil => intro cur prev _ _ _ _; rfl
  | cons p rest ih =>
    intro cur prev hsort hprev h32 hkraft
    have hpl : prev ≤ p.2 := hprev p (by simp)
    have hl32 : p.2 ≤ 32 := h32 p (by simp)
    have hkraft' : cur * 2 ^ (32 - prev)
        + (2 ^ (32 - p.2) + kraftScaled 32 (rest.map Prod.snd)) ≤ 2 ^ 32 := by
      simpa [kraftScaled] using hkraft
    obtain ⟨hsl, hfit, hkey⟩ := canonStepBounds cur prev p.2 _ hpl hl32 hkraft'
    have hlt32 : cur * 2 ^ (p.2 - prev) < 2 ^ 32 :=
      lt_of_lt_of_le hfit (Nat.pow_le_pow_right (by omega) hl32)
    have hmod : (cur <<< (p.2 - prev)) % 2 ^ 32 = cur * 2 ^ (p.2 - prev) := by
      rw [hsl]
      exact Nat.mod_eq_of_lt hlt32
    rw [canonAssign, canonAssignNoWrap]
    rw [hmod, hsl]
    rcases rest with _ | ⟨q, rest'⟩
    · rfl
    · have hq32 : q.2 ≤ 32 := h32 q (by simp)
      have hS1 : 1 ≤ kraftScaled 32 ((q :: rest').map Prod.snd) := by
        have : 0 < (2 : Nat) ^ (32 - q.2) := Nat.pos_pow_of_pos _ (by omega)
        simp [kraftScaled]
        omega
      have hE1 : 1 ≤ (2 : Nat) ^ (32 - p.2) := Nat.one_le_two_pow
      have hle : cur * 2 ^ (p.2 - prev) + 1
          ≤ (cur * 2 ^ (p.2 - prev) + 1) * 2 ^ (32 - p.2) :=
        Nat.le_mul_of_pos_right _ (by omega)
      have hmod2 : (cur * 2 ^ (p.2 - prev) + 1) % 2 ^ 32 = cur * 2 ^ (p.2 - prev) + 1 := by
        apply Nat.mod_eq_of_lt
        omega
      rw [hmod2]
      congr 1
      apply ih
      · exact hsort.of_cons
      · exact (List.pairwise_cons.mp hsort).1
      · intro r hr
        exact h32 r (by simp [hr])
      · exact hkey

/-- The assignment keeps the pair bytes, in order. -/
theorem canonAssignNW_fst (lst : List (Nat × Nat)) :
    ∀ (cur prev : Nat),
      (canonAssignNoWrap cur prev lst).map Prod.fst = lst.map Prod.fst := by
  induction lst with
  | nil => intro cur prev; rfl
  | cons p rest ih =>
    intro cur prev
    rw [canonAssignNoWrap]
    rw [List.map_cons, ih]
    rfl

/-- Every code the assignment hands out is a fitting rendering of a value
at least as large as the running lower bound, at one of the pair lengths. -/
theorem canonAssignNW_codes (lst : List (Nat × Nat)) :
    ∀ (cur prev : Nat),
      lst.Pairwise (fun a b => a.2 ≤ b.2) →
      (∀ p ∈ lst, prev ≤ p.2) →
      (∀ p ∈ lst, p.2 ≤ 32) →
      cur * 2 ^ (32 - prev) + kraftScaled 32 (lst.map Prod.snd) ≤ 2 ^ 32 →
      ∀ q ∈ canonAssignNoWrap cur prev lst,
        ∃ l v, q.2 = natBitsBE l v ∧ prev ≤ l ∧ l ≤ 32 ∧ v < 2 ^ l ∧
          cur * 2 ^ (l - prev) ≤ v ∧ (q.1, l) ∈ lst := by
  induction lst with
  | nil => intro cur prev _ _ _ _ q hq; simp [canonAssignNoWrap] at hq
  | cons p rest ih =>
    intro cur prev hsort hprev h32 hkraft q hq
    have hpl : prev ≤ p.2 := hprev p (by simp)
    have hl32 : p.2 ≤ 32 := h32 p (by simp)
    have hkraft' : cur * 2 ^ (32 - prev)
        + (2 ^ (32 - p.2) + kraftScaled 32 (rest.map Prod.snd)) ≤ 2 ^ 32 := by
      simpa [kraftScaled] using hkraft
    obtain ⟨hsl, hfit, hkey⟩ := canonStepBounds cur prev p.2 _ hpl hl32 hkraft'
    rw [canonAssignNoWrap] at hq
    rcases List.mem_cons.mp hq with hq | hq
    · refine ⟨p.2, cur * 2 ^ (p.2 - prev), ?_, hpl, hl32, hfit, le_refl _, ?_⟩
      · rw [hq, hsl]
      · rw [hq]
        exact List.mem_cons_self _ _
    · obtain ⟨l, v, hc, hpl', hl32', hfit', hlb', hmem'⟩ :=
        ih (cur * 2 ^ (p.2 - prev) + 1) p.2 hsort.of_cons
          (List.pairwise_cons.mp hsort).1 (fun r hr => h32 r (by simp [hr])) hkey
          q (by rw [hsl] at hq; exact hq)
      have hexp : p.2 - prev + (l - p.2) = l - prev := by omega
      refine ⟨l, v, hc, le_trans hpl hpl', hl32', hfit', ?_, List.mem_cons_of_mem p hmem'⟩
      calc cur * 2 ^ (l - prev)
          = cur * 2 ^ (p.2 - prev) * 2 ^ (l - p.2) := by rw [mul_assoc, ← pow_add, hexp]
        _ ≤ (cur * 2 ^ (p.2 - prev) + 1) * 2 ^ (l - p.2) := Nat.mul_le_mul_right _ (by omega)
        _ ≤ v := hlb'

/-- Every pair receives a code of exactly its length. -/
theorem canonAssignNW_covers (lst : List (Nat × Nat)) :
    ∀ (cur prev b l : Nat), (b, l) ∈ lst →
      ∃ c, (b, c) ∈ canonAssignNoWrap cur prev lst ∧ c.length = l := by
  induction lst with
  | nil => intro cur prev b l hm; simp at hm
  | cons p rest ih =>
    intro cur prev b l hm
    rw [canonAssignNoWrap]
    rcases List.mem_cons.mp hm with hm | hm
    · refine ⟨natBitsBE p.2 (cur <<< (p.2 - prev)), ?_, ?_⟩
      · rw [show b = p.1 from congrArg Prod.fst hm]
        exact List.mem_cons_self _ _
      · rw [natBitsBE_length]
        exact (congrArg Prod.snd hm).symm
    · obtain ⟨c, hc, hl⟩ := ih (cur <<< (p.2 - prev) + 1) p.2 b l hm
      exact ⟨c, List.mem_cons_of_mem _ hc, hl⟩

/-- Under the Kraft bound, distinct assigned codes are never prefixes of
one another (in either direction). -/
theorem canonAssignNW_pairwise (lst : List (Nat × Nat)) :
    ∀ (cur prev : Nat),
      lst.Pairwise (fun a b => a.2 ≤ b.2) →
      (∀ p ∈ lst, prev ≤ p.2) →
      (∀ p ∈ lst, p.2 ≤ 32) →
      cur * 2 ^ (32 - prev) + kraftScaled 32 (lst.map Prod.snd) ≤ 2 ^ 32 →
      (canonAssignNoWrap cur prev lst).Pairwise
        (fun q1 q2 => ¬ isCodePre q1.2 q2.2 ∧ ¬ isCodePre q2.2 q1.2) := by
  induction lst with
  | nil => intro cur prev _ _ _ _; simp [canonAssignNoWrap]
  | cons p rest ih =>
    intro cur prev hsort hprev h32 hkraft
    have hpl : prev ≤ p.2 := hprev p (by simp)
    have hl32 : p.2 ≤ 32 := h32 p (by simp)
    have hkraft' : cur * 2 ^ (32 - prev)
        + (2 ^ (32 - p.2) + kraftScaled 32 (rest.map Prod.snd)) ≤ 2 ^ 32 := by
      simpa [kraftScaled] using hkraft
    obtain ⟨hsl, hfit, hkey⟩ := canonStepBounds cur prev p.2 _ hpl hl32 hkraft'
    rw [canonAssignNoWrap]
    apply List.pairwise_cons.mpr
    constructor
    · intro q hq
      rw [hsl] at hq
      obtain ⟨l, v, hc, hpl', hl32', hfit', hlb', _⟩ :=
        canonAssignNW_codes rest (cur * 2 ^ (p.2 - prev) + 1) p.2 hsort.of_cons
          (List.pairwise_cons.mp hsort).1 (fun r hr => h32 r (by simp [hr])) hkey q hq
      have hnp := natBitsBE_not_pre p.2 l (cur * 2 ^ (p.2 - prev)) v hpl' hfit hfit' hlb'
      rw [hsl]
      constructor
      · rw [hc]
        exact hnp.1
      · rw [hc]
        exact hnp.2
    · apply ih
      · exact hsort.of_cons
      · exact (List.pairwise_cons.mp hsort).1
      · intro r hr
        exact h32 r (by simp [hr])
      · rw [hsl]
        exact hkey

/-- Slot lookups are untouched by writes at other bytes. -/
theorem foldl_set_some_getD_not_mem (A : List (Nat × List Nat)) :
    ∀ (cs : List (Option (List Nat))) (b : Nat), b ∉ A.map Prod.fst →
      (A.foldl (fun cs q => cs.set q.1 (some q.2)) cs).getD b none = cs.getD b none := by
  induction A with
  | nil => intro cs b _; rfl
  | cons q rest ih =>
    intro cs b hb
    have hb' : b ∉ rest.map Prod.fst := fun h => hb (by simp at h ⊢; tauto)
    have hbq : b ≠ q.1 := fun h => hb (by simp [h])
    rw [List.foldl_cons, ih _ b hb']
    rw [List.getD_eq_getElem?_getD, List.getD_eq_getElem?_getD]
    rw [List.getElem?_set_ne (fun h => hbq h.symm)]

/-- The slot of a byte written once by the fold holds its code. -/
theorem foldl_set_some_getD_mem (A : List (Nat × List Nat)) :
    ∀ (cs : List (Option (List Nat))) (b : Nat) (c : List Nat),
      (b, c) ∈ A → (A.map Prod.fst).Nodup → b < cs.length →
      (A.foldl (fun cs q => cs.set q.1 (some q.2)) cs).getD b none = some c := by
  induction A with
  | nil => intro cs b c hm _ _; simp at hm
  | cons q rest ih =>
    intro cs b c hm hnd hb
    rw [List.foldl_cons]
    rcases List.mem_cons.mp hm with hm | hm
    · have hbq : q.1 = b := (congrArg Prod.fst hm).symm
      have hcq : q.2 = c := (congrArg Prod.snd hm).symm
      have hnotin : b ∉ rest.map Prod.fst := by
        rw [← hbq]
        exact (List.nodup_cons.mp (by simpa using hnd)).1
      rw [foldl_set_some_getD_not_mem rest _ b hnotin]
      rw [List.getD_eq_getElem?_getD, ← hbq]
      rw [List.getElem?_set_self (by rw [hbq]; exact hb)]
      simp [hcq]
    · apply ih _ b c hm (List.nodup_cons.mp (by simpa using hnd)).2
      rw [List.length_set]
      exact hb

/-- The fold keeps the 256-slot table length. -/
theorem foldl_set_some_length (A : List (Nat × List Nat)) :
    ∀ (cs : List (Option (List Nat))),
      (A.foldl (fun cs q => cs.set q.1 (some q.2)) cs).length = cs.length := by
  induction A with
  | nil => intro cs; rfl
  | cons q rest ih =>
    intro cs
    rw [List.foldl_cons, ih, List.length_set]

/-! ### Proofs: decoding trie -/

/-- The empty trie stores no byte anywhere. -/
theorem byteAtPath_new (q : List Nat) : byteAtPath DecodeNode.new q = none := by
  cases q with
  | nil => rfl
  | cons qb q' =>
    show (followPath DecodeNode.new (qb :: q')).bind DecodeNode.byte = none
    rw [followPath]
    by_cases h : qb = 0 <;> simp [h, DecodeNode.new, DecodeNode.left, DecodeNode.right]

/-- Inserting a code stores its byte at exactly that path and changes no
other stored byte (codes and query paths are 0/1 bit lists). -/
theorem byteAtPath_insert (c : List Nat) :
    ∀ (t : DecodeNode) (b : Nat) (q : List Nat),
      (∀ x ∈ c, x ≤ 1) → (∀ x ∈ q, x ≤ 1) →
      byteAtPath (t.insert c b) q = if q = c then some b else byteAtPath t q := by
  induction c with
  | nil =>
    intro t b q _ _
    rcases t with ⟨l, r, ob⟩
    cases q with
    | nil => simp [DecodeNode.insert, byteAtPath, followPath, DecodeNode.byte]
    | cons qb q' =>
      rw [if_neg (by simp)]
      show ((followPath _ (qb :: q')).bind _) = ((followPath _ (qb :: q')).bind _)
      rw [followPath, followPath]
      rfl
  | cons cb c' ih =>
    intro t b q hc hq
    rcases t with ⟨l, r, ob⟩
    have hcb : cb ≤ 1 := hc cb (by simp)
    have hc' : ∀ x ∈ c', x ≤ 1 := fun x hx => hc x (by simp [hx])
    cases q with
    | nil =>
      rw [if_neg (by simp)]
      rw [DecodeNode.insert]
      by_cases h : cb = 0 <;> simp [h, byteAtPath, followPath, DecodeNode.byte]
    | cons qb q' =>
      have hqb : qb ≤ 1 := hq qb (by simp)
      have hq' : ∀ x ∈ q', x ≤ 1 := fun x hx => hq x (by simp [hx])
      rw [DecodeNode.insert]
      interval_cases cb <;> interval_cases qb
      · -- cb = 0, qb = 0
        show byteAtPath ⟨some (((DecodeNode.left ⟨l, r, ob⟩).getD DecodeNode.new).insert c' b), r, ob⟩ (0 :: q')
          = _
        rw [show byteAtPath ⟨some (((DecodeNode.left ⟨l, r, ob⟩).getD DecodeNode.new).insert c' b), r, ob⟩ (0 :: q')
            = byteAtPath (((DecodeNode.left ⟨l, r, ob⟩).getD DecodeNode.new).insert c' b) q' from by
          show (followPath _ (0 :: q')).bind _ = _
          rw [followPath]
          simp [DecodeNode.left]
          rfl]
        rw [ih _ b q' hc' hq']
        by_cases he : q' = c'
        · rw [if_pos he, if_pos (by rw [he])]
        · rw [if_neg he, if_neg (by simp [he])]
          rcases l with _ | L
          · rw [show byteAtPath ⟨none, r, ob⟩ (0 :: q') = none from by
              show (followPath _ (0 :: q')).bind _ = none
              rw [followPath]
              simp [DecodeNode.left]]
            simp [DecodeNode.left, byteAtPath_new]
          · rw [show byteAtPath ⟨some L, r, ob⟩ (0 :: q') = byteAtPath L q' from by
              show (followPath _ (0 :: q')).bind _ = _
              rw [followPath]
              simp [DecodeNode.left]
              rfl]
            simp [DecodeNode.left]
      · -- cb = 0, qb = 1
        rw [if_neg (show ¬((1 : Nat) :: q' = (0 : Nat) :: c') from by
          intro h
          injection h with h1 h2
          exact one_ne_zero h1)]
        show byteAtPath ⟨some ((l.getD DecodeNode.new).insert c' b), r, ob⟩ (1 :: q')
          = byteAtPath ⟨l, r, ob⟩ (1 :: q')
        show (followPath ⟨some ((l.getD DecodeNode.new).insert c' b), r, ob⟩ (1 :: q')).bind
            DecodeNode.byte
          = (followPath ⟨l, r, ob⟩ (1 :: q')).bind DecodeNode.byte
        rw [followPath, followPath]
        rfl
      · -- cb = 1, qb = 0
        rw [if_neg (show ¬((0 : Nat) :: q' = (1 : Nat) :: c') from by
          intro h
          injection h with h1 h2
          exact zero_ne_one h1)]
        show byteAtPath ⟨l, some ((r.getD DecodeNode.new).insert c' b), ob⟩ (0 :: q')
          = byteAtPath ⟨l, r, ob⟩ (0 :: q')
        show (followPath ⟨l, some ((r.getD DecodeNode.new).insert c' b), ob⟩ (0 :: q')).bind
            DecodeNode.byte
          = (followPath ⟨l, r, ob⟩ (0 :: q')).bind DecodeNode.byte
        rw [followPath, followPath]
        rfl
      · -- cb = 1, qb = 1
        show byteAtPath ⟨l, some (((DecodeNode.right ⟨l, r, ob⟩).getD DecodeNode.new).insert c' b), ob⟩ (1 :: q')
          = _
        rw [show byteAtPath ⟨l, some (((DecodeNode.right ⟨l, r, ob⟩).getD DecodeNode.new).insert c' b), ob⟩ (1 :: q')
            = byteAtPath (((DecodeNode.right ⟨l, r, ob⟩).getD DecodeNode.new).insert c' b) q' from by
          show (followPath _ (1 :: q')).bind _ = _
          rw [followPath]
          simp [DecodeNode.right]
          rfl]
        rw [ih _ b q' hc' hq']
        by_cases he : q' = c'
        · rw [if_pos he, if_pos (by rw [he])]
        · rw [if_neg he, if_neg (by simp [he])]
          rcases r with _ | R
          · rw [show byteAtPath ⟨l, none, ob⟩ (1 :: q') = none from by
              show (followPath _ (1 :: q')).bind _ = none
              rw [followPath]
              simp [DecodeNode.right]]
            simp [DecodeNode.right, byteAtPath_new]
          · rw [show byteAtPath ⟨l, some R, ob⟩ (1 :: q') = byteAtPath R q' from by
              show (followPath _ (1 :: q')).bind _ = _
              rw [followPath]
              simp [DecodeNode.right]
              rfl]
            simp [DecodeNode.right]

/-- Inserting a code creates every node along the code's path. -/
theorem followPath_insert_take (c : List Nat) :
    ∀ (t : DecodeNode) (b : Nat) (j : Nat), j ≤ c.length →
      (followPath (t.insert c b) (c.take j)).isSome := by
  induction c with
  | nil =>
    intro t b j hj
    have hj0 : j = 0 := by simpa using hj
    subst hj0
    rfl
  | cons cb c' ih =>
    intro t b j hj
    rcases t with ⟨l, r, ob⟩
    cases j with
    | zero => rfl
    | succ j' =>
      rw [List.take_succ_cons]
      rw [DecodeNode.insert]
      by_cases h : cb = 0
      · rw [if_pos h]
        subst h
        show (followPath _ (0 :: List.take j' c')).isSome
        rw [followPath]
        simp only [DecodeNode.left, if_pos rfl]
        exact ih _ b j' (by simpa using hj)
      · rw [if_neg h]
        show (followPath _ (cb :: List.take j' c')).isSome
        rw [followPath]
        simp only [DecodeNode.right, if_neg h]
        exact ih _ b j' (by simpa using hj)

/-- Inserting a code never removes existing trie paths. -/
theorem followPath_insert_mono (c : List Nat) :
    ∀ (t : DecodeNode) (b : Nat) (q : List Nat),
      (followPath t q).isSome → (followPath (t.insert c b) q).isSome := by
  induction c with
  | nil =>
    intro t b q hq
    rcases t with ⟨l, r, ob⟩
    cases q with
    | nil => rfl
    | cons qb q' =>
      rw [DecodeNode.insert]
      rw [followPath] at hq ⊢
      simp only [DecodeNode.left, DecodeNode.right] at hq ⊢
      exact hq
  | cons cb c' ih =>
    intro t b q hq
    rcases t with ⟨l, r, ob⟩
    cases q with
    | nil => rfl
    | cons qb q' =>
      rw [DecodeNode.insert]
      rw [followPath] at hq
      by_cases hcb : cb = 0 <;> by_cases hqb : qb = 0
      · rw [if_pos hcb]
        rw [followPath]
        simp only [DecodeNode.left, if_pos hqb] at hq ⊢
        rcases l with _ | L
        · simp at hq
        · simp only [Option.getD_some] at hq ⊢
          exact ih L b q' hq
      · rw [if_pos hcb]
        rw [followPath]
        simp only [DecodeNode.right, if_neg hqb] at hq ⊢
        exact hq
      · rw [if_neg hcb]
        rw [followPath]
        simp only [DecodeNode.left, if_pos hqb] at hq ⊢
        exact hq
      · rw [if_neg hcb]
        rw [followPath]
        simp only [DecodeNode.right, if_neg hqb] at hq ⊢
        rcases r with _ | R
        · simp at hq
        · simp only [Option.getD_some] at hq ⊢
          exact ih R b q' hq

/-- The insertion fold never removes existing trie paths. -/
theorem followPath_foldl_mono (A : List (Nat × List Nat)) :
    ∀ (t : DecodeNode) (q : List Nat),
      (followPath t q).isSome →
      (followPath (A.foldl (fun t e => t.insert e.2 e.1) t) q).isSome := by
  induction A with
  | nil => intro t q hq; exact hq
  | cons e rest ih =>
    intro t q hq
    rw [List.foldl_cons]
    exact ih _ q (followPath_insert_mono e.2 t e.1 q hq)

/-- After the insertion fold, every prefix of every inserted code is a
live trie path. -/
theorem followPath_foldl_take (A : List (Nat × List Nat)) :
    ∀ (t : DecodeNode) (b : Nat) (c : List Nat), (b, c) ∈ A → ∀ j ≤ c.length,
      (followPath (A.foldl (fun t e => t.insert e.2 e.1) t) (c.take j)).isSome := by
  induction A with
  | nil => intro t b c hm; simp at hm
  | cons e rest ih =>
    intro t b c hm j hj
    rw [List.foldl_cons]
    rcases List.mem_cons.mp hm with hm | hm
    · apply followPath_foldl_mono
      have hc : e.2 = c := (congrArg Prod.snd hm).symm
      rw [← hc] at hj ⊢
      exact followPath_insert_take e.2 t e.1 j hj
    · exact ih _ b c hm j hj

/-- The insertion fold leaves paths outside the inserted code set bare. -/
theorem byteAtPath_foldl_not_mem (A : List (Nat × List Nat)) :
    ∀ (t : DecodeNode) (q : List Nat),
      (∀ e ∈ A, ∀ x ∈ e.2, x ≤ 1) → (∀ x ∈ q, x ≤ 1) →
      q ∉ A.map Prod.snd →
      byteAtPath (A.foldl (fun t e => t.insert e.2 e.1) t) q = byteAtPath t q := by
  induction A with
  | nil => intro t q _ _ _; rfl
  | cons e rest ih =>
    intro t q hA hq hnm
    rw [List.foldl_cons]
    rw [ih _ q (fun x hx => hA x (by simp [hx])) hq (fun h => hnm (by simp at h ⊢; tauto))]
    rw [byteAtPath_insert e.2 t e.1 q (hA e (by simp)) hq]
    rw [if_neg (fun h => hnm (by simp [h]))]

/-- After the insertion fold, the path of each inserted code stores its
byte (codes pairwise distinct). -/
theorem byteAtPath_foldl_mem (A : List (Nat × List Nat)) :
    ∀ (t : DecodeNode) (b : Nat) (c : List Nat),
      (b, c) ∈ A → (A.map Prod.snd).Nodup →
      (∀ e ∈ A, ∀ x ∈ e.2, x ≤ 1) →
      byteAtPath (A.foldl (fun t e => t.insert e.2 e.1) t) c = some b := by
  induction A with
  | nil => intro t b c hm; simp at hm
  | cons e rest ih =>
    intro t b c hm hnd hA
    rw [List.foldl_cons]
    rcases List.mem_cons.mp hm with hm | hm
    · have hc : e.2 = c := (congrArg Prod.snd hm).symm
      have hb : e.1 = b := (congrArg Prod.fst hm).symm
      have hc01 : ∀ x ∈ c, x ≤ 1 := by
        rw [← hc]
        exact hA e (by simp)
      rw [byteAtPath_foldl_not_mem rest _ c (fun x hx => hA x (by simp [hx])) hc01
        (by rw [← hc]; exact (List.nodup_cons.mp (by simpa using hnd)).1)]
      rw [byteAtPath_insert e.2 t e.1 c (hA e (by simp)) hc01]
      rw [if_pos hc.symm, hb]
    · exact ih _ b c hm (List.nodup_cons.mp (by simpa using hnd)).2
        (fun x hx => hA x (by simp [hx]))

/-- `build_decoding_tree` is the insertion fold over the slot-order
`(byte, code)` assignment list. -/
theorem build_decoding_tree_eq (codes : List (Option (List Nat))) :
    build_decoding_tree codes
      = (trieAssignments codes).foldl (fun t e => t.insert e.2 e.1) DecodeNode.new := by
  have key : ∀ (l : List (Nat × Option (List Nat))) (t : DecodeNode),
      l.foldl (fun root p => match p.2 with | some code => root.insert code p.1 | none => root) t
      = (l.filterMap (fun p => match p.2 with | some c => some (p.1, c) | none => none)).foldl
          (fun t e => t.insert e.2 e.1) t := by
    intro l
    induction l with
    | nil => intro t; rfl
    | cons p rest ih =>
      intro t
      rcases p with ⟨i, _ | c⟩
      · rw [List.foldl_cons, List.filterMap_cons]
        exact ih t
      · rw [List.foldl_cons, List.filterMap_cons]
        dsimp only
        rw [List.foldl_cons]
        exact ih _
  rw [build_decoding_tree, trieAssignments]
  exact key codes.enum DecodeNode.new

/-- Membership in the slot-order assignment list is slot lookup. -/
theorem mem_trieAssignments (cs : List (Option (List Nat))) (b : Nat) (c : List Nat) :
    (b, c) ∈ trieAssignments cs ↔ cs.get? b = some (some c) := by
  rw [trieAssignments]
  rw [List.mem_filterMap]
  constructor
  · rintro ⟨p, hp, hm⟩
    rcases p with ⟨i, _ | c'⟩
    · simp at hm
    · simp only [Option.some.injEq] at hm
      have hi : i = b := congrArg Prod.fst hm
      have hc : c' = c := congrArg Prod.snd hm
      rw [← hi, ← hc]
      exact List.mem_enum_iff_get?.mp hp
  · intro h
    exact ⟨(b, some c), List.mem_enum_iff_get?.mpr h, rfl⟩

/-- Distinct slots carry distinct bytes. -/
theorem trieAssignments_fst_pairwise (cs : List (Option (List Nat))) :
    (trieAssignments cs).Pairwise (fun x y => x.1 ≠ y.1) := by
  rw [trieAssignments]
  have henum : (cs.enum).Pairwise (fun x y : Nat × Option (List Nat) => x.1 < y.1) := by
    have key : ∀ (l : List (Option (List Nat))) (n : Nat),
        (List.enumFrom n l).Pairwise (fun x y => x.1 < y.1) := by
      intro l
      induction l with
      | nil => intro n; simp
      | cons a rest ih =>
        intro n
        rw [List.enumFrom]
        apply List.pairwise_cons.mpr
        refine ⟨?_, ih (n + 1)⟩
        intro y hy
        have := List.le_fst_of_mem_enumFrom hy
        omega
    exact key cs 0
  apply List.Pairwise.filterMap _ _ henum
  intro a b hab p hp q hq
  rcases a with ⟨i, _ | c⟩
  · simp at hp
  rcases b with ⟨j, _ | d⟩
  · simp at hq
  simp only [Option.mem_def, Option.some.injEq] at hp hq
  subst hp
  subst hq
  have hij : i < j := hab
  show i ≠ j
  omega

/-- Walking a trie path in two stages. -/
theorem followPath_append (q1 : List Nat) :
    ∀ (t : DecodeNode) (q2 : List Nat),
      followPath t (q1 ++ q2)
        = match followPath t q1 with
          | none => none
          | some u => followPath u q2 := by
  induction q1 with
  | nil => intro t q2; rfl
  | cons b q1' ih =>
    intro t q2
    rw [List.cons_append, followPath, followPath]
    cases hc : (if b = 0 then t.left else t.right) with
    | none => rfl
    | some child => exact ih child q2

/-- A one-step trie walk is child selection. -/
theorem followPath_single (t : DecodeNode) (bit : Nat) :
    followPath t [bit] = (if bit = 0 then t.left else t.right) := by
  rw [followPath]
  cases hc : (if bit = 0 then t.left else t.right) with
  | none => rfl
  | some child => rfl

/-- The decoder loop consumes one complete code from the front of the bit
stream, emits its byte and restarts at the root: codes reach a stored byte
exactly at their last bit. -/
theorem decodeCanonicalGo_code (root : DecodeNode) (cd : List Nat) (b : Nat) (rest : List Nat)
    (hne : cd ≠ [])
    (hex : ∀ j ≤ cd.length, (followPath root (cd.take j)).isSome)
    (hnone : ∀ j, 1 ≤ j → j < cd.length → byteAtPath root (cd.take j) = none)
    (hb : byteAtPath root cd = some b) :
    decodeCanonicalGo root (cd ++ rest) root
      = match decodeCanonicalGo root rest root with
        | some res => some (b :: res)
        | none => none := by
  have key : ∀ (n : Nat), ∀ (j : Nat) (node : DecodeNode), n = cd.length - j → j < cd.length →
      followPath root (cd.take j) = some node →
      decodeCanonicalGo root (cd.drop j ++ rest) node
        = match decodeCanonicalGo root rest root with
          | some res => some (b :: res)
          | none => none := by
    intro n
    induction n with
    | zero => intro j node hn hj _; omega
    | succ n' ih =>
      intro j node hn hj hnode
      have hdrop : cd.drop j = cd[j] :: cd.drop (j + 1) := List.drop_eq_getElem_cons hj
      have htake : cd.take (j + 1) = cd.take j ++ [cd[j]] := by
        rw [List.take_succ]
        rw [(List.getElem?_eq_some_getElem_iff cd j hj).mpr trivial]
        rfl
      have hstep : followPath root (cd.take (j + 1))
          = (if cd[j] = 0 then node.left else node.right) := by
        rw [htake, followPath_append, hnode]
        exact followPath_single node _
      have hchild : ∃ child, (if cd[j] = 0 then node.left else node.right) = some child := by
        have := hex (j + 1) (by omega)
        rw [hstep] at this
        cases hcc : (if cd[j] = 0 then node.left else node.right) with
        | none => rw [hcc] at this; simp at this
        | some child => exact ⟨child, rfl⟩
      obtain ⟨child, hchild⟩ := hchild
      have hbp : byteAtPath root (cd.take (j + 1)) = child.byte := by
        rw [byteAtPath, hstep, hchild]
        rfl
      rw [hdrop, List.cons_append, decodeCanonicalGo, hchild]
      dsimp only
      by_cases hend : j + 1 = cd.length
      · have hcend : cd.take (j + 1) = cd := by
          rw [hend, List.take_length]
        have hbyte : child.byte = some b := by
          rw [← hbp, hcend, hb]
        rw [hbyte]
        dsimp only
        have hdend : cd.drop (j + 1) = [] := by
          rw [hend, List.drop_length]
        rw [hdend, List.nil_append]
      · have hbyte : child.byte = none := by
          rw [← hbp]
          exact hnone (j + 1) (by omega) (by omega)
        rw [hbyte]
        dsimp only
        exact ih (j + 1) child (by omega) (by omega) (by rw [hstep, hchild])
  have hlen : 0 < cd.length := List.length_pos.mpr hne
  have h0 := key cd.length 0 root (by omega) (by omega) (by rw [List.take_zero]; rfl)
  rw [List.drop_zero] at h0
  exact h0

/-- Decoding the concatenated codes of a compressed buffer through a trie
in which every code terminates at its byte and no strict code prefix
carries a byte recovers the buffer. -/
theorem decodeCanonicalGo_compress (codes : List (Option (List Nat))) (root : DecodeNode)
    (H : ∀ b c, codes.getD b none = some c →
      c ≠ [] ∧ (∀ j ≤ c.length, (followPath root (c.take j)).isSome) ∧
      (∀ j, 1 ≤ j → j < c.length → byteAtPath root (c.take j) = none) ∧
      byteAtPath root c = some b) :
    ∀ (buffer cbits : List Nat), compress_canonical buffer codes = some cbits →
      decodeCanonicalGo root cbits root = some buffer := by
  intro buffer
  induction buffer with
  | nil =>
    intro cbits h
    rw [compress_canonical] at h
    obtain rfl : ([] : List Nat) = cbits := Option.some.inj h
    rfl
  | cons b rest ih =>
    intro cbits h
    rw [compress_canonical] at h
    rcases hcode : codes.getD b none with _ | code
    · rw [hcode] at h
      simp at h
    · rw [hcode] at h
      rcases hrest : compress_canonical rest codes with _ | bits
      · rw [hrest] at h
        simp at h
      · rw [hrest] at h
        have hcb : cbits = code ++ bits := by
          simp at h
          exact h.symm
        obtain ⟨hne, hex, hnone, hb⟩ := H b code hcode
        rw [hcb, decodeCanonicalGo_code root code b bits hne hex hnone hb, ih bits hrest]

/-! ### Proofs: Huffman tree construction -/

/-- A default element is returned unchanged from a replicated list. -/
theorem getD_replicate_self {α : Type} (a : α) (n : Nat) :
    ∀ i, (List.replicate n a).getD i a = a := by
  induction n with
  | zero => intro i; rfl
  | succ n ih =>
    intro i
    cases i with
    | zero => rfl
    | succ i' => exact ih i'

/-- The sorted-insert queue push is a permutation of consing. -/
theorem heapPush_perm (q : List Node) (n : Node) : (heapPush q n).Perm (n :: q) := by
  induction q with
  | nil => rfl
  | cons m rest ih =>
    rw [heapPush]
    by_cases h : n.num < m.num
    · rw [if_pos h]
    · rw [if_neg h]
      exact List.Perm.trans (ih.cons m) (List.Perm.swap n m rest)

/-- The merge loop preserves the multiset of leaf bytes. -/
theorem buildLoopFuel_bytes (fuel : Nat) :
    ∀ (q : List Node) (t : Node), buildLoopFuel fuel q = some t →
      t.bytes.Perm (q.flatMap Node.bytes) := by
  induction fuel with
  | zero =>
    intro q t h
    match q with
    | [] => exact absurd h (by rw [show buildLoopFuel 0 ([] : List Node) = none from rfl]; simp)
    | [t'] =>
      have ht : t' = t := Option.some.inj h
      rw [← ht]
      simp
    | t1 :: t2 :: rest =>
      exact absurd h
        (by rw [show buildLoopFuel 0 (t1 :: t2 :: rest) = none from rfl]; simp)
  | succ fuel ih =>
    intro q t h
    match q with
    | [] =>
      exact absurd h
        (by rw [show buildLoopFuel (fuel + 1) ([] : List Node) = none from rfl]; simp)
    | [t'] =>
      have ht : t' = t := Option.some.inj h
      rw [← ht]
      simp
    | t1 :: t2 :: rest =>
      have hstep : buildLoopFuel (fuel + 1) (t1 :: t2 :: rest)
          = buildLoopFuel fuel (heapPush rest (.node (t1.num + t2.num) t1 t2)) := rfl
      rw [hstep] at h
      have hperm := ih _ t h
      have hpush : ((heapPush rest (Node.node (t1.num + t2.num) t1 t2)).flatMap
            Node.bytes).Perm
          ((Node.node (t1.num + t2.num) t1 t2 :: rest).flatMap Node.bytes) :=
        List.Perm.flatMap_right Node.bytes
          (heapPush_perm rest (Node.node (t1.num + t2.num) t1 t2))
      refine hperm.trans (hpush.trans ?_)
      rw [List.flatMap_cons, List.flatMap_cons, List.flatMap_cons]
      rw [show (Node.node (t1.num + t2.num) t1 t2).bytes = t1.bytes ++ t2.bytes from rfl]
      rw [List.append_assoc]

/-- Queue bytes of the initial leaf-filling fold: one leaf per byte of
positive frequency, in order. -/
theorem heapFold_bytes (l : List Nat) (freq : Nat → Nat) :
    ∀ (q : List Node),
      ((l.foldl
        (fun q byte => if freq byte > 0 then heapPush q (.leaf (freq byte) byte) else q)
        q).flatMap Node.bytes).Perm
        (q.flatMap Node.bytes ++ l.filter (fun b => freq b > 0)) := by
  induction l with
  | nil => intro q; simp
  | cons b rest ih =>
    intro q
    rw [List.foldl_cons]
    by_cases h : freq b > 0
    · rw [if_pos h]
      have h1 := ih (heapPush q (Node.leaf (freq b) b))
      have h2 : ((heapPush q (Node.leaf (freq b) b)).flatMap Node.bytes).Perm
          (b :: q.flatMap Node.bytes) := by
        have := List.Perm.flatMap_right Node.bytes (heapPush_perm q (Node.leaf (freq b) b))
        simpa using this
      refine h1.trans ?_
      have h3 : (List.filter (fun b => decide (freq b > 0)) (b :: rest))
          = b :: List.filter (fun b => decide (freq b > 0)) rest := by
        rw [List.filter_cons_of_pos (by simpa using h)]
      rw [h3]
      refine (h2.append_right _).trans ?_
      show (b :: (q.flatMap Node.bytes
          ++ List.filter (fun b => decide (freq b > 0)) rest)).Perm _
      exact List.perm_middle.symm
    · rw [if_neg h]
      refine (ih q).trans ?_
      rw [List.filter_cons_of_neg (by simpa using h)]

/-- The leaf-filling fold skips bytes of zero frequency. -/
theorem heapFold_zero (l : List Nat) (freq : Nat → Nat) :
    ∀ (q : List Node), (∀ b ∈ l, ¬ freq b > 0) →
      l.foldl
        (fun q byte => if freq byte > 0 then heapPush q (.leaf (freq byte) byte) else q) q
      = q := by
  induction l with
  | nil => intro q _; rfl
  | cons b rest ih =>
    intro q hz
    rw [List.foldl_cons, if_neg (hz b (by simp))]
    exact ih q (fun x hx => hz x (by simp [hx]))

/-- Leaf path entries carry the tree's bytes, in order. -/
theorem leafPaths_fst (t : Node) : ∀ cur, (t.leafPaths cur).map Prod.fst = t.bytes := by
  induction t with
  | leaf n b => intro cur; rfl
  | node n l r ihl ihr =>
    intro cur
    rw [Node.leafPaths, List.map_append, ihl, ihr]
    rfl

/-- Leaf paths extend the current path prefix. -/
theorem leafPaths_length_ge (t : Node) :
    ∀ cur, ∀ p ∈ t.leafPaths cur, cur.length ≤ p.2.length := by
  induction t with
  | leaf n b =>
    intro cur p hp
    rw [Node.leafPaths] at hp
    rcases List.mem_singleton.mp hp with rfl
    exact le_refl _
  | node n l r ihl ihr =>
    intro cur p hp
    rw [Node.leafPaths] at hp
    rcases List.mem_append.mp hp with hp | hp
    · have := ihl (cur ++ [0]) p hp
      rw [List.length_append] at this
      omega
    · have := ihr (cur ++ [1]) p hp
      rw [List.length_append] at this
      omega

/-- Every tree has at least one leaf. -/
theorem leafPaths_ne_nil (t : Node) : ∀ cur, t.leafPaths cur ≠ [] := by
  induction t with
  | leaf n b => intro cur h; simp [Node.leafPaths] at h
  | node n l r ihl ihr =>
    intro cur h
    rw [Node.leafPaths] at h
    rcases List.append_eq_nil.mp h with ⟨h1, _⟩
    exact ihl _ h1

/-- Kraft equality for the leaf depths of a construction tree: at any
bound `L` dominating every leaf depth, the scaled Kraft weights of the
leaves below a prefix sum to the prefix's own weight. -/
theorem kraft_leafPaths (t : Node) :
    ∀ (cur : List Nat) (L : Nat),
      (∀ p ∈ t.leafPaths cur, p.2.length ≤ L) →
      ((t.leafPaths cur).map (fun p => 2 ^ (L - p.2.length))).sum = 2 ^ (L - cur.length) := by
  induction t with
  | leaf n b =>
    intro cur L _
    rw [Node.leafPaths]
    simp
  | node n l r ihl ihr =>
    intro cur L hd
    rw [Node.leafPaths] at hd ⊢
    rw [List.map_append, List.sum_append]
    have hdl : ∀ p ∈ l.leafPaths (cur ++ [0]), p.2.length ≤ L :=
      fun p hp => hd p (List.mem_append.mpr (Or.inl hp))
    have hdr : ∀ p ∈ r.leafPaths (cur ++ [1]), p.2.length ≤ L :=
      fun p hp => hd p (List.mem_append.mpr (Or.inr hp))
    rw [ihl _ L hdl, ihr _ L hdr]
    obtain ⟨p0, hp0⟩ := List.exists_mem_of_ne_nil _ (leafPaths_ne_nil l (cur ++ [0]))
    have hge := leafPaths_length_ge l (cur ++ [0]) p0 hp0
    have hle := hdl p0 hp0
    rw [List.length_append] at hge
    have hcur : cur.length + 1 ≤ L := by simpa using le_trans hge hle
    have he1 : (cur ++ [0]).length = cur.length + 1 := by
      rw [List.length_append]
      rfl
    have he2 : (cur ++ [1]).length = cur.length + 1 := by
      rw [List.length_append]
      rfl
    rw [he1, he2]
    have he3 : L - cur.length = (L - (cur.length + 1)) + 1 := by omega
    rw [he3, pow_succ]
    ring

/-- `traverse` is the slot-writing fold over the leaf paths. -/
theorem traverse_eq_foldl (t : Node) :
    ∀ (cur : List Nat) (codes : List (List Nat)),
      traverse t cur codes
        = (t.leafPaths cur).foldl (fun cs p => cs.set p.1 p.2) codes := by
  induction t with
  | leaf n b => intro cur codes; rfl
  | node n l r ihl ihr =>
    intro cur codes
    rw [Node.leafPaths, List.foldl_append, ← ihl, ← ihr]
    rfl

/-- Plain-list slot fold: lookups at unwritten bytes are unchanged. -/
theorem foldl_set_getD_not_mem (A : List (Nat × List Nat)) :
    ∀ (cs : List (List Nat)) (b : Nat), b ∉ A.map Prod.fst →
      (A.foldl (fun cs p => cs.set p.1 p.2) cs).getD b [] = cs.getD b [] := by
  induction A with
  | nil => intro cs b _; rfl
  | cons q rest ih =>
    intro cs b hb
    have hb' : b ∉ rest.map Prod.fst := fun h => hb (by simp at h ⊢; tauto)
    have hbq : b ≠ q.1 := fun h => hb (by simp [h])
    rw [List.foldl_cons, ih _ b hb']
    rw [List.getD_eq_getElem?_getD, List.getD_eq_getElem?_getD]
    rw [List.getElem?_set_ne (fun h => hbq h.symm)]

/-- Plain-list slot fold: a byte written once holds its path. -/
theorem foldl_set_getD_mem (A : List (Nat × List Nat)) :
    ∀ (cs : List (List Nat)) (b : Nat) (c : List Nat),
      (b, c) ∈ A → (A.map Prod.fst).Nodup → b < cs.length →
      (A.foldl (fun cs p => cs.set p.1 p.2) cs).getD b [] = c := by
  induction A with
  | nil => intro cs b c hm _ _; simp at hm
  | cons q rest ih =>
    intro cs b c hm hnd hb
    rw [List.foldl_cons]
    rcases List.mem_cons.mp hm with hm | hm
    · have hbq : q.1 = b := (congrArg Prod.fst hm).symm
      have hcq : q.2 = c := (congrArg Prod.snd hm).symm
      have hnotin : b ∉ rest.map Prod.fst := by
        rw [← hbq]
        exact (List.nodup_cons.mp (by simpa using hnd)).1
      rw [foldl_set_getD_not_mem rest _ b hnotin]
      rw [List.getD_eq_getElem?_getD, ← hbq]
      rw [List.getElem?_set_self (by rw [hbq]; exact hb)]
      simp [hcq]
    · apply ih _ b c hm (List.nodup_cons.mp (by simpa using hnd)).2
      rw [List.length_set]
      exact hb

/-- Plain-list slot fold: the table length is preserved. -/
theorem foldl_set_length (A : List (Nat × List Nat)) :
    ∀ (cs : List (List Nat)),
      (A.foldl (fun cs p => cs.set p.1 p.2) cs).length = cs.length := by
  induction A with
  | nil => intro cs; rfl
  | cons q rest ih =>
    intro cs
    rw [List.foldl_cons, ih, List.length_set]

/-- Membership in the `(byte, length)` table is a non-empty slot lookup. -/
theorem mem_code_lengths_of (cs : List (List Nat)) (b l : Nat) :
    (b, l) ∈ code_lengths_of cs
      ↔ ∃ c, cs.get? b = some c ∧ c ≠ [] ∧ l = c.length := by
  rw [code_lengths_of, List.mem_filterMap]
  constructor
  · rintro ⟨p, hp, hm⟩
    by_cases he : p.2.isEmpty
    · rw [if_pos he] at hm
      simp at hm
    · rw [if_neg he] at hm
      have hb : p.1 = b := congrArg Prod.fst (Option.some.inj hm)
      have hl : p.2.length = l := congrArg Prod.snd (Option.some.inj hm)
      refine ⟨p.2, ?_, by simpa using he, hl.symm⟩
      rw [← hb]
      exact List.mem_enum_iff_get?.mp hp
  · rintro ⟨c, hget, hne, hl⟩
    refine ⟨(b, c), List.mem_enum_iff_get?.mpr hget, ?_⟩
    rw [if_neg (by simpa using hne)]
    rw [hl]

/-- Distinct table entries name distinct bytes. -/
theorem code_lengths_of_fst_pairwise (cs : List (List Nat)) :
    (code_lengths_of cs).Pairwise (fun x y => x.1 ≠ y.1) := by
  rw [code_lengths_of]
  have henum : (cs.enum).Pairwise (fun x y : Nat × List Nat => x.1 < y.1) := by
    have key : ∀ (l : List (List Nat)) (n : Nat),
        (List.enumFrom n l).Pairwise (fun x y => x.1 < y.1) := by
      intro l
      induction l with
      | nil => intro n; simp
      | cons a rest ih =>
        intro n
        rw [List.enumFrom]
        apply List.pairwise_cons.mpr
        refine ⟨?_, ih (n + 1)⟩
        intro y hy
        have := List.le_fst_of_mem_enumFrom hy
        omega
    exact key cs 0
  apply List.Pairwise.filterMap _ _ henum
  intro a b hab p hp q hq
  by_cases hea : a.2.isEmpty
  · rw [if_pos hea] at hp
    simp at hp
  by_cases heb : b.2.isEmpty
  · rw [if_pos heb] at hq
    simp at hq
  rw [if_neg hea] at hp
  rw [if_neg heb] at hq
  simp only [Option.mem_def, Option.some.injEq] at hp hq
  subst hp
  subst hq
  have hab' : a.1 < b.1 := hab
  show a.1 ≠ b.1
  omega

/-- A table over empty slots only is empty. -/
theorem code_lengths_of_all_empty (cs : List (List Nat)) (h : ∀ c ∈ cs, c = []) :
    code_lengths_of cs = [] := by
  rw [code_lengths_of]
  rw [List.filterMap_eq_nil]
  intro p hp
  have hc : p.2 ∈ cs := List.get?_mem (List.mem_enum_iff_get?.mp hp)
  rw [if_pos (by simp [h p.2 hc])]

/-- Weighted sum over the table is the slot-wise sum over the code list. -/
theorem code_lengths_sum (cs : List (List Nat)) (f : Nat → Nat) :
    ((code_lengths_of cs).map (fun q => f q.2)).sum
      = (cs.map (fun c => if c.isEmpty then 0 else f c.length)).sum := by
  rw [code_lengths_of]
  have key : ∀ (l : List (List Nat)) (n : Nat),
      (((List.enumFrom n l).filterMap
        (fun p => if p.2.isEmpty then none else some (p.1, p.2.length))).map
          (fun q => f q.2)).sum
      = (l.map (fun c => if c.isEmpty then 0 else f c.length)).sum := by
    intro l
    induction l with
    | nil => intro n; rfl
    | cons c rest ih =>
      intro n
      rw [List.enumFrom, List.filterMap_cons]
      by_cases he : c.isEmpty
      · rw [if_pos (show ((n, c) : Nat × List Nat).2.isEmpty from he)]
        rw [List.map_cons, List.sum_cons, if_pos he, ih (n + 1)]
        omega
      · rw [if_neg (show ¬((n, c) : Nat × List Nat).2.isEmpty from he)]
        rw [List.map_cons, List.map_cons, List.sum_cons, List.sum_cons, if_neg he, ih (n + 1)]
  exact key cs 0

/-- Overwriting an empty slot adds the new value's weight to the sum. -/
theorem set_sum (g : List Nat → Nat) (hg : g [] = 0) :
    ∀ (cs : List (List Nat)) (b : Nat) (v : List Nat),
      b < cs.length → cs.getD b [] = [] →
      ((cs.set b v).map g).sum = g v + (cs.map g).sum := by
  intro cs
  induction cs with
  | nil => intro b v hb _; simp at hb
  | cons c rest ih =>
    intro b v hb hempty
    cases b with
    | zero =>
      have hc : c = [] := hempty
      rw [List.set_cons_zero, List.map_cons, List.map_cons, List.sum_cons, List.sum_cons]
      rw [hc, hg]
      omega
    | succ b' =>
      rw [List.set_cons_succ, List.map_cons, List.map_cons, List.sum_cons, List.sum_cons]
      rw [ih b' v (by simpa using hb) hempty]
      omega

/-- Writing pairwise-distinct bytes into empty slots adds exactly the
written weights to the slot-wise sum. -/
theorem foldl_set_sum (g : List Nat → Nat) (hg : g [] = 0) :
    ∀ (A : List (Nat × List Nat)) (cs : List (List Nat)),
      (A.map Prod.fst).Nodup →
      (∀ p ∈ A, p.1 < cs.length) →
      (∀ p ∈ A, cs.getD p.1 [] = []) →
      ((A.foldl (fun cs p => cs.set p.1 p.2) cs).map g).sum
        = (cs.map g).sum + (A.map (fun p => g p.2)).sum := by
  intro A
  induction A with
  | nil => intro cs _ _ _; simp
  | cons q rest ih =>
    intro cs hnd hlt hempty
    rw [List.foldl_cons]
    have hq1 : q.1 < cs.length := hlt q (by simp)
    have hqe : cs.getD q.1 [] = [] := hempty q (by simp)
    have hkey : q.1 ∉ rest.map Prod.fst := (List.nodup_cons.mp (by simpa using hnd)).1
    rw [ih (cs.set q.1 q.2) (List.nodup_cons.mp (by simpa using hnd)).2
      (fun p hp => by rw [List.length_set]; exact hlt p (by simp [hp]))
      (fun p hp => by
        rw [List.getD_eq_getElem?_getD, List.getElem?_set_ne
          (fun h => hkey (by rw [h]; exact List.mem_map_of_mem _ hp))]
        rw [← List.getD_eq_getElem?_getD]
        exact hempty p (by simp [hp]))]
    rw [set_sum g hg cs q.1 q.2 hq1 hqe]
    rw [List.map_cons, List.sum_cons]
    omega

/-- Assigned canonical codes are 0/1 bit lists. -/
theorem canonAssignNW_bits (lst : List (Nat × Nat)) :
    ∀ (cur prev : Nat), ∀ q ∈ canonAssignNoWrap cur prev lst, ∀ x ∈ q.2, x ≤ 1 := by
  induction lst with
  | nil => intro cur prev q hq; simp [canonAssignNoWrap] at hq
  | cons p rest ih =>
    intro cur prev q hq
    rw [canonAssignNoWrap] at hq
    rcases List.mem_cons.mp hq with hq | hq
    · intro x hx
      rw [hq] at hx
      exact natBitsBE_le_one _ _ x hx
    · exact ih _ _ q hq

/-- Slot lookup in an `Option` table, through `get?`. -/
theorem getD_none_eq_some_iff (l : List (Option (List Nat))) (n : Nat) (x : List Nat) :
    l.getD n none = some x ↔ l.get? n = some (some x) := by
  rw [List.getD_eq_getElem?_getD, ← List.get?_eq_getElem?]
  cases hg : l.get? n with
  | none => simp
  | some o => simp

/-- Compressed streams are 0/1 bit lists when every code is. -/
theorem compress_canonical_bits (buffer : List Nat) :
    ∀ (codes : List (Option (List Nat))) (cbits : List Nat),
      (∀ b c, codes.getD b none = some c → ∀ x ∈ c, x ≤ 1) →
      compress_canonical buffer codes = some cbits → ∀ x ∈ cbits, x ≤ 1 := by
  induction buffer with
  | nil =>
    intro codes cbits _ h
    rw [compress_canonical] at h
    obtain rfl : ([] : List Nat) = cbits := Option.some.inj h
    simp
  | cons b rest ih =>
    intro codes cbits hc h
    rw [compress_canonical] at h
    rcases hcode : codes.getD b none with _ | code
    · rw [hcode] at h
      simp at h
    · rw [hcode] at h
      rcases hrest : compress_canonical rest codes with _ | bits
      · rw [hrest] at h
        simp at h
      · rw [hrest] at h
        have hcb : cbits = code ++ bits := by
          simp at h
          exact h.symm
        rw [hcb]
        intro x hx
        rcases List.mem_append.mp hx with hx | hx
        · exact hc b code hcode x hx
        · exact ih codes bits hc hrest x hx

/-- Compression against an all-`none` table succeeds only on the empty
buffer. -/
theorem compress_canonical_all_none (buffer : List Nat) (cbits : List Nat)
    (h : compress_canonical buffer (List.replicate 256 none) = some cbits) :
    buffer = [] := by
  cases buffer with
  | nil => rfl
  | cons b rest =>
    rw [compress_canonical] at h
    rw [getD_replicate_self (none : Option (List Nat)) 256 b] at h
    simp at h

/-- Under an inner root, every leaf path is non-empty. -/
theorem node_leafPaths_ne_nil (n : Nat) (l r : Node) (cur : List Nat) :
    ∀ p ∈ (Node.node n l r).leafPaths cur, p.2 ≠ [] := by
  intro p hp
  rw [Node.leafPaths] at hp
  have hlen : cur.length + 1 ≤ p.2.length := by
    rcases List.mem_append.mp hp with hp | hp
    · have := leafPaths_length_ge l (cur ++ [0]) p hp
      rw [List.length_append] at this
      simpa using this
    · have := leafPaths_length_ge r (cur ++ [1]) p hp
      rw [List.length_append] at this
      simpa using this
  intro hnil
  rw [hnil] at hlen
  simp at hlen

/-- The built tree's leaves are exactly the bytes of positive frequency. -/
theorem generate_huffman_tree_bytes (freq : Nat → Nat) (root : Node)
    (h : generate_huffman_tree freq = some root) :
    root.bytes.Perm ((List.range 256).filter (fun b => freq b > 0)) := by
  rw [generate_huffman_tree] at h
  have h1 := buildLoopFuel_bytes _ _ root h
  refine h1.trans ?_
  have h2 := heapFold_bytes (List.range 256) freq []
  simpa using h2

/-- A successful `get?` determines `getD`. -/
theorem get_opt_some_getD (l : List (List Nat)) (n : Nat) (c : List Nat)
    (h : l.get? n = some c) : l.getD n [] = c := by
  rw [List.getD_eq_getElem?_getD, ← List.get?_eq_getElem?, h]
  rfl

/-- An in-range `get?` returns the `getD` value. -/
theorem get_opt_eq_some_getD (l : List (List Nat)) (n : Nat) (h : n < l.length) :
    l.get? n = some (l.getD n []) := by
  rw [List.getD_eq_getElem?_getD, ← List.get?_eq_getElem?]
  cases hg : l.get? n with
  | none =>
    rw [List.get?_eq_none] at hg
    omega
  | some c => rfl

/-- The code table holds each leaf's path at the leaf's byte. -/
theorem generate_byte_codes_getD_mem (root : Node) (hnd : root.bytes.Nodup)
    (hlt : ∀ b ∈ root.bytes, b < 256) (b : Nat) (p : List Nat)
    (hp : (b, p) ∈ root.leafPaths []) :
    (generate_byte_codes root).getD b [] = p := by
  rw [generate_byte_codes, traverse_eq_foldl]
  apply foldl_set_getD_mem _ _ b p hp
  · rw [leafPaths_fst]
    exact hnd
  · rw [List.length_replicate]
    refine hlt b ?_
    rw [← leafPaths_fst root []]
    exact List.mem_map_of_mem _ hp

/-- Bytes outside the tree keep an empty code slot. -/
theorem generate_byte_codes_getD_not_mem (root : Node) (b : Nat)
    (hb : b ∉ root.bytes) : (generate_byte_codes root).getD b [] = [] := by
  rw [generate_byte_codes, traverse_eq_foldl]
  rw [foldl_set_getD_not_mem _ _ b (by rw [leafPaths_fst]; exact hb)]
  exact getD_replicate_self ([] : List Nat) 256 b

/-- The code table always has 256 slots. -/
theorem generate_byte_codes_length (root : Node) :
    (generate_byte_codes root).length = 256 := by
  rw [generate_byte_codes, traverse_eq_foldl, foldl_set_length, List.length_replicate]

/-- Kraft equality for the encoder's `(byte, length)` table: the scaled
weights of the table lengths sum to exactly `2^32` whenever every length
is at most 32, the tree's bytes are distinct bytes, and no leaf sits at
the root. -/
theorem pairs_kraft (root : Node) (hnd : root.bytes.Nodup)
    (hlt : ∀ b ∈ root.bytes, b < 256)
    (hshape : ∀ p ∈ root.leafPaths [], p.2 ≠ [])
    (hl32 : ∀ q ∈ code_lengths_of (generate_byte_codes root), q.2 ≤ 32) :
    kraftScaled 32 ((code_lengths_of (generate_byte_codes root)).map Prod.snd) = 2 ^ 32 := by
  have hdep : ∀ p ∈ root.leafPaths [], p.2.length ≤ 32 := by
    intro p hp
    have hslot : (generate_byte_codes root).getD p.1 [] = p.2 :=
      generate_byte_codes_getD_mem root hnd hlt p.1 p.2 hp
    have hb256 : p.1 < 256 := by
      refine hlt p.1 ?_
      rw [← leafPaths_fst root []]
      exact List.mem_map_of_mem _ hp
    have hget : (generate_byte_codes root).get? p.1 = some p.2 := by
      rw [get_opt_eq_some_getD _ _ (by rw [generate_byte_codes_length]; exact hb256), hslot]
    have hmem : (p.1, p.2.length) ∈ code_lengths_of (generate_byte_codes root) :=
      (mem_code_lengths_of _ _ _).mpr ⟨p.2, hget, hshape p hp, rfl⟩
    exact hl32 _ hmem
  have hg0 : (fun c : List Nat => if c.isEmpty then 0 else 2 ^ (32 - c.length)) [] = 0 := rfl
  rw [kraftScaled, List.map_map]
  have hsum : (List.map (fun q : Nat × Nat => (2 : Nat) ^ (32 - q.2))
      (code_lengths_of (generate_byte_codes root))).sum
      = ((generate_byte_codes root).map
        (fun c => if c.isEmpty then 0 else 2 ^ (32 - c.length))).sum :=
    code_lengths_sum (generate_byte_codes root) (fun l => 2 ^ (32 - l))
  rw [show ((fun l => (2 : Nat) ^ (32 - l)) ∘ Prod.snd)
      = (fun q : Nat × Nat => (2 : Nat) ^ (32 - q.2)) from rfl]
  rw [hsum]
  rw [generate_byte_codes, traverse_eq_foldl]
  rw [foldl_set_sum _ hg0 _ _ (by rw [leafPaths_fst]; exact hnd)
    (fun p hp => by
      rw [List.length_replicate]
      refine hlt p.1 ?_
      rw [← leafPaths_fst root []]
      exact List.mem_map_of_mem _ hp)
    (fun p hp => getD_replicate_self ([] : List Nat) 256 p.1)]
  have hz : ((List.replicate 256 ([] : List Nat)).map
      (fun c => if c.isEmpty then 0 else 2 ^ (32 - c.length))).sum = 0 := by
    rw [List.map_replicate]
    rw [show (if List.isEmpty ([] : List Nat) then 0
        else 2 ^ (32 - List.length ([] : List Nat))) = 0 from rfl]
    rw [List.sum_replicate]
    simp
  rw [hz]
  have hcongr : (root.leafPaths []).map
      (fun p => (fun c : List Nat => if c.isEmpty then 0 else 2 ^ (32 - c.length)) p.2)
      = (root.leafPaths []).map (fun p => 2 ^ (32 - p.2.length)) := by
    apply List.map_congr_left
    intro p hp
    have : ¬ p.2.isEmpty := by simpa using hshape p hp
    simp [this]
  rw [hcongr, kraft_leafPaths root [] 32 hdep]
  simp

/-- Master round-trip: whenever the Huffman pipeline produces a table and
a compressed bit stream whose code lengths fit the 32-bit canonical
accumulator and whose bit count fits the 32-bit length field, the framed
output decodes back to the original buffer. -/
theorem huffmanRoundtripAux (buffer : List Nat) (pairs : List (Nat × Nat)) (cbits : List Nat)
    (hpairs : canonicalHuffmanCodeLengths buffer = some pairs)
    (hcb : compress_canonical buffer (generate_canonical_codes pairs) = some cbits)
    (hl32 : ∀ q ∈ pairs, q.2 ≤ 32)
    (hsz : cbits.length < 2 ^ 32) :
    canonical_huffman_compress buffer = some (write_data_canonical pairs cbits) ∧
    read_data_canonical (write_data_canonical pairs cbits) = some buffer := by
  rcases hgen : generate_huffman_tree (calculate_byte_frequencies buffer) with _ | root
  · rw [canonicalHuffmanCodeLengths, hgen] at hpairs
    exact absurd hpairs (by simp)
  have hcl : canonicalHuffmanCodeLengths buffer
      = some (code_lengths_of (generate_byte_codes root)) := by
    rw [canonicalHuffmanCodeLengths, hgen]
  have hpairs' : pairs = code_lengths_of (generate_byte_codes root) := by
    rw [canonicalHuffmanCodeLengths, hgen] at hpairs
    exact (Option.some.inj hpairs).symm
  subst hpairs'
  constructor
  · rw [canonical_huffman_compress, hcl]
    dsimp only
    rw [hcb]
  -- tree facts
  have hperm := generate_huffman_tree_bytes _ root hgen
  have hnd : root.bytes.Nodup :=
    hperm.nodup_iff.mpr (List.Nodup.filter _ (List.nodup_range 256))
  have hlt : ∀ b ∈ root.bytes, b < 256 := by
    intro b hb
    have h1 := hperm.mem_iff.mp hb
    have h2 := List.mem_range.mp (List.mem_of_mem_filter h1)
    omega
  -- shape: a leaf root contradicts a successful compression
  have hshape : ∀ p ∈ root.leafPaths [], p.2 ≠ [] := by
    rcases hr : root with ⟨n0, b0⟩ | ⟨n0, lt, rt⟩
    · exfalso
      have hall : ∀ c ∈ generate_byte_codes (Node.leaf n0 b0), c = [] := by
        intro c hc
        rw [generate_byte_codes, show traverse (Node.leaf n0 b0) [] (List.replicate 256 [])
            = (List.replicate 256 []).set b0 [] from rfl] at hc
        rcases List.mem_or_eq_of_mem_set hc with hc | hc
        · exact List.eq_of_mem_replicate hc
        · exact hc
      have hclempty : code_lengths_of (generate_byte_codes (Node.leaf n0 b0)) = [] :=
        code_lengths_of_all_empty _ hall
      rw [hr, hclempty] at hcb
      have hgcc : generate_canonical_codes [] = List.replicate 256 none := rfl
      rw [hgcc] at hcb
      have hbuf : buffer = [] := compress_canonical_all_none buffer cbits hcb
      rw [hbuf] at hgen
      have hfreq : ∀ b ∈ List.range 256, ¬ calculate_byte_frequencies [] b > 0 := by
        intro b _
        simp [calculate_byte_frequencies]
      rw [generate_huffman_tree] at hgen
      rw [heapFold_zero (List.range 256) (calculate_byte_frequencies []) [] hfreq] at hgen
      exact absurd hgen (by simp [buildLoopFuel])
    · exact node_leafPaths_ne_nil n0 lt rt []
  -- table facts
  have h256 : ∀ q ∈ code_lengths_of (generate_byte_codes root), q.1 < 256 := by
    rintro ⟨b, l⟩ hq
    obtain ⟨c, hget, _, _⟩ := (mem_code_lengths_of _ _ _).mp hq
    have hblt : b < (generate_byte_codes root).length := by
      by_contra hc
      rw [List.get?_eq_none.mpr (by omega)] at hget
      simp at hget
    rw [generate_byte_codes_length] at hblt
    exact hblt
  have hlen1 : ∀ q ∈ code_lengths_of (generate_byte_codes root), 1 ≤ q.2 := by
    rintro ⟨b, l⟩ hq
    obtain ⟨c, _, hne, hl⟩ := (mem_code_lengths_of _ _ _).mp hq
    have := List.length_pos.mpr hne
    show 1 ≤ l
    omega
  have hkeysnd : ((code_lengths_of (generate_byte_codes root)).map Prod.fst).Nodup := by
    rw [List.Nodup, List.pairwise_map]
    exact code_lengths_of_fst_pairwise _
  have hlp : (code_lengths_of (generate_byte_codes root)).length < 2 ^ 32 := by
    have h1 : (code_lengths_of (generate_byte_codes root)).length
        ≤ ((generate_byte_codes root).enum).length := by
      rw [code_lengths_of]
      exact List.length_filterMap_le _ _
    rw [List.enum_length, generate_byte_codes_length] at h1
    omega
  -- sorted table facts
  have hsortperm := List.perm_insertionSort canonicalLe
    (code_lengths_of (generate_byte_codes root))
  have hsorted : (List.insertionSort canonicalLe
      (code_lengths_of (generate_byte_codes root))).Pairwise canonicalLe :=
    List.sorted_insertionSort canonicalLe _
  have hlensorted : (List.insertionSort canonicalLe
      (code_lengths_of (generate_byte_codes root))).Pairwise (fun a b => a.2 ≤ b.2) :=
    hsorted.imp (fun hab => by unfold canonicalLe at hab; omega)
  have h32sorted : ∀ q ∈ List.insertionSort canonicalLe
      (code_lengths_of (generate_byte_codes root)), q.2 ≤ 32 :=
    fun q hq => hl32 q (hsortperm.mem_iff.mp hq)
  have hkraftval : kraftScaled 32 ((List.insertionSort canonicalLe
      (code_lengths_of (generate_byte_codes root))).map Prod.snd)
      = kraftScaled 32 ((code_lengths_of (generate_byte_codes root)).map Prod.snd) := by
    rw [kraftScaled, kraftScaled]
    exact ((hsortperm.map Prod.snd).map _).sum_eq
  have hkraft : 0 * 2 ^ (32 - 0) + kraftScaled 32 ((List.insertionSort canonicalLe
      (code_lengths_of (generate_byte_codes root))).map Prod.snd) ≤ 2 ^ 32 := by
    rw [hkraftval, pairs_kraft root hnd hlt hshape hl32]
    omega
  have hprev0 : ∀ q ∈ List.insertionSort canonicalLe
      (code_lengths_of (generate_byte_codes root)), 0 ≤ q.2 := fun q _ => Nat.zero_le _
  -- the assignment
  have hnoA := canonAssign_eq_noWrap _ 0 0 hlensorted hprev0 h32sorted hkraft
  have hgcceq : generate_canonical_codes (code_lengths_of (generate_byte_codes root))
      = (canonAssignNoWrap 0 0 (List.insertionSort canonicalLe
          (code_lengths_of (generate_byte_codes root)))).foldl
        (fun cs q => cs.set q.1 (some q.2)) (List.replicate 256 none) := by
    rw [generate_canonical_codes_eq, hnoA]
  have hAfstkeys : ((canonAssignNoWrap 0 0 (List.insertionSort canonicalLe
      (code_lengths_of (generate_byte_codes root)))).map Prod.fst).Nodup := by
    rw [canonAssignNW_fst]
    exact ((hsortperm.map Prod.fst).nodup_iff).mpr hkeysnd
  have hAcodes := canonAssignNW_codes _ 0 0 hlensorted hprev0 h32sorted hkraft
  have hApw := canonAssignNW_pairwise _ 0 0 hlensorted hprev0 h32sorted hkraft
  have hAbits := canonAssignNW_bits (List.insertionSort canonicalLe
      (code_lengths_of (generate_byte_codes root))) 0 0
  -- entry bytes are below 256
  have hAb256 : ∀ e ∈ canonAssignNoWrap 0 0 (List.insertionSort canonicalLe
      (code_lengths_of (generate_byte_codes root))), e.1 < 256 := by
    intro e he
    obtain ⟨l, v, _, _, _, _, _, hmem⟩ := hAcodes e he
    have hmemcl := hsortperm.mem_iff.mp hmem
    exact h256 (e.1, l) hmemcl
  -- slot characterization
  have hslots : ∀ b c, (generate_canonical_codes
      (code_lengths_of (generate_byte_codes root))).getD b none = some c
      ↔ (b, c) ∈ canonAssignNoWrap 0 0 (List.insertionSort canonicalLe
          (code_lengths_of (generate_byte_codes root))) := by
    intro b c
    rw [hgcceq]
    constructor
    · intro hget
      by_cases hb : b ∈ (canonAssignNoWrap 0 0 (List.insertionSort canonicalLe
          (code_lengths_of (generate_byte_codes root)))).map Prod.fst
      · obtain ⟨e, he, hefst⟩ := List.mem_map.mp hb
        have he' : (b, e.2) ∈ canonAssignNoWrap 0 0 (List.insertionSort canonicalLe
            (code_lengths_of (generate_byte_codes root))) := by
          rw [← hefst]
          exact he
        have := foldl_set_some_getD_mem _ (List.replicate 256 none) b e.2 he' hAfstkeys
          (by rw [List.length_replicate]; rw [← hefst]; exact hAb256 e he)
        rw [this] at hget
        rw [← Option.some.inj hget]
        exact he'
      · rw [foldl_set_some_getD_not_mem _ _ b hb] at hget
        rw [getD_replicate_self (none : Option (List Nat)) 256 b] at hget
        simp at hget
    · intro hmem
      exact foldl_set_some_getD_mem _ (List.replicate 256 none) b c hmem hAfstkeys
        (by rw [List.length_replicate]; exact hAb256 (b, c) hmem)
  -- trie assignment list
  have htA : ∀ x : Nat × List Nat,
      x ∈ trieAssignments (generate_canonical_codes
        (code_lengths_of (generate_byte_codes root)))
      ↔ x ∈ canonAssignNoWrap 0 0 (List.insertionSort canonicalLe
          (code_lengths_of (generate_byte_codes root))) := by
    rintro ⟨b, c⟩
    rw [mem_trieAssignments, ← getD_none_eq_some_iff]
    exact hslots b c
  have hAfa := List.Pairwise.forall
    (show Symmetric (fun q1 q2 : Nat × List Nat =>
        ¬ isCodePre q1.2 q2.2 ∧ ¬ isCodePre q2.2 q1.2) from
      fun x y h => ⟨h.2, h.1⟩) hApw
  have h_tApw : (trieAssignments (generate_canonical_codes
      (code_lengths_of (generate_byte_codes root)))).Pairwise
      (fun q1 q2 => ¬ isCodePre q1.2 q2.2 ∧ ¬ isCodePre q2.2 q1.2) := by
    refine List.Pairwise.imp_of_mem ?_ (trieAssignments_fst_pairwise _)
    intro x y hx hy hne
    exact hAfa ((htA x).mp hx) ((htA y).mp hy)
      (fun he => hne (congrArg Prod.fst he))
  have h_tAsnd : ((trieAssignments (generate_canonical_codes
      (code_lengths_of (generate_byte_codes root)))).map Prod.snd).Nodup := by
    rw [List.Nodup, List.pairwise_map]
    refine h_tApw.imp ?_
    intro a b hab he
    exact hab.1 ⟨[], by rw [List.append_nil, he]⟩
  have hbits_tA : ∀ e ∈ trieAssignments (generate_canonical_codes
      (code_lengths_of (generate_byte_codes root))), ∀ x ∈ e.2, x ≤ 1 :=
    fun e he => hAbits e ((htA e).mp he)
  -- the decoding-trie hypotheses
  have Hfacts : ∀ b c, (generate_canonical_codes
      (code_lengths_of (generate_byte_codes root))).getD b none = some c →
      c ≠ [] ∧
      (∀ j ≤ c.length, (followPath (build_decoding_tree (generate_canonical_codes
        (code_lengths_of (generate_byte_codes root)))) (c.take j)).isSome) ∧
      (∀ j, 1 ≤ j → j < c.length → byteAtPath (build_decoding_tree (generate_canonical_codes
        (code_lengths_of (generate_byte_codes root)))) (c.take j) = none) ∧
      byteAtPath (build_decoding_tree (generate_canonical_codes
        (code_lengths_of (generate_byte_codes root)))) c = some b := by
    intro b c hget
    have hmemA := (hslots b c).mp hget
    have hmemtA := (htA (b, c)).mpr hmemA
    obtain ⟨l, v, hcv, _, _, _, _, hmemsorted⟩ := hAcodes (b, c) hmemA
    have hclen : c.length = l := by
      rw [show ((b, c) : Nat × List Nat).2 = c from rfl] at hcv
      rw [hcv, natBitsBE_length]
    have hl1 : 1 ≤ l := by
      have := hlen1 (b, l) (hsortperm.mem_iff.mp hmemsorted)
      exact this
    have hcne : c ≠ [] := by
      intro hnil
      rw [hnil] at hclen
      simp at hclen
      omega
    rw [build_decoding_tree_eq]
    refine ⟨hcne, ?_, ?_, ?_⟩
    · intro j hj
      exact followPath_foldl_take _ DecodeNode.new b c hmemtA j hj
    · intro j hj1 hjlt
      rw [byteAtPath_foldl_not_mem _ DecodeNode.new (c.take j) hbits_tA
        (fun x hx => hAbits (b, c) hmemA x (List.mem_of_mem_take hx)) ?_]
      · exact byteAtPath_new _
      · intro hqin
        obtain ⟨e, he, hesnd⟩ := List.mem_map.mp hqin
        have heA := (htA e).mp he
        by_cases hee : e = (b, c)
        · rw [hee] at hesnd
          have : c.length = (c.take j).length := by rw [← hesnd]
          rw [List.length_take] at this
          omega
        · have hR := hAfa heA hmemA hee
          exact hR.1 ⟨c.drop j, by rw [hesnd, List.take_append_drop]⟩
    · exact byteAtPath_foldl_mem _ DecodeNode.new b c hmemtA h_tAsnd hbits_tA
  -- compressed bits are 0/1
  have hc01 : ∀ x ∈ cbits, x ≤ 1 := by
    refine compress_canonical_bits buffer _ cbits ?_ hcb
    intro b c hget
    exact hAbits (b, c) ((hslots b c).mp hget)
  -- decode via the framing theorem
  have hframe := read_data_canonical_write (code_lengths_of (generate_byte_codes root)) cbits
    (fun q hq => ⟨h256 q hq, by have := hl32 q hq; omega⟩) hlp hsz hc01
  rw [hframe]
  have hdecode := decodeCanonicalGo_compress _ _ Hfacts buffer cbits hcb
  rw [decode_canonical]
  exact hdecode

/-- Byte frequencies of the counterexample input. -/
theorem huffC2Bad_freq0 : calculate_byte_frequencies huffC2Bad 0 = 2 ^ 32 - 1 := by
  show (List.replicate (2 ^ 32 - 1) 0 ++ [1]).count 0 = 2 ^ 32 - 1
  rw [List.count_append, List.count_replicate_self]
  rfl

/-- Byte frequencies of the counterexample input. -/
theorem huffC2Bad_freq1 : calculate_byte_frequencies huffC2Bad 1 = 1 := by
  show (List.replicate (2 ^ 32 - 1) 0 ++ [1]).count 1 = 1
  rw [List.count_append, List.count_replicate]
  rfl

/-- Byte frequencies of the counterexample input. -/
theorem huffC2Bad_freq_ge2 (b : Nat) (hb : 2 ≤ b) :
    calculate_byte_frequencies huffC2Bad b = 0 := by
  show (List.replicate (2 ^ 32 - 1) 0 ++ [1]).count b = 0
  rw [List.count_append, List.count_replicate]
  rw [if_neg (by simp; omega)]
  rw [List.count_cons, List.count_nil, if_neg (by simp; omega)]

/-- The Huffman tree of the counterexample input: one leaf per value,
the lighter `1` leaf on the left. -/
theorem huffC2Bad_tree : generate_huffman_tree (calculate_byte_frequencies huffC2Bad)
    = some (Node.node (1 + (2 ^ 32 - 1)) (Node.leaf 1 1) (Node.leaf (2 ^ 32 - 1) 0)) := by
  rw [generate_huffman_tree]
  have hsplit : List.range 256 = [0, 1] ++ List.range' 2 254 := by
    rw [List.range_eq_range']
    rw [← List.range'_append 0 2 254 1]
    rfl
  have hzero : ∀ b ∈ List.range' 2 254, ¬ calculate_byte_frequencies huffC2Bad b > 0 := by
    intro b hb
    obtain ⟨i, _, hbi⟩ := List.mem_range'.mp hb
    rw [huffC2Bad_freq_ge2 b (by omega)]
    omega
  have hheap : (List.range 256).foldl
      (fun q byte => if calculate_byte_frequencies huffC2Bad byte > 0
        then heapPush q (.leaf (calculate_byte_frequencies huffC2Bad byte) byte) else q) []
      = [Node.leaf 1 1, Node.leaf (2 ^ 32 - 1) 0] := by
    rw [hsplit, List.foldl_append]
    rw [heapFold_zero _ _ _ hzero]
    rw [List.foldl_cons, List.foldl_cons, List.foldl_nil]
    rw [huffC2Bad_freq0, huffC2Bad_freq1]
    rw [if_pos (by norm_num), if_pos (by norm_num)]
    rw [show heapPush [] (Node.leaf (2 ^ 32 - 1) 0) = [Node.leaf (2 ^ 32 - 1) 0] from rfl]
    rw [heapPush]
    rw [if_pos (by show (1 : Nat) < 2 ^ 32 - 1; norm_num)]
  show buildLoopFuel _ _ = _
  rw [hheap]
  rfl

set_option maxRecDepth 100000 in
/-- The `(byte, length)` table of the counterexample input: both values
receive one-bit codes. -/
theorem huffC2Bad_pairs : canonicalHuffmanCodeLengths huffC2Bad = some [(0, 1), (1, 1)] := by
  rw [canonicalHuffmanCodeLengths, huffC2Bad_tree]
  rfl

set_option maxRecDepth 100000 in
/-- Compressing the counterexample input maps byte `0` to code `[0]` and
byte `1` to code `[1]`: the compressed bit stream equals the input. -/
theorem huffC2Bad_compressed (n : Nat) :
    compress_canonical (List.replicate n 0 ++ [1])
      (generate_canonical_codes [(0, 1), (1, 1)])
      = some (List.replicate n 0 ++ [1]) := by
  induction n with
  | zero => rfl
  | succ n ih =>
    rw [List.replicate_succ, List.cons_append, compress_canonical]
    rw [show (generate_canonical_codes [(0, 1), (1, 1)]).getD 0 none = some [0] from by rfl]
    dsimp only
    rw [ih]
    rfl

/-- The compression path, assembled from its two stages. -/
theorem canonical_huffman_compress_eq (buffer : List Nat) (pairs : List (Nat × Nat))
    (cbits : List Nat)
    (h1 : canonicalHuffmanCodeLengths buffer = some pairs)
    (h2 : compress_canonical buffer (generate_canonical_codes pairs) = some cbits) :
    canonical_huffman_compress buffer = some (write_data_canonical pairs cbits) := by
  rw [canonical_huffman_compress, h1]
  dsimp only
  rw [h2]

/-- The full pipeline on the counterexample input: compression succeeds,
but the decoder — whose 32-bit stored bit count has wrapped to 0 — reads
zero code bits and returns the empty buffer. -/
theorem huffC2Bad_decode :
    canonical_huffman_compress huffC2Bad
      = some (write_data_canonical [(0, 1), (1, 1)] huffC2Bad) ∧
    read_data_canonical (write_data_canonical [(0, 1), (1, 1)] huffC2Bad) = some [] := by
  have hcomp : compress_canonical huffC2Bad (generate_canonical_codes [(0, 1), (1, 1)])
      = some huffC2Bad := huffC2Bad_compressed (2 ^ 32 - 1)
  constructor
  · exact canonical_huffman_compress_eq huffC2Bad [(0, 1), (1, 1)] huffC2Bad
      huffC2Bad_pairs hcomp
  · have h01 : ∀ b ∈ huffC2Bad, b ≤ 1 := by
      intro b hb
      rw [huffC2Bad] at hb
      rcases List.mem_append.mp hb with hb | hb
      · have := List.eq_of_mem_replicate hb
        omega
      · simp at hb
        omega
    have hread := read_data_canonical_write_general [(0, 1), (1, 1)] huffC2Bad
      (by decide) (by norm_num) h01
    rw [hread]
    have hlen : huffC2Bad.length = 2 ^ 32 := by
      rw [huffC2Bad, List.length_append, List.length_replicate]
      have h1 : (1 : Nat) ≤ 2 ^ 32 := Nat.one_le_two_pow
      simp
    rw [hlen, Nat.mod_self, List.take_zero]
    rfl

/-- C2: (corrected) for every input buffer on which the canonical Huffman
pipeline produces a `(byte, length)` table and a compressed bit stream —
which it does exactly when the input holds at least two distinct byte
values — IF every code length fits the 32-bit canonical-code accumulator
and the compressed stream holds fewer than `2^32` bits, then compressing
(frequency table, tree, code lengths, canonical codes, framed stream) and
decompressing (regenerate the canonical codes from the serialized pairs,
build the decoding trie, read exactly the stored number of code bits)
yields exactly the input.  Without the `2^32`-bit bound the claim is
false: the stored bit count is a wrapped 32-bit field (see the
counterexample). -/
theorem C2_huffman_roundtrip (buffer : List Nat) (pairs : List (Nat × Nat)) (cbits : List Nat)
    (hpairs : canonicalHuffmanCodeLengths buffer = some pairs)
    (hcb : compress_canonical buffer (generate_canonical_codes pairs) = some cbits)
    (hl32 : ∀ q ∈ pairs, q.2 ≤ 32)
    (hsz : cbits.length < 2 ^ 32) :
    canonical_huffman_compress buffer = some (write_data_canonical pairs cbits) ∧
    read_data_canonical (write_data_canonical pairs cbits) = some buffer :=
  huffmanRoundtripAux buffer pairs cbits hpairs hcb hl32 hsz

set_option maxRecDepth 1000000 in
/-- Witness for C2 at the buffer `AABBC` (bytes 65,65,66,66,67): the
pipeline's table is `[(65,2),(66,1),(67,2)]`, its compressed stream is the
8 bits `10100011`, and the framed output decodes back to the input. -/
theorem C2_huffman_roundtrip_witness :
    canonicalHuffmanCodeLengths [65, 65, 66, 66, 67] = some [(65, 2), (66, 1), (67, 2)] ∧
    compress_canonical [65, 65, 66, 66, 67]
      (generate_canonical_codes [(65, 2), (66, 1), (67, 2)])
      = some [1, 0, 1, 0, 0, 0, 1, 1] ∧
    (∀ q ∈ [(65, 2), (66, 1), (67, 2)], q.2 ≤ 32) ∧
    ([1, 0, 1, 0, 0, 0, 1, 1] : List Nat).length < 2 ^ 32 ∧
    (canonical_huffman_compress [65, 65, 66, 66, 67]
        = some (write_data_canonical [(65, 2), (66, 1), (67, 2)] [1, 0, 1, 0, 0, 0, 1, 1]) ∧
      read_data_canonical
          (write_data_canonical [(65, 2), (66, 1), (67, 2)] [1, 0, 1, 0, 0, 0, 1, 1])
        = some [65, 65, 66, 66, 67]) :=
  ⟨by rfl, by rfl, by decide, by norm_num,
    C2_huffman_roundtrip [65, 65, 66, 66, 67] [(65, 2), (66, 1), (67, 2)]
      [1, 0, 1, 0, 0, 0, 1, 1] (by rfl) (by rfl) (by decide) (by norm_num)⟩

/-- Counterexample to the unrestricted C2 claim: the input of `2^32 - 1`
zero bytes followed by one `1` byte has two distinct byte values and
compresses successfully to a one-bit-per-byte stream of exactly `2^32`
bits, so the 32-bit data-length field of the frame wraps to 0 and the
decoder returns the empty buffer instead of the input. -/
theorem C2_huffman_roundtrip_counterexample :
    (0 : Nat) ∈ huffC2Bad ∧ (1 : Nat) ∈ huffC2Bad ∧ (0 : Nat) ≠ 1 ∧
    canonical_huffman_compress huffC2Bad
      = some (write_data_canonical [(0, 1), (1, 1)] huffC2Bad) ∧
    read_data_canonical (write_data_canonical [(0, 1), (1, 1)] huffC2Bad) = some [] ∧
    some ([] : List Nat) ≠ some huffC2Bad := by
  refine ⟨?_, ?_, by omega, huffC2Bad_decode.1, huffC2Bad_decode.2, ?_⟩
  · rw [huffC2Bad]
    refine List.mem_append.mpr (Or.inl ?_)
    exact List.mem_replicate.mpr ⟨by norm_num, rfl⟩
  · rw [huffC2Bad]
    refine List.mem_append.mpr (Or.inr ?_)
    simp
  · intro h
    have h0 := congrArg List.length (Option.some.inj h)
    rw [huffC2Bad, List.length_append, List.length_replicate] at h0
    simp only [List.length_nil, List.length_singleton] at h0
    have h1 : (1 : Nat) ≤ 2 ^ 32 := Nat.one_le_two_pow
    omega

/-- C7: for every `(byte, length)` table the Huffman encoder produces for
a buffer (with each length fitting the 8-bit length field of the frame)
and the encoder's compressed bit stream, the decoder's table-recovery
stage reads back exactly the encoder's pairs from the framed file, and the
canonical code table it regenerates from them — by the same deterministic
sort-by-(length, byte), shift, assign, increment procedure
`generate_canonical_codes` — is exactly the encoder's table. -/
theorem C7_canonical_table_regenerated (buffer : List Nat) (pairs : List (Nat × Nat))
    (cbits : List Nat)
    (hpairs : canonicalHuffmanCodeLengths buffer = some pairs)
    (hcb : compress_canonical buffer (generate_canonical_codes pairs) = some cbits)
    (hlen8 : ∀ q ∈ pairs, q.2 < 256)
    (hlc : cbits.length < 2 ^ 32)
    (hc01 : ∀ b ∈ cbits, b ≤ 1) :
    read_table_pairs (write_data_canonical pairs cbits) = some pairs ∧
    (read_table_pairs (write_data_canonical pairs cbits)).map generate_canonical_codes
      = some (generate_canonical_codes pairs) := by
  rcases hgen : generate_huffman_tree (calculate_byte_frequencies buffer) with _ | root
  · rw [canonicalHuffmanCodeLengths, hgen] at hpairs
    exact absurd hpairs (by simp)
  have hpairs' : pairs = code_lengths_of (generate_byte_codes root) := by
    rw [canonicalHuffmanCodeLengths, hgen] at hpairs
    exact (Option.some.inj hpairs).symm
  subst hpairs'
  have h256 : ∀ q ∈ code_lengths_of (generate_byte_codes root), q.1 < 256 := by
    rintro ⟨b, l⟩ hq
    obtain ⟨c, hget, _, _⟩ := (mem_code_lengths_of _ _ _).mp hq
    have hblt : b < (generate_byte_codes root).length := by
      by_contra hc
      rw [List.get?_eq_none.mpr (by omega)] at hget
      simp at hget
    rw [generate_byte_codes_length] at hblt
    exact hblt
  have hlp : (code_lengths_of (generate_byte_codes root)).length < 2 ^ 32 := by
    have h1 : (code_lengths_of (generate_byte_codes root)).length
        ≤ ((generate_byte_codes root).enum).length := by
      rw [code_lengths_of]
      exact List.length_filterMap_le _ _
    rw [List.enum_length, generate_byte_codes_length] at h1
    omega
  have htab := read_table_pairs_write (code_lengths_of (generate_byte_codes root)) cbits
    (fun q hq => ⟨h256 q hq, hlen8 q hq⟩) hlp hlc hc01
  refine ⟨htab, ?_⟩
  rw [htab]
  rfl

set_option maxRecDepth 1000000 in
/-- Witness for C7 at the buffer `AABBC`: the decoder reads back exactly
the encoder's table `[(65,2),(66,1),(67,2)]` and regenerates the same
canonical code table from it. -/
theorem C7_canonical_table_regenerated_witness :
    canonicalHuffmanCodeLengths [65, 65, 66, 66, 67] = some [(65, 2), (66, 1), (67, 2)] ∧
    compress_canonical [65, 65, 66, 66, 67]
      (generate_canonical_codes [(65, 2), (66, 1), (67, 2)])
      = some [1, 0, 1, 0, 0, 0, 1, 1] ∧
    (∀ q ∈ [(65, 2), (66, 1), (67, 2)], q.2 < 256) ∧
    (read_table_pairs
        (write_data_canonical [(65, 2), (66, 1), (67, 2)] [1, 0, 1, 0, 0, 0, 1, 1])
      = some [(65, 2), (66, 1), (67, 2)] ∧
    (read_table_pairs
        (write_data_canonical [(65, 2), (66, 1), (67, 2)] [1, 0, 1, 0, 0, 0, 1, 1])).map
          generate_canonical_codes
      = some (generate_canonical_codes [(65, 2), (66, 1), (67, 2)])) :=
  ⟨by rfl, by rfl, by decide,
    C7_canonical_table_regenerated [65, 65, 66, 66, 67] [(65, 2), (66, 1), (67, 2)]
      [1, 0, 1, 0, 0, 0, 1, 1] (by rfl) (by rfl) (by decide) (by norm_num) (by decide)⟩
